import Mathlib

/-! Gate kernels of the `_cppkernels/intrin` simulator backend.

A shallow embedding of `cintrin.hpp`, `kernel1.hpp`, `kernel2.hpp`, the collapse
depths of `kernels.hpp` and the handle comparison of `alignedallocator.hpp`.

* A `__m256d` register is a record of four real lanes; floating point
  arithmetic is taken as exact real arithmetic.
* The state vector `psi` (a `std::vector<std::complex<double>>`) is a
  `List ℂ`; `psi[i]` is `psi.getD i 0` and a store is `List.set`.
* `std::size_t` and `unsigned` values are natural numbers.  Under the kernels'
  preconditions (`psi.size() = 2^N`, targets below `N`) every value the loops
  compute is at most `psi.size()`, itself a `std::size_t`, so no shift or sum
  wraps around.
* A C `for` loop `for (i = lo; i < hi; i += step) body` is `forLoop`.  The
  `#pragma omp for` work-sharing loops are run in their sequential order; the
  group updates of one call commute (claim C9), so the order is immaterial.
  `forLoopFuel` is the same loop without the guard on the step, bounded by an
  iteration budget; it is used to state that the loop nests terminate.
* `ompForCollapse c` is `#pragma omp for collapse(c)` over a loop nest given
  by its headers: the `c` outermost loops form the collapsed iteration space.
  `kernel_omp` is `kernel` with its pragmas written out, and equals `kernel`.
* An `aligned_allocator<T, Alignment>` handle is the pair of its template
  arguments; `a == b` and `a != b` pick the member that C++ overload
  resolution picks for the static types of `a` and `b`.
-/

namespace Divya

/-! ## `cintrin.hpp`: the AVX lane primitives -/

/-- Four packed double lanes of one AVX register, lane 0 first. -/
structure __m256d where
  x0 : ℝ
  x1 : ℝ
  x2 : ℝ
  x3 : ℝ

/-- Lane-wise product, `_mm256_mul_pd(a, b)`. -/
def _mm256_mul_pd (a b : __m256d) : __m256d :=
  ⟨a.x0 * b.x0, a.x1 * b.x1, a.x2 * b.x2, a.x3 * b.x3⟩

/-- Lane-wise sum, `_mm256_add_pd(a, b)`. -/
def _mm256_add_pd (a b : __m256d) : __m256d :=
  ⟨a.x0 + b.x0, a.x1 + b.x1, a.x2 + b.x2, a.x3 + b.x3⟩

/-- Horizontal subtract, `_mm256_hsub_pd(a, b)`:
`(a0 - a1, b0 - b1, a2 - a3, b2 - b3)`. -/
def _mm256_hsub_pd (a b : __m256d) : __m256d :=
  ⟨a.x0 - a.x1, b.x0 - b.x1, a.x2 - a.x3, b.x2 - b.x3⟩

/-- In-lane shuffle, `_mm256_permute_pd(a, imm8)`: bit `k` of `imm8` selects
the upper (set) or lower (clear) element of the 128-bit half holding lane `k`. -/
def _mm256_permute_pd (a : __m256d) (imm8 : Nat) : __m256d :=
  ⟨if imm8.testBit 0 then a.x1 else a.x0,
   if imm8.testBit 1 then a.x1 else a.x0,
   if imm8.testBit 2 then a.x3 else a.x2,
   if imm8.testBit 3 then a.x3 else a.x2⟩

/-- Register from four scalars in memory order, `_mm256_setr_pd(e0, e1, e2, e3)`. -/
def _mm256_setr_pd (e0 e1 e2 e3 : ℝ) : __m256d :=
  ⟨e0, e1, e2, e3⟩

/-- Two-address load, `_mm256_loadu2_m128d(hiaddr, loaddr)`: the complex
number at `loaddr` fills lanes 0..1 and the one at `hiaddr` lanes 2..3. -/
def _mm256_loadu2_m128d (hi lo : ℂ) : __m256d :=
  ⟨lo.re, lo.im, hi.re, hi.im⟩

/-- Two-address store, `_mm256_storeu2_m128d(hiaddr, loaddr, a)`, on a state
vector: lanes 0..1 go to index `loaddr` first, then lanes 2..3 to `hiaddr`. -/
def _mm256_storeu2_m128d (psi : List ℂ) (hiaddr loaddr : Nat) (a : __m256d) : List ℂ :=
  (psi.set loaddr ⟨a.x0, a.x1⟩).set hiaddr ⟨a.x2, a.x3⟩

/-- The free function `mul(c1, c2, c2tm)` on raw registers. -/
def mul (c1 c2 c2tm : __m256d) : __m256d :=
  let ac_bd := _mm256_mul_pd c1 c2
  let multbmadmc := _mm256_mul_pd c1 c2tm
  _mm256_hsub_pd ac_bd multbmadmc

/-- The free function `add(c1, c2)` on raw registers. -/
def add (c1 c2 : __m256d) : __m256d :=
  _mm256_add_pd c1 c2

/-- Broadcast load `load2(p)`: the complex number at `p` in both halves. -/
def load2 (p : ℂ) : __m256d :=
  ⟨p.re, p.im, p.re, p.im⟩

/-- Pair load `load(p1, p2)`, that is `_mm256_loadu2_m128d(p2, p1)`. -/
def load (p1 p2 : ℂ) : __m256d :=
  _mm256_loadu2_m128d p2 p1

/-- The wrapper class `cintrin<double>`, holding one register `v_`. -/
structure cintrin where
  v_ : __m256d

namespace cintrin

/-- The overload `mul(cintrin, cintrin, cintrin)`. -/
def mul (c1 c2 c2tm : cintrin) : cintrin :=
  let ac_bd := _mm256_mul_pd c1.v_ c2.v_
  let multbmadmc := _mm256_mul_pd c1.v_ c2tm.v_
  ⟨_mm256_hsub_pd ac_bd multbmadmc⟩

/-- The overload `operator*(cintrin, cintrin)`. -/
def operatorMul (c1 c2 : cintrin) : cintrin :=
  let neg := _mm256_setr_pd 1.0 (-1.0) 1.0 (-1.0)
  let badc := _mm256_permute_pd c2.v_ 5
  let bmadmc := _mm256_mul_pd badc neg
  mul c1 c2 ⟨bmadmc⟩

end cintrin

/-! ## Loops -/

/-- The loop `for (i = lo; i < hi; i += step) s = body(i, s)`.  The kernels
only use steps `1` and `2 * 2^id`; a zero step, on which the C loop would not
advance, ends the loop here. -/
def forLoop {σ : Type} (i hi step : Nat) (body : Nat → σ → σ) (s : σ) : σ :=
  if _ : i < hi ∧ 0 < step then forLoop (i + step) hi step body (body i s) else s
termination_by hi - i
decreasing_by omega

/-! ## `kernel1.hpp` -/

namespace Kernel1

/-- One group update on a single target, `kernel_core(psi, I, d0, m, mt)`. -/
def kernel_core (psi : List ℂ) (I d0 : Nat) (m mt : Fin 2 → __m256d) : List ℂ :=
  let v0 := load2 (psi.getD I 0)
  let v1 := load2 (psi.getD (I + d0) 0)
  _mm256_storeu2_m128d psi (I + d0) I (add (mul v0 (m 0) (mt 0)) (mul v1 (m 1) (mt 1)))

/-- The packed matrix `mm` built at the top of `kernel`. -/
def mm (m : Matrix (Fin 2) (Fin 2) ℂ) : Fin 2 → __m256d :=
  ![load (m 0 0) (m 1 0), load (m 0 1) (m 1 1)]

/-- The twisted matrix `mmt`: each `mm[i]` permuted and sign-flipped. -/
def mmt (m : Matrix (Fin 2) (Fin 2) ℂ) : Fin 2 → __m256d :=
  fun i =>
    let neg := _mm256_setr_pd 1.0 (-1.0) 1.0 (-1.0)
    let badc := _mm256_permute_pd (mm m i) 5
    _mm256_mul_pd badc neg

/-- The single-target kernel `kernel(psi, id0, m, ctrlmask)`. -/
def kernel (psi : List ℂ) (id0 : Nat) (m : Matrix (Fin 2) (Fin 2) ℂ) (ctrlmask : Nat) : List ℂ :=
  let n := psi.length
  let d0 := 1 <<< id0
  let dsorted0 := d0
  if ctrlmask = 0 then
    forLoop 0 n (2 * dsorted0) (fun i0 psi =>
      forLoop 0 dsorted0 1 (fun i1 psi =>
        kernel_core psi (i0 + i1) d0 (mm m) (mmt m)) psi) psi
  else
    forLoop 0 n (2 * dsorted0) (fun i0 psi =>
      forLoop 0 dsorted0 1 (fun i1 psi =>
        if (i0 + i1) &&& ctrlmask = ctrlmask then
          kernel_core psi (i0 + i1) d0 (mm m) (mmt m)
        else psi) psi) psi

/-- The amplitudes one `kernel_core` call reads and writes. -/
def group (I d0 : Nat) : List Nat :=
  [I, I + d0]

/-- The base indices at which `kernel` calls `kernel_core`, in call order: the
loop nest of `kernel` with each call replaced by a record of its index `i0 + i1`. -/
def calls (n id0 ctrlmask : Nat) : List Nat :=
  let d0 := 1 <<< id0
  let dsorted0 := d0
  if ctrlmask = 0 then
    forLoop 0 n (2 * dsorted0) (fun i0 acc =>
      forLoop 0 dsorted0 1 (fun i1 acc =>
        acc ++ [i0 + i1]) acc) []
  else
    forLoop 0 n (2 * dsorted0) (fun i0 acc =>
      forLoop 0 dsorted0 1 (fun i1 acc =>
        if (i0 + i1) &&& ctrlmask = ctrlmask then
          acc ++ [i0 + i1]
        else acc) acc) []

end Kernel1

/-! ## `kernel2.hpp` -/

namespace Kernel2

/-- One group update on two targets, `kernel_core(psi, I, d0, d1, m, mt)`:
four loads, then the two paired stores in source order. -/
def kernel_core (psi : List ℂ) (I d0 d1 : Nat) (m mt : Fin 8 → __m256d) : List ℂ :=
  let v0 := load2 (psi.getD I 0)
  let v1 := load2 (psi.getD (I + d0) 0)
  let v2 := load2 (psi.getD (I + d1) 0)
  let v3 := load2 (psi.getD (I + d0 + d1) 0)
  let psi1 := _mm256_storeu2_m128d psi (I + d0) I
    (add (mul v0 (m 0) (mt 0)) (add (mul v1 (m 1) (mt 1))
      (add (mul v2 (m 2) (mt 2)) (mul v3 (m 3) (mt 3)))))
  _mm256_storeu2_m128d psi1 (I + d0 + d1) (I + d1)
    (add (mul v0 (m 4) (mt 4)) (add (mul v1 (m 5) (mt 5))
      (add (mul v2 (m 6) (mt 6)) (mul v3 (m 7) (mt 7)))))

/-- The packed matrix `mm` built at the top of `kernel`. -/
def mm (m : Matrix (Fin 4) (Fin 4) ℂ) : Fin 8 → __m256d :=
  ![load (m 0 0) (m 1 0), load (m 0 1) (m 1 1), load (m 0 2) (m 1 2), load (m 0 3) (m 1 3),
    load (m 2 0) (m 3 0), load (m 2 1) (m 3 1), load (m 2 2) (m 3 2), load (m 2 3) (m 3 3)]

/-- The twisted matrix `mmt`: each `mm[i]` permuted and sign-flipped. -/
def mmt (m : Matrix (Fin 4) (Fin 4) ℂ) : Fin 8 → __m256d :=
  fun i =>
    let neg := _mm256_setr_pd 1.0 (-1.0) 1.0 (-1.0)
    let badc := _mm256_permute_pd (mm m i) 5
    _mm256_mul_pd badc neg

/-- The array `dsorted` after `std::sort(dsorted, dsorted + 2, std::greater)`. -/
def dsorted (d0 d1 : Nat) : List Nat :=
  List.insertionSort (fun a b => a ≥ b) [d0, d1]

/-- The two-target kernel `kernel(psi, id1, id0, m, ctrlmask)`. -/
def kernel (psi : List ℂ) (id1 id0 : Nat) (m : Matrix (Fin 4) (Fin 4) ℂ) (ctrlmask : Nat) :
    List ℂ :=
  let n := psi.length
  let d0 := 1 <<< id0
  let d1 := 1 <<< id1
  let dsorted0 := (dsorted d0 d1).getD 0 0
  let dsorted1 := (dsorted d0 d1).getD 1 0
  if ctrlmask = 0 then
    forLoop 0 n (2 * dsorted0) (fun i0 psi =>
      forLoop 0 dsorted0 (2 * dsorted1) (fun i1 psi =>
        forLoop 0 dsorted1 1 (fun i2 psi =>
          kernel_core psi (i0 + i1 + i2) d0 d1 (mm m) (mmt m)) psi) psi) psi
  else
    forLoop 0 n (2 * dsorted0) (fun i0 psi =>
      forLoop 0 dsorted0 (2 * dsorted1) (fun i1 psi =>
        forLoop 0 dsorted1 1 (fun i2 psi =>
          if (i0 + i1 + i2) &&& ctrlmask = ctrlmask then
            kernel_core psi (i0 + i1 + i2) d0 d1 (mm m) (mmt m)
          else psi) psi) psi) psi

/-- The amplitudes one `kernel_core` call reads and writes. -/
def group (I d0 d1 : Nat) : List Nat :=
  [I, I + d0, I + d1, I + d0 + d1]

/-- The base indices at which `kernel` calls `kernel_core`, in call order: the
loop nest of `kernel` with each call replaced by a record of its index
`i0 + i1 + i2`. -/
def calls (n id1 id0 ctrlmask : Nat) : List Nat :=
  let d0 := 1 <<< id0
  let d1 := 1 <<< id1
  let dsorted0 := (dsorted d0 d1).getD 0 0
  let dsorted1 := (dsorted d0 d1).getD 1 0
  if ctrlmask = 0 then
    forLoop 0 n (2 * dsorted0) (fun i0 acc =>
      forLoop 0 dsorted0 (2 * dsorted1) (fun i1 acc =>
        forLoop 0 dsorted1 1 (fun i2 acc =>
          acc ++ [i0 + i1 + i2]) acc) acc) []
  else
    forLoop 0 n (2 * dsorted0) (fun i0 acc =>
      forLoop 0 dsorted0 (2 * dsorted1) (fun i1 acc =>
        forLoop 0 dsorted1 1 (fun i2 acc =>
          if (i0 + i1 + i2) &&& ctrlmask = ctrlmask then
            acc ++ [i0 + i1 + i2]
          else acc) acc) acc) []

end Kernel2

/-! ## Loops with an iteration budget -/

/-- The loop `for (i = lo; i < hi; i += step) s = body(i, s)` with no guard on
the step, run for at most `fuel` tests of the loop condition: `none` when the
budget is used up before the condition fails. -/
def forLoopFuel {σ : Type} (fuel i hi step : Nat) (body : Nat → σ → Option σ) (s : σ) :
    Option σ :=
  match fuel with
  | 0 => none
  | fuel + 1 =>
    if i < hi then
      (body i s).bind (fun s => forLoopFuel fuel (i + step) hi step body s)
    else some s

namespace Kernel1

/-- The loop nest shared by both branches of `kernel`, run with a budget of
`fuel` per loop, recording every base index `i0 + i1` it produces. -/
def nestFuel (fuel n id0 : Nat) : Option (List Nat) :=
  let d0 := 1 <<< id0
  let dsorted0 := d0
  forLoopFuel fuel 0 n (2 * dsorted0) (fun i0 acc =>
    forLoopFuel fuel 0 dsorted0 1 (fun i1 acc =>
      some (acc ++ [i0 + i1])) acc) []

end Kernel1

namespace Kernel2

/-- The loop nest shared by both branches of `kernel`, run with a budget of
`fuel` per loop, recording every base index `i0 + i1 + i2` it produces. -/
def nestFuel (fuel n id1 id0 : Nat) : Option (List Nat) :=
  let d0 := 1 <<< id0
  let d1 := 1 <<< id1
  let dsorted0 := (dsorted d0 d1).getD 0 0
  let dsorted1 := (dsorted d0 d1).getD 1 0
  forLoopFuel fuel 0 n (2 * dsorted0) (fun i0 acc =>
    forLoopFuel fuel 0 dsorted0 (2 * dsorted1) (fun i1 acc =>
      forLoopFuel fuel 0 dsorted1 1 (fun i2 acc =>
        some (acc ++ [i0 + i1 + i2])) acc) acc) []

end Kernel2

/-! ## `kernels.hpp` -/

/-- The macro `LOOP_COLLAPSE1`. -/
def LOOP_COLLAPSE1 : Nat := 2

/-- The macro `LOOP_COLLAPSE2`. -/
def LOOP_COLLAPSE2 : Nat := 3

/-- The macro `LOOP_COLLAPSE3`. -/
def LOOP_COLLAPSE3 : Nat := 4

/-- The macro `LOOP_COLLAPSE4`. -/
def LOOP_COLLAPSE4 : Nat := 5

/-- The macro `LOOP_COLLAPSE5`. -/
def LOOP_COLLAPSE5 : Nat := 6

/-! ## The work-sharing loops: `#pragma omp for collapse(...)` -/

/-- A loop header `for (std::size_t i = 0; i < hi; i += step)`; every loop of
the kernels starts at zero. -/
structure ForHeader where
  hi : Nat
  step : Nat

/-- The values the loop variable of a header takes, in order. -/
def ForHeader.indices (h : ForHeader) : List Nat :=
  forLoop 0 h.hi h.step (fun i acc => acc ++ [i]) []

/-- The index tuples of a rectangular loop nest, outermost variable first, in
the order of sequential execution. -/
def iterations : List ForHeader → List (List Nat)
  | [] => [[]]
  | h :: hs => h.indices.flatMap (fun i => (iterations hs).map (fun t => i :: t))

/-- The construct `#pragma omp for collapse(c)` on a loop nest: the `c`
outermost loops are associated with the construct and their iterations form
one collapsed iteration space, taken here in its sequential order; the loops
below level `c` run in full inside each iteration of that space. -/
def ompForCollapse {σ : Type} (c : Nat) (nest : List ForHeader) (body : List Nat → σ → σ)
    (s : σ) : σ :=
  (iterations (nest.take c)).foldl (fun s outer =>
    (iterations (nest.drop c)).foldl (fun s inner => body (outer ++ inner) s) s) s

namespace Kernel1

/-- The headers of the loop nest of `kernel`, outermost first; both branches
of `kernel` have this nest. -/
def nest (n id0 : Nat) : List ForHeader :=
  let d0 := 1 <<< id0
  let dsorted0 := d0
  [⟨n, 2 * dsorted0⟩, ⟨dsorted0, 1⟩]

/-- The function `kernel` with its two
`#pragma omp for collapse(LOOP_COLLAPSE1) schedule(static)` constructs written
out over the loop nest they annotate. -/
def kernel_omp (psi : List ℂ) (id0 : Nat) (m : Matrix (Fin 2) (Fin 2) ℂ) (ctrlmask : Nat) :
    List ℂ :=
  let n := psi.length
  let d0 := 1 <<< id0
  if ctrlmask = 0 then
    ompForCollapse LOOP_COLLAPSE1 (nest n id0) (fun i psi =>
      match i with
      | [i0, i1] => kernel_core psi (i0 + i1) d0 (mm m) (mmt m)
      | _ => psi) psi
  else
    ompForCollapse LOOP_COLLAPSE1 (nest n id0) (fun i psi =>
      match i with
      | [i0, i1] =>
        if (i0 + i1) &&& ctrlmask = ctrlmask then
          kernel_core psi (i0 + i1) d0 (mm m) (mmt m)
        else psi
      | _ => psi) psi

end Kernel1

namespace Kernel2

/-- The headers of the loop nest of `kernel`, outermost first; both branches
of `kernel` have this nest. -/
def nest (n id1 id0 : Nat) : List ForHeader :=
  let d0 := 1 <<< id0
  let d1 := 1 <<< id1
  let dsorted0 := (dsorted d0 d1).getD 0 0
  let dsorted1 := (dsorted d0 d1).getD 1 0
  [⟨n, 2 * dsorted0⟩, ⟨dsorted0, 2 * dsorted1⟩, ⟨dsorted1, 1⟩]

/-- The function `kernel` with its two
`#pragma omp for collapse(LOOP_COLLAPSE2) schedule(static)` constructs written
out over the loop nest they annotate. -/
def kernel_omp (psi : List ℂ) (id1 id0 : Nat) (m : Matrix (Fin 4) (Fin 4) ℂ) (ctrlmask : Nat) :
    List ℂ :=
  let n := psi.length
  let d0 := 1 <<< id0
  let d1 := 1 <<< id1
  if ctrlmask = 0 then
    ompForCollapse LOOP_COLLAPSE2 (nest n id1 id0) (fun i psi =>
      match i with
      | [i0, i1, i2] => kernel_core psi (i0 + i1 + i2) d0 d1 (mm m) (mmt m)
      | _ => psi) psi
  else
    ompForCollapse LOOP_COLLAPSE2 (nest n id1 id0) (fun i psi =>
      match i with
      | [i0, i1, i2] =>
        if (i0 + i1 + i2) &&& ctrlmask = ctrlmask then
          kernel_core psi (i0 + i1 + i2) d0 d1 (mm m) (mmt m)
        else psi
      | _ => psi) psi

end Kernel2

/-- Modelled from the spec: the loop nest of the kernel of arity `k` for
`k = 3, 4, 5`, whose files `kernel3.hpp`, `kernel4.hpp` and `kernel5.hpp` are
not among the sources.  The spec sorts the `k` strides in descending order and
nests `k` strided levels, the outermost running to `n` in steps of twice the
largest stride and each further level running to the stride above it in steps
of twice its own stride; the innermost level runs to the smallest stride in
steps of 1.  `dsorted` is the list of sorted strides. -/
def specNest (hi : Nat) : List Nat → List ForHeader
  | [] => [⟨hi, 1⟩]
  | d :: dsorted => ⟨hi, 2 * d⟩ :: specNest d dsorted

/-! ## `alignedallocator.hpp` -/

/-- A handle of type `aligned_allocator<T, Alignment>`.  The class has no data
members, so a handle is determined by its instantiation; `T` names the element
type. -/
structure aligned_allocator where
  T : String
  Alignment : Nat
deriving DecidableEq

namespace aligned_allocator

/-- The member typedef `rebind<U>::other`, `aligned_allocator<U, Alignment>`. -/
def rebind (a : aligned_allocator) (U : String) : aligned_allocator :=
  ⟨U, a.Alignment⟩

/-- The member `bool operator==(aligned_allocator const&) const`. -/
def operatorEqSame : Bool := true

/-- The member `bool operator!=(aligned_allocator const&) const`. -/
def operatorNeSame : Bool := false

/-- The member template
`bool operator==(aligned_allocator<U, UAlignment> const&) const`. -/
def operatorEqOther : Bool := false

/-- The member template
`bool operator!=(aligned_allocator<U, UAlignment> const&) const`. -/
def operatorNeOther : Bool := true

/-- The expression `a == b`.  For `b` of the type of `a` both members match
exactly and the non-template one is preferred; for any other instantiation
the template matches exactly by deduction, while the non-template member would
need the converting constructor (same `Alignment`) or is not viable. -/
def operatorEq (a b : aligned_allocator) : Bool :=
  if a.T = b.T ∧ a.Alignment = b.Alignment then operatorEqSame else operatorEqOther

/-- The expression `a != b`, resolved as `a == b` is. -/
def operatorNe (a b : aligned_allocator) : Bool :=
  if a.T = b.T ∧ a.Alignment = b.Alignment then operatorNeSame else operatorNeOther

end aligned_allocator

/-! ## Bit-level facts about indices -/

/-- Adding `2^i` to an index whose bit `i` is clear sets that bit and keeps all others. -/
theorem testBit_add_two_pow {I i : Nat} (h : I.testBit i = false) (k : Nat) :
    (I + 2 ^ i).testBit k = (I.testBit k || decide (k = i)) := by
  rcases Nat.lt_trichotomy k i with hk | hk | hk
  · rw [Nat.add_comm, Nat.testBit_two_pow_add_gt hk]
    simp [Nat.ne_of_lt hk]
  · subst hk
    rw [Nat.add_comm, Nat.testBit_two_pow_add_eq]
    simp [h]
  · have hI : I = 2 ^ (i + 1) * (I / 2 ^ (i + 1)) + I % 2 ^ (i + 1) := (Nat.div_add_mod _ _).symm
    have hb : I % 2 ^ (i + 1) < 2 ^ (i + 1) := Nat.mod_lt _ (Nat.two_pow_pos _)
    have hpow : 2 ^ (i + 1) = 2 * 2 ^ i := by rw [Nat.pow_succ, Nat.mul_comm]
    have hbit : (I % 2 ^ (i + 1)).testBit i = false := by
      rw [Nat.testBit_mod_two_pow]; simp [h]
    have hlt : I % 2 ^ (i + 1) < 2 ^ i := by
      by_contra hge
      have := Nat.testBit_two_pow_add_eq (I % 2 ^ (i + 1) - 2 ^ i) i
      rw [Nat.add_sub_cancel' (Nat.le_of_not_lt hge), hbit] at this
      have h2 : (I % 2 ^ (i + 1) - 2 ^ i) < 2 ^ i := by omega
      rw [Nat.testBit_lt_two_pow h2] at this
      simp at this
    have hsum : I + 2 ^ i = 2 ^ (i + 1) * (I / 2 ^ (i + 1)) + (I % 2 ^ (i + 1) + 2 ^ i) := by omega
    have hlt2 : I % 2 ^ (i + 1) + 2 ^ i < 2 ^ (i + 1) := by omega
    have e1 := Nat.testBit_mul_pow_two_add (I / 2 ^ (i + 1)) hlt2 k
    have e2 := Nat.testBit_mul_pow_two_add (I / 2 ^ (i + 1)) hb k
    rw [← hsum] at e1
    rw [← hI] at e2
    have hnk : ¬ k < i + 1 := by omega
    rw [e1, e2]
    simp [hnk, Nat.ne_of_gt hk]

/-- Bit `i` of `I` is clear exactly when `I` lies in the lower half of its
block of `2 * 2^i` consecutive indices. -/
theorem testBit_false_iff_mod {I i : Nat} :
    I.testBit i = false ↔ I % (2 * 2 ^ i) < 2 ^ i := by
  rw [Nat.testBit_to_div_mod, Nat.mul_comm 2, ← Nat.mod_mul_right_div_self]
  have hp : 0 < 2 ^ i := Nat.two_pow_pos i
  have hlt : I % (2 ^ i * 2) < 2 ^ i * 2 := Nat.mod_lt _ (by omega)
  constructor
  · intro h
    by_contra hge
    have h1 : 1 ≤ I % (2 ^ i * 2) / 2 ^ i := (Nat.one_le_div_iff hp).2 (by omega)
    have h2 : I % (2 ^ i * 2) / 2 ^ i < 2 := Nat.div_lt_of_lt_mul (by omega)
    have : I % (2 ^ i * 2) / 2 ^ i = 1 := by omega
    simp [this] at h
  · intro h
    simp [Nat.div_eq_of_lt h]

/-- Every index splits as a base with bit `i` clear plus `0` or `2^i`. -/
theorem exists_base (j i : Nat) :
    ∃ I, I.testBit i = false ∧ I ≤ j ∧ (j = I ∨ j = I + 2 ^ i) := by
  cases hb : j.testBit i with
  | false => exact ⟨j, hb, le_refl _, Or.inl rfl⟩
  | true =>
    have hge := Nat.testBit_implies_ge hb
    refine ⟨j - 2 ^ i, ?_, Nat.sub_le _ _, Or.inr (by omega)⟩
    have := Nat.testBit_two_pow_add_eq (j - 2 ^ i) i
    rw [Nat.add_sub_cancel' hge, hb] at this
    simpa using this.symm

/-- An index with bit `i` clear and below `2^N` stays below `2^N` when `2^i` is added. -/
theorem add_two_pow_lt {I i N : Nat} (h : I.testBit i = false) (hi : i < N) (hI : I < 2 ^ N) :
    I + 2 ^ i < 2 ^ N := by
  apply Nat.lt_pow_two_of_testBit
  intro k hk
  rw [testBit_add_two_pow h]
  have : I.testBit k = false := Nat.testBit_lt_two_pow (lt_of_lt_of_le hI (Nat.pow_le_pow_right (by omega) hk))
  simp [this]; omega

/-! ## The lane primitives compute complex products -/

/-- The twisted operand of the kernels: swap within each half, then negate lanes 1 and 3. -/
theorem twist_eq (c : __m256d) :
    _mm256_mul_pd (_mm256_permute_pd c 5) (_mm256_setr_pd 1.0 (-1.0) 1.0 (-1.0))
      = ⟨c.x1, -c.x0, c.x3, -c.x2⟩ := by
  simp [_mm256_mul_pd, _mm256_permute_pd, _mm256_setr_pd, Nat.testBit]
  norm_num

/-- A broadcast amplitude times a packed matrix pair gives both complex products. -/
theorem mul_load2_load (z a b : ℂ) :
    mul (load2 z) (load a b)
        (_mm256_mul_pd (_mm256_permute_pd (load a b) 5) (_mm256_setr_pd 1.0 (-1.0) 1.0 (-1.0)))
      = ⟨(a * z).re, (a * z).im, (b * z).re, (b * z).im⟩ := by
  rw [twist_eq]
  simp [mul, load2, load, _mm256_loadu2_m128d, _mm256_mul_pd, _mm256_hsub_pd, Complex.mul_re,
    Complex.mul_im]
  refine ⟨?_, ?_, ?_, ?_⟩ <;> ring

/-! ## Reading and writing the state vector -/

/-- Reading index `j` after a store at index `i`. -/
theorem getD_set (l : List ℂ) (i j : Nat) (v : ℂ) :
    (l.set i v).getD j 0 = if i = j ∧ i < l.length then v else l.getD j 0 := by
  simp only [List.getD_eq_getElem?_getD, List.getElem?_set]
  by_cases hij : i = j
  · subst hij
    by_cases hi : i < l.length
    · simp [hi]
    · simp [hi, List.getElem?_eq_none (Nat.le_of_not_lt hi)]
  · simp [hij]

/-- Two state vectors of one length with the same amplitude at every index are equal. -/
theorem ext_getD {l₁ l₂ : List ℂ} (hlen : l₁.length = l₂.length)
    (h : ∀ j, j < l₁.length → l₁.getD j 0 = l₂.getD j 0) : l₁ = l₂ := by
  apply List.ext_getElem hlen
  intro j h₁ h₂
  have := h j h₁
  simpa [List.getD_eq_getElem?_getD, List.getElem?_eq_getElem h₁, List.getElem?_eq_getElem h₂]
    using this

/-! ## `kernel_core` as a complex matrix-vector product on one group -/

/-- Two accumulated lane pairs are the sum of the two complex numbers. -/
theorem mk_add2 (a b : ℂ) : (⟨a.re + b.re, a.im + b.im⟩ : ℂ) = a + b := by
  apply Complex.ext <;> simp

/-- Four accumulated lane pairs, summed from the right as `kernel_core` does. -/
theorem mk_add4 (a b c d : ℂ) :
    (⟨a.re + (b.re + (c.re + d.re)), a.im + (b.im + (c.im + d.im))⟩ : ℂ) = a + b + c + d := by
  apply Complex.ext <;> simp <;> ring

/-- The single-target group update writes the two rows of `m` applied to the
pre-call pair `(psi[I], psi[I + d0])`. -/
theorem core1_eq (psi : List ℂ) (I d0 : Nat) (m : Matrix (Fin 2) (Fin 2) ℂ) :
    Kernel1.kernel_core psi I d0 (Kernel1.mm m) (Kernel1.mmt m)
      = (psi.set I (m 0 0 * psi.getD I 0 + m 0 1 * psi.getD (I + d0) 0)).set (I + d0)
          (m 1 0 * psi.getD I 0 + m 1 1 * psi.getD (I + d0) 0) := by
  simp only [Kernel1.kernel_core, Kernel1.mmt, Kernel1.mm, Matrix.cons_val_zero,
    Matrix.cons_val_one, Matrix.head_cons, mul_load2_load, _mm256_storeu2_m128d, add,
    _mm256_add_pd]
  simp only [mk_add2]

/-- The two-target group update writes the four rows of `m` applied to the
pre-call quadruple `(psi[I], psi[I + d0], psi[I + d1], psi[I + d0 + d1])`. -/
theorem core2_eq (psi : List ℂ) (I d0 d1 : Nat) (m : Matrix (Fin 4) (Fin 4) ℂ) :
    Kernel2.kernel_core psi I d0 d1 (Kernel2.mm m) (Kernel2.mmt m)
      = ((((psi.set I
            (m 0 0 * psi.getD I 0 + m 0 1 * psi.getD (I + d0) 0
              + m 0 2 * psi.getD (I + d1) 0 + m 0 3 * psi.getD (I + d0 + d1) 0)).set (I + d0)
            (m 1 0 * psi.getD I 0 + m 1 1 * psi.getD (I + d0) 0
              + m 1 2 * psi.getD (I + d1) 0 + m 1 3 * psi.getD (I + d0 + d1) 0)).set (I + d1)
            (m 2 0 * psi.getD I 0 + m 2 1 * psi.getD (I + d0) 0
              + m 2 2 * psi.getD (I + d1) 0 + m 2 3 * psi.getD (I + d0 + d1) 0)).set (I + d0 + d1)
            (m 3 0 * psi.getD I 0 + m 3 1 * psi.getD (I + d0) 0
              + m 3 2 * psi.getD (I + d1) 0 + m 3 3 * psi.getD (I + d0 + d1) 0)) := by
  have e0 : (Kernel2.mm m) 0 = load (m 0 0) (m 1 0) := rfl
  have e1 : (Kernel2.mm m) 1 = load (m 0 1) (m 1 1) := rfl
  have e2 : (Kernel2.mm m) 2 = load (m 0 2) (m 1 2) := rfl
  have e3 : (Kernel2.mm m) 3 = load (m 0 3) (m 1 3) := rfl
  have e4 : (Kernel2.mm m) 4 = load (m 2 0) (m 3 0) := rfl
  have e5 : (Kernel2.mm m) 5 = load (m 2 1) (m 3 1) := rfl
  have e6 : (Kernel2.mm m) 6 = load (m 2 2) (m 3 2) := rfl
  have e7 : (Kernel2.mm m) 7 = load (m 2 3) (m 3 3) := rfl
  simp only [Kernel2.kernel_core, Kernel2.mmt, e0, e1, e2, e3, e4, e5, e6, e7,
    mul_load2_load, _mm256_storeu2_m128d, add, _mm256_add_pd]
  simp only [mk_add4]

/-! ## Loops as folds over their index lists -/

/-- A terminating `for` loop with `k` iterations folds its body over the `k` indices. -/
theorem forLoop_eq_foldl {σ : Type} (body : Nat → σ → σ) (step : Nat) (hstep : 0 < step) :
    ∀ (k i : Nat) (s : σ),
      forLoop i (i + k * step) step body s
        = ((List.range k).map (fun t => i + t * step)).foldl (fun s x => body x s) s := by
  intro k
  induction k with
  | zero =>
    intro i s
    rw [forLoop]
    simp
  | succ k ih =>
    intro i s
    rw [forLoop]
    have hlt : i < i + (k + 1) * step := by
      have : 0 < (k + 1) * step := Nat.mul_pos (Nat.succ_pos k) hstep
      omega
    have hhi : i + (k + 1) * step = (i + step) + k * step := by
      rw [Nat.succ_mul]; omega
    rw [dif_pos ⟨hlt, hstep⟩, hhi, ih (i + step) (body i s)]
    rw [List.range_succ_eq_map, List.map_cons, List.foldl_cons, List.map_map]
    simp only [Nat.zero_mul, Nat.add_zero]
    congr 1
    apply List.map_congr_left
    intro t _
    simp only [Function.comp, Nat.succ_eq_add_one, Nat.add_mul, Nat.one_mul]
    omega

/-- A unit-stride loop from zero folds its body over `List.range hi`. -/
theorem forLoop_unit {σ : Type} (body : Nat → σ → σ) (hi : Nat) (s : σ) :
    forLoop 0 hi 1 body s = (List.range hi).foldl (fun s x => body x s) s := by
  have := forLoop_eq_foldl body 1 Nat.one_pos hi 0 s
  simpa using this

/-- A strided loop from zero over `k` whole strides. -/
theorem forLoop_stride {σ : Type} (body : Nat → σ → σ) (step : Nat) (hstep : 0 < step)
    (k : Nat) (s : σ) :
    forLoop 0 (k * step) step body s
      = (List.range k).foldl (fun s t => body (t * step) s) s := by
  have := forLoop_eq_foldl body step hstep k 0 s
  simpa [List.foldl_map] using this

/-- Folding block by block over `A` blocks of length `S`, inside each block over
the offsets selected by `Q`, is one fold over the selected indices below `A * S`. -/
theorem foldl_blocks {σ : Type} (f : σ → Nat → σ) (S : Nat) (Q : Nat → Bool) :
    ∀ (A : Nat) (s : σ),
      (List.range A).foldl
          (fun s t => (((List.range S).filter Q).map (fun x => t * S + x)).foldl f s) s
        = ((List.range (A * S)).filter (fun I => Q (I % S))).foldl f s := by
  intro A
  induction A with
  | zero => intro s; simp
  | succ A ih =>
    intro s
    rw [List.range_succ, List.foldl_append, ih, Nat.succ_mul, List.range_add,
      List.filter_append, List.foldl_append, List.filter_map]
    simp only [List.foldl_cons, List.foldl_nil]
    congr 2
    apply List.filter_congr
    intro x hx
    have hx' : x < S := List.mem_range.1 hx
    simp only [Function.comp]
    rw [Nat.mul_comm A S, Nat.mul_add_mod, Nat.mod_eq_of_lt hx']

/-- A guarded body is the body folded over the indices that pass the guard. -/
theorem foldl_guard {σ : Type} (g : σ → Nat → σ) (p : Nat → Bool) :
    ∀ (L : List Nat) (s : σ),
      L.foldl (fun s I => if p I then g s I else s) s = (L.filter p).foldl g s := by
  intro L
  induction L with
  | nil => intro s; rfl
  | cons a L ih =>
    intro s
    by_cases h : p a <;> simp [List.filter_cons, h, ih]

/-- The lower half of a block of `2 * d` offsets. -/
theorem filter_lower_half (d : Nat) :
    (List.range (2 * d)).filter (fun x => decide (x < d)) = List.range d := by
  rw [Nat.two_mul, List.range_add, List.filter_append, List.filter_map]
  have h1 : (List.range d).filter (fun x => decide (x < d)) = List.range d := by
    apply List.filter_eq_self.2
    intro x hx
    simpa using List.mem_range.1 hx
  have h2 : (List.range d).filter ((fun x => decide (x < d)) ∘ fun x => d + x) = [] := by
    apply List.filter_eq_nil_iff.2
    intro x _
    simp
  rw [h1, h2]
  simp

/-- The two-level loop nest of the single-target kernel visits, in increasing
order, the indices below `2^N` whose bit `id0` is clear. -/
theorem nest1_eq_foldl {σ : Type} (f : σ → Nat → σ) {N id0 : Nat} (h0 : id0 < N) (s : σ) :
    forLoop 0 (2 ^ N) (2 * 2 ^ id0)
        (fun i0 s => forLoop 0 (2 ^ id0) 1 (fun i1 s => f s (i0 + i1)) s) s
      = ((List.range (2 ^ N)).filter (fun I => !I.testBit id0)).foldl f s := by
  have hd : 0 < 2 * 2 ^ id0 := Nat.mul_pos (by omega) (Nat.two_pow_pos _)
  have hN : 2 ^ N = 2 ^ (N - id0 - 1) * (2 * 2 ^ id0) := by
    rw [← Nat.pow_succ', ← Nat.pow_add]
    congr 1; omega
  rw [hN, forLoop_stride _ _ hd]
  simp only [forLoop_unit]
  have hinner : ∀ (t : Nat) (s : σ),
      (List.range (2 ^ id0)).foldl (fun s x => f s (t * (2 * 2 ^ id0) + x)) s
        = (((List.range (2 * 2 ^ id0)).filter (fun x => decide (x < 2 ^ id0))).map
            (fun x => t * (2 * 2 ^ id0) + x)).foldl f s := by
    intro t s
    rw [filter_lower_half, List.foldl_map]
  simp only [hinner]
  rw [foldl_blocks f]
  congr 1
  apply List.filter_congr
  intro I _
  rw [Bool.eq_iff_iff]
  simp [testBit_false_iff_mod]

/-- The lower half of a block of `2 * d` offsets, filtered further by `P`. -/
theorem filter_lower_half_and (d : Nat) (P : Nat → Bool) :
    (List.range (2 * d)).filter (fun x => P x && decide (x < d)) = (List.range d).filter P := by
  rw [← filter_lower_half d, List.filter_filter]

/-- The three-level loop nest of the two-target kernel, with sorted strides
`2^hi > 2^lo`, visits in increasing order the indices below `2^N` whose bits
`hi` and `lo` are both clear. -/
theorem nest2_eq_foldl {σ : Type} (f : σ → Nat → σ) {N hi lo : Nat} (hhi : hi < N)
    (hlo : lo < hi) (s : σ) :
    forLoop 0 (2 ^ N) (2 * 2 ^ hi)
        (fun i0 s => forLoop 0 (2 ^ hi) (2 * 2 ^ lo)
          (fun i1 s => forLoop 0 (2 ^ lo) 1 (fun i2 s => f s (i0 + i1 + i2)) s) s) s
      = ((List.range (2 ^ N)).filter (fun I => !I.testBit hi && !I.testBit lo)).foldl f s := by
  have hd : 0 < 2 * 2 ^ hi := Nat.mul_pos (by omega) (Nat.two_pow_pos _)
  have hN : 2 ^ N = 2 ^ (N - hi - 1) * (2 * 2 ^ hi) := by
    rw [← Nat.pow_succ', ← Nat.pow_add]
    congr 1; omega
  have hmid : ∀ (i0 : Nat) (s : σ),
      forLoop 0 (2 ^ hi) (2 * 2 ^ lo)
          (fun i1 s => forLoop 0 (2 ^ lo) 1 (fun i2 s => f s (i0 + i1 + i2)) s) s
        = (((List.range (2 * 2 ^ hi)).filter
              (fun x => (!x.testBit lo) && decide (x < 2 ^ hi))).map (fun x => i0 + x)).foldl f s := by
    intro i0 s
    have := nest1_eq_foldl (fun s x => f s (i0 + x)) hlo s
    simp only [← Nat.add_assoc] at this
    rw [this, filter_lower_half_and, List.foldl_map]
  simp only [hmid]
  rw [hN, forLoop_stride _ _ hd, foldl_blocks f]
  congr 1
  apply List.filter_congr
  intro I _
  have hpow : 2 * 2 ^ hi = 2 ^ (hi + 1) := by rw [Nat.pow_succ, Nat.mul_comm]
  have h1 : (I % (2 * 2 ^ hi)).testBit lo = I.testBit lo := by
    rw [hpow, Nat.testBit_mod_two_pow]
    simp [Nat.lt_succ_of_lt hlo]
  rw [Bool.eq_iff_iff]
  simp [h1, testBit_false_iff_mod, and_comm]

/-! ## The kernels as folds of `kernel_core` over their call lists -/

/-- Recording each visited index reproduces the list that is folded over. -/
theorem foldl_record (L : List Nat) (acc : List Nat) :
    L.foldl (fun acc I => acc ++ [I]) acc = acc ++ L := by
  induction L generalizing acc with
  | nil => simp
  | cons a L ih => simp [ih]

/-- The indices below `2^N` with bit `id0` clear that pass the control mask. -/
theorem calls1_eq {N id0 : Nat} (h0 : id0 < N) (ctrlmask : Nat) :
    Kernel1.calls (2 ^ N) id0 ctrlmask
      = (List.range (2 ^ N)).filter
          (fun I => !I.testBit id0 && (decide (ctrlmask = 0) || decide (I &&& ctrlmask = ctrlmask))) := by
  unfold Kernel1.calls
  simp only [Nat.one_shiftLeft]
  by_cases hc : ctrlmask = 0
  · rw [if_pos hc, nest1_eq_foldl (fun acc I => acc ++ [I]) h0, foldl_record]
    simp [hc]
  · rw [if_neg hc]
    have := nest1_eq_foldl
      (fun acc I => if decide (I &&& ctrlmask = ctrlmask) then acc ++ [I] else acc) h0 []
    simp only [decide_eq_true_eq] at this
    rw [this]
    have h2 := foldl_guard (fun acc I => acc ++ [I]) (fun I => decide (I &&& ctrlmask = ctrlmask))
      ((List.range (2 ^ N)).filter (fun I => !I.testBit id0)) []
    simp only [decide_eq_true_eq] at h2
    rw [h2, foldl_record, List.filter_filter]
    simp [hc, Bool.and_comm]

/-- The single-target kernel folds `kernel_core` over its call list. -/
theorem kernel1_eq_foldl {N id0 : Nat} (h0 : id0 < N) (psi : List ℂ) (hlen : psi.length = 2 ^ N)
    (m : Matrix (Fin 2) (Fin 2) ℂ) (ctrlmask : Nat) :
    Kernel1.kernel psi id0 m ctrlmask
      = (Kernel1.calls (2 ^ N) id0 ctrlmask).foldl
          (fun psi I => Kernel1.kernel_core psi I (2 ^ id0) (Kernel1.mm m) (Kernel1.mmt m)) psi := by
  rw [calls1_eq h0]
  unfold Kernel1.kernel
  simp only [Nat.one_shiftLeft, hlen]
  by_cases hc : ctrlmask = 0
  · rw [if_pos hc, nest1_eq_foldl
      (fun psi I => Kernel1.kernel_core psi I (2 ^ id0) (Kernel1.mm m) (Kernel1.mmt m)) h0]
    simp [hc]
  · rw [if_neg hc]
    have := nest1_eq_foldl
      (fun psi I => if decide (I &&& ctrlmask = ctrlmask) then
        Kernel1.kernel_core psi I (2 ^ id0) (Kernel1.mm m) (Kernel1.mmt m) else psi) h0 psi
    simp only [decide_eq_true_eq] at this
    rw [this]
    have h2 := foldl_guard
      (fun psi I => Kernel1.kernel_core psi I (2 ^ id0) (Kernel1.mm m) (Kernel1.mmt m))
      (fun I => decide (I &&& ctrlmask = ctrlmask))
      ((List.range (2 ^ N)).filter (fun I => !I.testBit id0)) psi
    simp only [decide_eq_true_eq] at h2
    rw [h2, List.filter_filter]
    simp [hc, Bool.and_comm]


/-- Sorting two strides in descending order. -/
theorem dsorted_eq (d0 d1 : Nat) :
    Kernel2.dsorted d0 d1 = if d0 ≥ d1 then [d0, d1] else [d1, d0] := by
  simp [Kernel2.dsorted, List.insertionSort, List.orderedInsert]

/-- The loop nest of the two-target kernel, with the strides sorted as the
kernel sorts them, visits the indices below `2^N` whose bits `id0` and `id1`
are both clear, whichever target is the larger. -/
theorem nest2_sorted_eq_foldl {σ : Type} (f : σ → Nat → σ) {N id0 id1 : Nat} (h0 : id0 < N)
    (h1 : id1 < N) (hne : id1 ≠ id0) (s : σ) :
    forLoop 0 (2 ^ N) (2 * (Kernel2.dsorted (2 ^ id0) (2 ^ id1)).getD 0 0)
        (fun i0 s => forLoop 0 ((Kernel2.dsorted (2 ^ id0) (2 ^ id1)).getD 0 0)
            (2 * (Kernel2.dsorted (2 ^ id0) (2 ^ id1)).getD 1 0)
          (fun i1 s => forLoop 0 ((Kernel2.dsorted (2 ^ id0) (2 ^ id1)).getD 1 0) 1
            (fun i2 s => f s (i0 + i1 + i2)) s) s) s
      = ((List.range (2 ^ N)).filter (fun I => !I.testBit id0 && !I.testBit id1)).foldl f s := by
  rw [dsorted_eq]
  rcases Nat.lt_or_gt_of_ne hne with hlt | hgt
  · have hge : (2 : Nat) ^ id0 ≥ 2 ^ id1 := Nat.pow_le_pow_right (by omega) (Nat.le_of_lt hlt)
    rw [if_pos hge]
    simp only [List.getD_cons_zero, List.getD_cons_succ]
    exact nest2_eq_foldl f h0 hlt s
  · have hlt2 : (2 : Nat) ^ id0 < 2 ^ id1 := Nat.pow_lt_pow_right (by omega) hgt
    rw [if_neg (Nat.not_le_of_lt hlt2)]
    simp only [List.getD_cons_zero, List.getD_cons_succ]
    rw [nest2_eq_foldl f h1 hgt s]
    congr 1
    apply List.filter_congr
    intro I _
    exact Bool.and_comm _ _

/-- The indices below `2^N` with bits `id0` and `id1` clear that pass the control mask. -/
theorem calls2_eq {N id0 id1 : Nat} (h0 : id0 < N) (h1 : id1 < N) (hne : id1 ≠ id0)
    (ctrlmask : Nat) :
    Kernel2.calls (2 ^ N) id1 id0 ctrlmask
      = (List.range (2 ^ N)).filter
          (fun I => (!I.testBit id0 && !I.testBit id1)
            && (decide (ctrlmask = 0) || decide (I &&& ctrlmask = ctrlmask))) := by
  unfold Kernel2.calls
  simp only [Nat.one_shiftLeft]
  by_cases hc : ctrlmask = 0
  · rw [if_pos hc, nest2_sorted_eq_foldl (fun acc I => acc ++ [I]) h0 h1 hne, foldl_record]
    simp [hc]
  · rw [if_neg hc]
    have := nest2_sorted_eq_foldl
      (fun acc I => if decide (I &&& ctrlmask = ctrlmask) then acc ++ [I] else acc) h0 h1 hne []
    simp only [decide_eq_true_eq] at this
    rw [this]
    have h2 := foldl_guard (fun acc I => acc ++ [I]) (fun I => decide (I &&& ctrlmask = ctrlmask))
      ((List.range (2 ^ N)).filter (fun I => !I.testBit id0 && !I.testBit id1)) []
    simp only [decide_eq_true_eq] at h2
    rw [h2, foldl_record, List.filter_filter]
    simp [hc, Bool.and_comm]

/-- The two-target kernel folds `kernel_core` over its call list. -/
theorem kernel2_eq_foldl {N id0 id1 : Nat} (h0 : id0 < N) (h1 : id1 < N) (hne : id1 ≠ id0)
    (psi : List ℂ) (hlen : psi.length = 2 ^ N) (m : Matrix (Fin 4) (Fin 4) ℂ) (ctrlmask : Nat) :
    Kernel2.kernel psi id1 id0 m ctrlmask
      = (Kernel2.calls (2 ^ N) id1 id0 ctrlmask).foldl
          (fun psi I =>
            Kernel2.kernel_core psi I (2 ^ id0) (2 ^ id1) (Kernel2.mm m) (Kernel2.mmt m)) psi := by
  rw [calls2_eq h0 h1 hne]
  unfold Kernel2.kernel
  simp only [Nat.one_shiftLeft, hlen]
  by_cases hc : ctrlmask = 0
  · rw [if_pos hc, nest2_sorted_eq_foldl
      (fun psi I =>
        Kernel2.kernel_core psi I (2 ^ id0) (2 ^ id1) (Kernel2.mm m) (Kernel2.mmt m)) h0 h1 hne]
    simp [hc]
  · rw [if_neg hc]
    have := nest2_sorted_eq_foldl
      (fun psi I => if decide (I &&& ctrlmask = ctrlmask) then
        Kernel2.kernel_core psi I (2 ^ id0) (2 ^ id1) (Kernel2.mm m) (Kernel2.mmt m) else psi)
      h0 h1 hne psi
    simp only [decide_eq_true_eq] at this
    rw [this]
    have h2 := foldl_guard
      (fun psi I =>
        Kernel2.kernel_core psi I (2 ^ id0) (2 ^ id1) (Kernel2.mm m) (Kernel2.mmt m))
      (fun I => decide (I &&& ctrlmask = ctrlmask))
      ((List.range (2 ^ N)).filter (fun I => !I.testBit id0 && !I.testBit id1)) psi
    simp only [decide_eq_true_eq] at h2
    rw [h2, List.filter_filter]
    simp [hc, Bool.and_comm]


/-! ## Folding a group update over pairwise disjoint groups -/

/-- The fold keeps the length when each update does. -/
theorem foldl_upd_length (upd : List ℂ → Nat → List ℂ)
    (hlen : ∀ psi I, (upd psi I).length = psi.length) (L : List Nat) (psi : List ℂ) :
    (L.foldl upd psi).length = psi.length := by
  induction L generalizing psi with
  | nil => rfl
  | cons a L ih => rw [List.foldl_cons, ih, hlen]

/-- An index outside every visited group keeps its amplitude. -/
theorem foldl_upd_frame (upd : List ℂ → Nat → List ℂ) (G : Nat → List Nat)
    (hframe : ∀ psi I j, j ∉ G I → (upd psi I).getD j 0 = psi.getD j 0)
    (L : List Nat) (psi : List ℂ) (j : Nat) (hj : ∀ I ∈ L, j ∉ G I) :
    (L.foldl upd psi).getD j 0 = psi.getD j 0 := by
  induction L generalizing psi with
  | nil => rfl
  | cons a L ih =>
    rw [List.foldl_cons, ih _ (fun I hI => hj I (List.mem_cons_of_mem _ hI)),
      hframe _ _ _ (hj a (List.mem_cons_self _ _))]

/-- An index inside the group of a visited base `I` ends with the amplitude
that the single update at `I` gives on the initial state, provided the visited
groups are pairwise disjoint. -/
theorem foldl_upd_at (upd : List ℂ → Nat → List ℂ) (G : Nat → List Nat)
    (hlen : ∀ psi I, (upd psi I).length = psi.length)
    (hframe : ∀ psi I j, j ∉ G I → (upd psi I).getD j 0 = psi.getD j 0)
    (hlocal : ∀ psi psi2 I, psi.length = psi2.length →
      (∀ x ∈ G I, psi.getD x 0 = psi2.getD x 0) →
      ∀ j ∈ G I, (upd psi I).getD j 0 = (upd psi2 I).getD j 0)
    (L : List Nat) (hnd : L.Nodup)
    (hdisj : ∀ I ∈ L, ∀ J ∈ L, I ≠ J → ∀ x ∈ G I, x ∉ G J)
    (psi : List ℂ) (I : Nat) (hI : I ∈ L) (j : Nat) (hj : j ∈ G I) :
    (L.foldl upd psi).getD j 0 = (upd psi I).getD j 0 := by
  induction L generalizing psi with
  | nil => cases hI
  | cons a L ih =>
    rw [List.foldl_cons]
    have hnd' := List.nodup_cons.1 hnd
    rcases List.mem_cons.1 hI with rfl | hIL
    · apply foldl_upd_frame upd G hframe
      intro J hJ hjJ
      have hne : I ≠ J := fun h => hnd'.1 (h ▸ hJ)
      exact hdisj I (List.mem_cons_self _ _) J (List.mem_cons_of_mem _ hJ) hne j hj hjJ
    · have hne : I ≠ a := fun h => hnd'.1 (h ▸ hIL)
      rw [ih hnd'.2 (fun I' hI' J hJ => hdisj I' (List.mem_cons_of_mem _ hI') J
        (List.mem_cons_of_mem _ hJ)) (upd psi a) hIL]
      apply hlocal _ _ _ (hlen psi a) _ j hj
      intro x hx
      exact hframe psi a x (hdisj I hI a (List.mem_cons_self _ _) hne x hx)

/-! ## Groups of distinct bases are disjoint -/

/-- Single-target groups of two different bases with bit `id0` clear do not meet. -/
theorem group1_disjoint {id0 I J : Nat} (hI : I.testBit id0 = false) (hJ : J.testBit id0 = false)
    (hne : I ≠ J) : ∀ x ∈ Kernel1.group I (2 ^ id0), x ∉ Kernel1.group J (2 ^ id0) := by
  intro x hx hx'
  simp only [Kernel1.group, List.mem_cons, List.mem_singleton, List.not_mem_nil, or_false] at hx hx'
  have hIb := testBit_add_two_pow hI id0
  have hJb := testBit_add_two_pow hJ id0
  simp only [decide_True, Bool.or_true] at hIb hJb
  rcases hx with rfl | rfl <;> rcases hx' with h | h
  · exact hne h
  · rw [h, hJb] at hI; cases hI
  · rw [← h, hIb] at hJ; cases hJ
  · exact hne (Nat.add_right_cancel h)


/-! ## Control masks as bit sets -/

/-- The test `(a & m) == m` holds exactly when every bit of `m` is set in `a`. -/
theorem land_eq_iff (a m : Nat) :
    a &&& m = m ↔ ∀ k, m.testBit k = true → a.testBit k = true := by
  constructor
  · intro h k hk
    have := congrArg (fun z => Nat.testBit z k) h
    simp only [Nat.testBit_land, hk, Bool.and_true] at this
    exact this
  · intro h
    apply Nat.eq_of_testBit_eq
    intro k
    rw [Nat.testBit_land]
    cases hk : m.testBit k with
    | false => simp
    | true => simp [h k hk]

/-- A mask shares no bit with `2^i` exactly when its bit `i` is clear. -/
theorem land_two_pow_eq_zero_iff (m i : Nat) : m &&& 2 ^ i = 0 ↔ m.testBit i = false := by
  constructor
  · intro h
    have := congrArg (fun z => Nat.testBit z i) h
    simpa [Nat.testBit_land, Nat.testBit_two_pow_self] using this
  · intro h
    apply Nat.eq_of_testBit_eq
    intro k
    rw [Nat.testBit_land, Nat.testBit_two_pow]
    by_cases hk : i = k
    · subst hk; simp [h]
    · simp [hk]

/-! ## Semantics of the single-target kernel -/

/-- Length is kept by the single-target group update. -/
theorem core1_length (psi : List ℂ) (I d0 : Nat) (m : Matrix (Fin 2) (Fin 2) ℂ) :
    (Kernel1.kernel_core psi I d0 (Kernel1.mm m) (Kernel1.mmt m)).length = psi.length := by
  rw [core1_eq]; simp

/-- Outside its group the single-target group update changes nothing. -/
theorem core1_frame (psi : List ℂ) (I d0 : Nat) (m : Matrix (Fin 2) (Fin 2) ℂ) (j : Nat)
    (hj : j ∉ Kernel1.group I d0) :
    (Kernel1.kernel_core psi I d0 (Kernel1.mm m) (Kernel1.mmt m)).getD j 0 = psi.getD j 0 := by
  simp only [Kernel1.group, List.mem_cons, List.mem_singleton, List.not_mem_nil, or_false,
    not_or] at hj
  rw [core1_eq, getD_set, getD_set]
  rw [if_neg (fun h => hj.2 h.1.symm), if_neg (fun h => hj.1 h.1.symm)]

/-- Inside its group the single-target group update gives the two matrix rows
applied to the pre-call pair. -/
theorem core1_at (psi : List ℂ) (I d0 : Nat) (m : Matrix (Fin 2) (Fin 2) ℂ) (hd : 0 < d0)
    (hI : I + d0 < psi.length) :
    (Kernel1.kernel_core psi I d0 (Kernel1.mm m) (Kernel1.mmt m)).getD I 0
        = m 0 0 * psi.getD I 0 + m 0 1 * psi.getD (I + d0) 0
    ∧ (Kernel1.kernel_core psi I d0 (Kernel1.mm m) (Kernel1.mmt m)).getD (I + d0) 0
        = m 1 0 * psi.getD I 0 + m 1 1 * psi.getD (I + d0) 0 := by
  rw [core1_eq]
  constructor
  · rw [getD_set, getD_set, if_neg (by omega), if_pos ⟨rfl, by omega⟩]
  · rw [getD_set, if_pos ⟨rfl, by simpa using hI⟩]

/-- The single-target group update depends only on the amplitudes of its group. -/
theorem core1_local (psi psi2 : List ℂ) (I d0 : Nat) (m : Matrix (Fin 2) (Fin 2) ℂ)
    (hlen : psi.length = psi2.length)
    (h : ∀ x ∈ Kernel1.group I d0, psi.getD x 0 = psi2.getD x 0) :
    ∀ j ∈ Kernel1.group I d0,
      (Kernel1.kernel_core psi I d0 (Kernel1.mm m) (Kernel1.mmt m)).getD j 0
        = (Kernel1.kernel_core psi2 I d0 (Kernel1.mm m) (Kernel1.mmt m)).getD j 0 := by
  intro j hj
  have hI := h I (by simp [Kernel1.group])
  have hId := h (I + d0) (by simp [Kernel1.group])
  rw [core1_eq, core1_eq, getD_set, getD_set, getD_set, getD_set,
    List.length_set, List.length_set, hI, hId, hlen, h j hj]


/-- Membership in the call list of the single-target kernel. -/
theorem mem_calls1 {N id0 : Nat} (h0 : id0 < N) (ctrlmask I : Nat) :
    I ∈ Kernel1.calls (2 ^ N) id0 ctrlmask
      ↔ I < 2 ^ N ∧ I.testBit id0 = false ∧ (ctrlmask = 0 ∨ I &&& ctrlmask = ctrlmask) := by
  rw [calls1_eq h0]
  simp [List.mem_filter, and_assoc]

/-- The call list of the single-target kernel has no repeated index. -/
theorem nodup_calls1 {N id0 : Nat} (h0 : id0 < N) (ctrlmask : Nat) :
    (Kernel1.calls (2 ^ N) id0 ctrlmask).Nodup := by
  rw [calls1_eq h0]
  exact List.Nodup.filter _ (List.nodup_range _)

/-- The single-target kernel keeps the length of the state vector. -/
theorem kernel1_length {N id0 : Nat} (h0 : id0 < N) (psi : List ℂ) (hlen : psi.length = 2 ^ N)
    (m : Matrix (Fin 2) (Fin 2) ℂ) (ctrlmask : Nat) :
    (Kernel1.kernel psi id0 m ctrlmask).length = psi.length := by
  rw [kernel1_eq_foldl h0 psi hlen]
  exact foldl_upd_length _ (fun psi I => core1_length psi I _ m) _ _

/-- A group whose base passes the control test is replaced by the matrix
applied to its pre-call amplitudes. -/
theorem kernel1_selected {N id0 : Nat} (h0 : id0 < N) (psi : List ℂ) (hlen : psi.length = 2 ^ N)
    (m : Matrix (Fin 2) (Fin 2) ℂ) (ctrlmask I : Nat) (hI : I.testBit id0 = false)
    (hIn : I < 2 ^ N) (hsel : ctrlmask = 0 ∨ I &&& ctrlmask = ctrlmask) :
    (Kernel1.kernel psi id0 m ctrlmask).getD I 0
        = m 0 0 * psi.getD I 0 + m 0 1 * psi.getD (I + 2 ^ id0) 0
    ∧ (Kernel1.kernel psi id0 m ctrlmask).getD (I + 2 ^ id0) 0
        = m 1 0 * psi.getD I 0 + m 1 1 * psi.getD (I + 2 ^ id0) 0 := by
  rw [kernel1_eq_foldl h0 psi hlen]
  have hmem : I ∈ Kernel1.calls (2 ^ N) id0 ctrlmask := (mem_calls1 h0 _ _).2 ⟨hIn, hI, hsel⟩
  have hat := foldl_upd_at
    (fun psi I => Kernel1.kernel_core psi I (2 ^ id0) (Kernel1.mm m) (Kernel1.mmt m))
    (fun I => Kernel1.group I (2 ^ id0))
    (fun psi I => core1_length psi I _ m)
    (fun psi I j hj => core1_frame psi I _ m j hj)
    (fun psi psi2 I hl h => core1_local psi psi2 I _ m hl h)
    (Kernel1.calls (2 ^ N) id0 ctrlmask) (nodup_calls1 h0 _)
    (fun I' hI' J hJ hne => group1_disjoint ((mem_calls1 h0 _ _).1 hI').2.1
      ((mem_calls1 h0 _ _).1 hJ).2.1 hne)
    psi I hmem
  have hbound : I + 2 ^ id0 < psi.length := by
    rw [hlen]; exact add_two_pow_lt hI h0 hIn
  have hcore := core1_at psi I (2 ^ id0) m (Nat.two_pow_pos _) hbound
  rw [hat I (by simp [Kernel1.group]), hat (I + 2 ^ id0) (by simp [Kernel1.group])]
  exact hcore

/-- A group whose base fails the control test keeps its amplitudes. -/
theorem kernel1_unselected {N id0 : Nat} (h0 : id0 < N) (psi : List ℂ)
    (hlen : psi.length = 2 ^ N) (m : Matrix (Fin 2) (Fin 2) ℂ) (ctrlmask I : Nat)
    (hI : I.testBit id0 = false) (hsel : ¬ (ctrlmask = 0 ∨ I &&& ctrlmask = ctrlmask)) :
    (Kernel1.kernel psi id0 m ctrlmask).getD I 0 = psi.getD I 0
    ∧ (Kernel1.kernel psi id0 m ctrlmask).getD (I + 2 ^ id0) 0 = psi.getD (I + 2 ^ id0) 0 := by
  rw [kernel1_eq_foldl h0 psi hlen]
  have hfr : ∀ x ∈ Kernel1.group I (2 ^ id0),
      ((Kernel1.calls (2 ^ N) id0 ctrlmask).foldl
        (fun psi I => Kernel1.kernel_core psi I (2 ^ id0) (Kernel1.mm m) (Kernel1.mmt m)) psi).getD x 0
        = psi.getD x 0 := by
    intro x hx
    apply foldl_upd_frame _ (fun I => Kernel1.group I (2 ^ id0))
      (fun psi I j hj => core1_frame psi I _ m j hj)
    intro J hJ hxJ
    have hJ' := (mem_calls1 h0 _ _).1 hJ
    by_cases hIJ : I = J
    · subst hIJ; exact hsel hJ'.2.2
    · exact group1_disjoint hI hJ'.2.1 hIJ x hx hxJ
  exact ⟨hfr I (by simp [Kernel1.group]), hfr _ (by simp [Kernel1.group])⟩


/-! ## Semantics of the two-target kernel -/

/-- The bits of a member of a two-target group: those of the base, plus
possibly the two target bits. -/
theorem group2_bits {id0 id1 I x : Nat} (hne : id1 ≠ id0) (h0 : I.testBit id0 = false)
    (h1 : I.testBit id1 = false) (hx : x ∈ Kernel2.group I (2 ^ id0) (2 ^ id1)) :
    ∃ a b : Bool, ∀ k,
      x.testBit k = (I.testBit k || (a && decide (k = id0)) || (b && decide (k = id1))) := by
  simp only [Kernel2.group, List.mem_cons, List.mem_singleton, List.not_mem_nil, or_false] at hx
  have h01 : (I + 2 ^ id0).testBit id1 = false := by
    rw [testBit_add_two_pow h0]; simp [h1, hne]
  rcases hx with rfl | rfl | rfl | rfl
  · exact ⟨false, false, fun k => by simp⟩
  · exact ⟨true, false, fun k => by rw [testBit_add_two_pow h0]; simp⟩
  · exact ⟨false, true, fun k => by rw [testBit_add_two_pow h1]; simp⟩
  · exact ⟨true, true, fun k => by
      rw [testBit_add_two_pow h01, testBit_add_two_pow h0]; simp⟩

/-- The base of a two-target group is its member with both target bits cleared. -/
theorem group2_base_bits {id0 id1 I x : Nat} (hne : id1 ≠ id0) (h0 : I.testBit id0 = false)
    (h1 : I.testBit id1 = false) (hx : x ∈ Kernel2.group I (2 ^ id0) (2 ^ id1)) (k : Nat) :
    I.testBit k = (x.testBit k && !decide (k = id0) && !decide (k = id1)) := by
  obtain ⟨a, b, hab⟩ := group2_bits hne h0 h1 hx
  rw [hab k]
  by_cases hk0 : k = id0
  · subst hk0; simp [h0]
  · by_cases hk1 : k = id1
    · subst hk1; simp [h1]
    · simp [hk0, hk1]

/-- Two-target groups of two different bases with both target bits clear do not meet. -/
theorem group2_disjoint {id0 id1 I J : Nat} (hne : id1 ≠ id0) (hI0 : I.testBit id0 = false)
    (hI1 : I.testBit id1 = false) (hJ0 : J.testBit id0 = false) (hJ1 : J.testBit id1 = false)
    (hIJ : I ≠ J) :
    ∀ x ∈ Kernel2.group I (2 ^ id0) (2 ^ id1), x ∉ Kernel2.group J (2 ^ id0) (2 ^ id1) := by
  intro x hx hx'
  apply hIJ
  apply Nat.eq_of_testBit_eq
  intro k
  rw [group2_base_bits hne hI0 hI1 hx k, group2_base_bits hne hJ0 hJ1 hx' k]

/-- Every index lies in the two-target group of a base with both target bits clear. -/
theorem exists_base2 (j id0 id1 : Nat) :
    ∃ I, I.testBit id0 = false ∧ I.testBit id1 = false ∧ I ≤ j
      ∧ j ∈ Kernel2.group I (2 ^ id0) (2 ^ id1) := by
  obtain ⟨I1, hI1, hle1, hj⟩ := exists_base j id0
  obtain ⟨I, hI, hle, hj1⟩ := exists_base I1 id1
  have hI0 : I.testBit id0 = false := by
    rcases hj1 with rfl | rfl
    · exact hI1
    · rw [testBit_add_two_pow hI] at hI1
      simp only [Bool.or_eq_false_iff] at hI1
      exact hI1.1
  refine ⟨I, hI0, hI, le_trans hle hle1, ?_⟩
  simp only [Kernel2.group, List.mem_cons, List.mem_singleton, List.not_mem_nil, or_false]
  rcases hj with rfl | rfl <;> rcases hj1 with rfl | rfl
  · exact Or.inl rfl
  · exact Or.inr (Or.inr (Or.inl rfl))
  · exact Or.inr (Or.inl rfl)
  · exact Or.inr (Or.inr (Or.inr (by omega)))

/-- A base below `2^N` with both target bits clear has its whole group below `2^N`. -/
theorem group2_lt {id0 id1 I N : Nat} (hne : id1 ≠ id0) (h0 : I.testBit id0 = false)
    (h1 : I.testBit id1 = false) (hi0 : id0 < N) (hi1 : id1 < N) (hI : I < 2 ^ N) :
    I + 2 ^ id0 + 2 ^ id1 < 2 ^ N := by
  have h01 : (I + 2 ^ id0).testBit id1 = false := by
    rw [testBit_add_two_pow h0]; simp [h1, hne]
  exact add_two_pow_lt h01 hi1 (add_two_pow_lt h0 hi0 hI)

/-- Length is kept by the two-target group update. -/
theorem core2_length (psi : List ℂ) (I d0 d1 : Nat) (m : Matrix (Fin 4) (Fin 4) ℂ) :
    (Kernel2.kernel_core psi I d0 d1 (Kernel2.mm m) (Kernel2.mmt m)).length = psi.length := by
  rw [core2_eq]; simp

/-- Outside its group the two-target group update changes nothing. -/
theorem core2_frame (psi : List ℂ) (I d0 d1 : Nat) (m : Matrix (Fin 4) (Fin 4) ℂ) (j : Nat)
    (hj : j ∉ Kernel2.group I d0 d1) :
    (Kernel2.kernel_core psi I d0 d1 (Kernel2.mm m) (Kernel2.mmt m)).getD j 0 = psi.getD j 0 := by
  simp only [Kernel2.group, List.mem_cons, List.mem_singleton, List.not_mem_nil, or_false,
    not_or] at hj
  rw [core2_eq, getD_set, getD_set, getD_set, getD_set]
  rw [if_neg (fun h => hj.2.2.2 h.1.symm), if_neg (fun h => hj.2.2.1 h.1.symm),
    if_neg (fun h => hj.2.1 h.1.symm), if_neg (fun h => hj.1 h.1.symm)]

/-- Inside its group the two-target group update gives the four matrix rows
applied to the pre-call quadruple. -/
theorem core2_at (psi : List ℂ) (I d0 d1 : Nat) (m : Matrix (Fin 4) (Fin 4) ℂ) (hd0 : 0 < d0)
    (hd1 : 0 < d1) (hd : d0 ≠ d1) (hI : I + d0 + d1 < psi.length) :
    (Kernel2.kernel_core psi I d0 d1 (Kernel2.mm m) (Kernel2.mmt m)).getD I 0
        = m 0 0 * psi.getD I 0 + m 0 1 * psi.getD (I + d0) 0
          + m 0 2 * psi.getD (I + d1) 0 + m 0 3 * psi.getD (I + d0 + d1) 0
    ∧ (Kernel2.kernel_core psi I d0 d1 (Kernel2.mm m) (Kernel2.mmt m)).getD (I + d0) 0
        = m 1 0 * psi.getD I 0 + m 1 1 * psi.getD (I + d0) 0
          + m 1 2 * psi.getD (I + d1) 0 + m 1 3 * psi.getD (I + d0 + d1) 0
    ∧ (Kernel2.kernel_core psi I d0 d1 (Kernel2.mm m) (Kernel2.mmt m)).getD (I + d1) 0
        = m 2 0 * psi.getD I 0 + m 2 1 * psi.getD (I + d0) 0
          + m 2 2 * psi.getD (I + d1) 0 + m 2 3 * psi.getD (I + d0 + d1) 0
    ∧ (Kernel2.kernel_core psi I d0 d1 (Kernel2.mm m) (Kernel2.mmt m)).getD (I + d0 + d1) 0
        = m 3 0 * psi.getD I 0 + m 3 1 * psi.getD (I + d0) 0
          + m 3 2 * psi.getD (I + d1) 0 + m 3 3 * psi.getD (I + d0 + d1) 0 := by
  rw [core2_eq]
  refine ⟨?_, ?_, ?_, ?_⟩
  · rw [getD_set, getD_set, getD_set, getD_set, if_neg (by omega), if_neg (by omega),
      if_neg (by omega), if_pos ⟨rfl, by omega⟩]
  · rw [getD_set, getD_set, getD_set, if_neg (by omega), if_neg (by omega),
      if_pos ⟨rfl, by simp only [List.length_set]; omega⟩]
  · rw [getD_set, getD_set, if_neg (by omega),
      if_pos ⟨rfl, by simp only [List.length_set]; omega⟩]
  · rw [getD_set, if_pos ⟨rfl, by simp only [List.length_set]; omega⟩]

/-- The two-target group update depends only on the amplitudes of its group. -/
theorem core2_local (psi psi2 : List ℂ) (I d0 d1 : Nat) (m : Matrix (Fin 4) (Fin 4) ℂ)
    (hlen : psi.length = psi2.length)
    (h : ∀ x ∈ Kernel2.group I d0 d1, psi.getD x 0 = psi2.getD x 0) :
    ∀ j ∈ Kernel2.group I d0 d1,
      (Kernel2.kernel_core psi I d0 d1 (Kernel2.mm m) (Kernel2.mmt m)).getD j 0
        = (Kernel2.kernel_core psi2 I d0 d1 (Kernel2.mm m) (Kernel2.mmt m)).getD j 0 := by
  intro j hj
  have e0 := h I (by simp [Kernel2.group])
  have e1 := h (I + d0) (by simp [Kernel2.group])
  have e2 := h (I + d1) (by simp [Kernel2.group])
  have e3 := h (I + d0 + d1) (by simp [Kernel2.group])
  rw [core2_eq, core2_eq]
  simp only [getD_set, List.length_set]
  rw [e0, e1, e2, e3, hlen, h j hj]


/-- Membership in the call list of the two-target kernel. -/
theorem mem_calls2 {N id0 id1 : Nat} (h0 : id0 < N) (h1 : id1 < N) (hne : id1 ≠ id0)
    (ctrlmask I : Nat) :
    I ∈ Kernel2.calls (2 ^ N) id1 id0 ctrlmask
      ↔ I < 2 ^ N ∧ I.testBit id0 = false ∧ I.testBit id1 = false
          ∧ (ctrlmask = 0 ∨ I &&& ctrlmask = ctrlmask) := by
  rw [calls2_eq h0 h1 hne]
  simp [List.mem_filter, and_assoc]

/-- The call list of the two-target kernel has no repeated index. -/
theorem nodup_calls2 {N id0 id1 : Nat} (h0 : id0 < N) (h1 : id1 < N) (hne : id1 ≠ id0)
    (ctrlmask : Nat) : (Kernel2.calls (2 ^ N) id1 id0 ctrlmask).Nodup := by
  rw [calls2_eq h0 h1 hne]
  exact List.Nodup.filter _ (List.nodup_range _)

/-- The two-target kernel keeps the length of the state vector. -/
theorem kernel2_length {N id0 id1 : Nat} (h0 : id0 < N) (h1 : id1 < N) (hne : id1 ≠ id0)
    (psi : List ℂ) (hlen : psi.length = 2 ^ N) (m : Matrix (Fin 4) (Fin 4) ℂ) (ctrlmask : Nat) :
    (Kernel2.kernel psi id1 id0 m ctrlmask).length = psi.length := by
  rw [kernel2_eq_foldl h0 h1 hne psi hlen]
  exact foldl_upd_length _ (fun psi I => core2_length psi I _ _ m) _ _

/-- A group whose base passes the control test is replaced by the matrix
applied to its pre-call amplitudes. -/
theorem kernel2_selected {N id0 id1 : Nat} (h0 : id0 < N) (h1 : id1 < N) (hne : id1 ≠ id0)
    (psi : List ℂ) (hlen : psi.length = 2 ^ N) (m : Matrix (Fin 4) (Fin 4) ℂ) (ctrlmask I : Nat)
    (hI0 : I.testBit id0 = false) (hI1 : I.testBit id1 = false) (hIn : I < 2 ^ N)
    (hsel : ctrlmask = 0 ∨ I &&& ctrlmask = ctrlmask) :
    (Kernel2.kernel psi id1 id0 m ctrlmask).getD I 0
        = m 0 0 * psi.getD I 0 + m 0 1 * psi.getD (I + 2 ^ id0) 0
          + m 0 2 * psi.getD (I + 2 ^ id1) 0 + m 0 3 * psi.getD (I + 2 ^ id0 + 2 ^ id1) 0
    ∧ (Kernel2.kernel psi id1 id0 m ctrlmask).getD (I + 2 ^ id0) 0
        = m 1 0 * psi.getD I 0 + m 1 1 * psi.getD (I + 2 ^ id0) 0
          + m 1 2 * psi.getD (I + 2 ^ id1) 0 + m 1 3 * psi.getD (I + 2 ^ id0 + 2 ^ id1) 0
    ∧ (Kernel2.kernel psi id1 id0 m ctrlmask).getD (I + 2 ^ id1) 0
        = m 2 0 * psi.getD I 0 + m 2 1 * psi.getD (I + 2 ^ id0) 0
          + m 2 2 * psi.getD (I + 2 ^ id1) 0 + m 2 3 * psi.getD (I + 2 ^ id0 + 2 ^ id1) 0
    ∧ (Kernel2.kernel psi id1 id0 m ctrlmask).getD (I + 2 ^ id0 + 2 ^ id1) 0
        = m 3 0 * psi.getD I 0 + m 3 1 * psi.getD (I + 2 ^ id0) 0
          + m 3 2 * psi.getD (I + 2 ^ id1) 0 + m 3 3 * psi.getD (I + 2 ^ id0 + 2 ^ id1) 0 := by
  rw [kernel2_eq_foldl h0 h1 hne psi hlen]
  have hmem : I ∈ Kernel2.calls (2 ^ N) id1 id0 ctrlmask :=
    (mem_calls2 h0 h1 hne _ _).2 ⟨hIn, hI0, hI1, hsel⟩
  have hat := foldl_upd_at
    (fun psi I => Kernel2.kernel_core psi I (2 ^ id0) (2 ^ id1) (Kernel2.mm m) (Kernel2.mmt m))
    (fun I => Kernel2.group I (2 ^ id0) (2 ^ id1))
    (fun psi I => core2_length psi I _ _ m)
    (fun psi I j hj => core2_frame psi I _ _ m j hj)
    (fun psi psi2 I hl h => core2_local psi psi2 I _ _ m hl h)
    (Kernel2.calls (2 ^ N) id1 id0 ctrlmask) (nodup_calls2 h0 h1 hne _)
    (fun I' hI' J hJ hIJ => group2_disjoint hne ((mem_calls2 h0 h1 hne _ _).1 hI').2.1
      ((mem_calls2 h0 h1 hne _ _).1 hI').2.2.1 ((mem_calls2 h0 h1 hne _ _).1 hJ).2.1
      ((mem_calls2 h0 h1 hne _ _).1 hJ).2.2.1 hIJ)
    psi I hmem
  have hbound : I + 2 ^ id0 + 2 ^ id1 < psi.length := by
    rw [hlen]; exact group2_lt hne hI0 hI1 h0 h1 hIn
  have hpne : (2 : Nat) ^ id0 ≠ 2 ^ id1 := fun h =>
    hne (Nat.pow_right_injective (le_refl 2) h).symm
  have hcore := core2_at psi I (2 ^ id0) (2 ^ id1) m (Nat.two_pow_pos _) (Nat.two_pow_pos _)
    hpne hbound
  rw [hat I (by simp [Kernel2.group]), hat (I + 2 ^ id0) (by simp [Kernel2.group]),
    hat (I + 2 ^ id1) (by simp [Kernel2.group]),
    hat (I + 2 ^ id0 + 2 ^ id1) (by simp [Kernel2.group])]
  exact hcore

/-- A group whose base fails the control test keeps its amplitudes. -/
theorem kernel2_unselected {N id0 id1 : Nat} (h0 : id0 < N) (h1 : id1 < N) (hne : id1 ≠ id0)
    (psi : List ℂ) (hlen : psi.length = 2 ^ N) (m : Matrix (Fin 4) (Fin 4) ℂ) (ctrlmask I : Nat)
    (hI0 : I.testBit id0 = false) (hI1 : I.testBit id1 = false)
    (hsel : ¬ (ctrlmask = 0 ∨ I &&& ctrlmask = ctrlmask)) :
    ∀ x ∈ Kernel2.group I (2 ^ id0) (2 ^ id1),
      (Kernel2.kernel psi id1 id0 m ctrlmask).getD x 0 = psi.getD x 0 := by
  rw [kernel2_eq_foldl h0 h1 hne psi hlen]
  intro x hx
  apply foldl_upd_frame _ (fun I => Kernel2.group I (2 ^ id0) (2 ^ id1))
    (fun psi I j hj => core2_frame psi I _ _ m j hj)
  intro J hJ hxJ
  have hJ' := (mem_calls2 h0 h1 hne _ _).1 hJ
  by_cases hIJ : I = J
  · subst hIJ; exact hsel hJ'.2.2.2
  · exact group2_disjoint hne hI0 hI1 hJ'.2.1 hJ'.2.2.1 hIJ x hx hxJ


/-! ## The claims -/

/-- C1. Arity-1 kernel, unconditional: for a state vector `psi` of length
`2^N`, a target bit `id0 < N` and any 2x2 complex matrix `m`, after
`kernel(psi, id0, m, ctrlmask = 0)` every index `I < 2^N` whose bit `id0` is 0
satisfies, with `d0 = 2^id0` and `psi` the pre-call vector,
`psi'[I] = m[0][0]*psi[I] + m[0][1]*psi[I+d0]` and
`psi'[I+d0] = m[1][0]*psi[I] + m[1][1]*psi[I+d0]`; the vector keeps its length. -/
theorem C1_kernel1_unconditional (N : Nat) (psi : List ℂ) (hlen : psi.length = 2 ^ N)
    (id0 : Nat) (h0 : id0 < N) (m : Matrix (Fin 2) (Fin 2) ℂ) (I : Nat) (hI : I < 2 ^ N)
    (hbit : I.testBit id0 = false) :
    (Kernel1.kernel psi id0 m 0).length = psi.length
    ∧ (Kernel1.kernel psi id0 m 0).getD I 0
        = m 0 0 * psi.getD I 0 + m 0 1 * psi.getD (I + 2 ^ id0) 0
    ∧ (Kernel1.kernel psi id0 m 0).getD (I + 2 ^ id0) 0
        = m 1 0 * psi.getD I 0 + m 1 1 * psi.getD (I + 2 ^ id0) 0 :=
  ⟨kernel1_length h0 psi hlen m 0, kernel1_selected h0 psi hlen m 0 I hbit hI (Or.inl rfl)⟩

/-- Witness for C1: one qubit, `psi = [1, 0]`, target 0, base index 0. -/
theorem C1_kernel1_unconditional_witness :
    ([1, 0] : List ℂ).length = 2 ^ 1 ∧ 0 < 1 ∧ 0 < 2 ^ 1 ∧ Nat.testBit 0 0 = false
    ∧ (Kernel1.kernel [1, 0] 0 !![0, 1; 1, 0] 0).length = ([1, 0] : List ℂ).length
    ∧ (Kernel1.kernel [1, 0] 0 !![0, 1; 1, 0] 0).getD 0 0
        = (!![0, 1; 1, 0] : Matrix (Fin 2) (Fin 2) ℂ) 0 0 * ([1, 0] : List ℂ).getD 0 0
          + (!![0, 1; 1, 0] : Matrix (Fin 2) (Fin 2) ℂ) 0 1 * ([1, 0] : List ℂ).getD (0 + 2 ^ 0) 0
    ∧ (Kernel1.kernel [1, 0] 0 !![0, 1; 1, 0] 0).getD (0 + 2 ^ 0) 0
        = (!![0, 1; 1, 0] : Matrix (Fin 2) (Fin 2) ℂ) 1 0 * ([1, 0] : List ℂ).getD 0 0
          + (!![0, 1; 1, 0] : Matrix (Fin 2) (Fin 2) ℂ) 1 1 * ([1, 0] : List ℂ).getD (0 + 2 ^ 0) 0 :=
  ⟨rfl, by decide, by decide, by decide,
    C1_kernel1_unconditional 1 [1, 0] rfl 0 (by decide) !![0, 1; 1, 0] 0 (by decide) (by decide)⟩

/-- C2. Arity-2 kernel, unconditional, most-significant target first: for a
state vector of length `2^N`, distinct target bits `id1, id0 < N` in either
numeric order and any 4x4 complex matrix `m`, after
`kernel(psi, id1, id0, m, ctrlmask = 0)` every index `I < 2^N` whose bits `id0`
and `id1` are 0 satisfies, with `g = (psi[I], psi[I+d0], psi[I+d1], psi[I+d0+d1])`
read before the call, `psi'[I + a*d0 + b*d1] = sum_c m[2*b + a][c] * g[c]` for
all `a, b` in `{0, 1}`: `id1` is the high bit and `id0` the low bit of the row
index. -/
theorem C2_kernel2_unconditional (N : Nat) (psi : List ℂ) (hlen : psi.length = 2 ^ N)
    (id1 id0 : Nat) (h1 : id1 < N) (h0 : id0 < N) (hne : id1 ≠ id0)
    (m : Matrix (Fin 4) (Fin 4) ℂ) (I : Nat) (hI : I < 2 ^ N)
    (hbit0 : I.testBit id0 = false) (hbit1 : I.testBit id1 = false) (a b : Fin 2) :
    (Kernel2.kernel psi id1 id0 m 0).getD (I + a.val * 2 ^ id0 + b.val * 2 ^ id1) 0
      = ∑ c : Fin 4, m ⟨2 * b.val + a.val, by omega⟩ c
          * (![psi.getD I 0, psi.getD (I + 2 ^ id0) 0, psi.getD (I + 2 ^ id1) 0,
              psi.getD (I + 2 ^ id0 + 2 ^ id1) 0] : Fin 4 → ℂ) c := by
  obtain ⟨e0, e1, e2, e3⟩ :=
    kernel2_selected h0 h1 hne psi hlen m 0 I hbit0 hbit1 hI (Or.inl rfl)
  fin_cases a <;> fin_cases b
  · simpa [Fin.sum_univ_four] using e0
  · simpa [Fin.sum_univ_four] using e2
  · simpa [Fin.sum_univ_four] using e1
  · simpa [Fin.sum_univ_four] using e3


/-- Witness for C2: two qubits, `psi = [1, 0, 0, 0]`, targets `id1 = 1`,
`id0 = 0`, base index 0, row `a = 1`, `b = 1`. -/
theorem C2_kernel2_unconditional_witness :
    ([1, 0, 0, 0] : List ℂ).length = 2 ^ 2 ∧ 1 < 2 ∧ 0 < 2 ∧ 1 ≠ 0 ∧ 0 < 2 ^ 2
    ∧ Nat.testBit 0 0 = false ∧ Nat.testBit 0 1 = false
    ∧ (Kernel2.kernel [1, 0, 0, 0] 1 0 1 0).getD
          (0 + (1 : Fin 2).val * 2 ^ 0 + (1 : Fin 2).val * 2 ^ 1) 0
        = ∑ c : Fin 4, (1 : Matrix (Fin 4) (Fin 4) ℂ)
              ⟨2 * (1 : Fin 2).val + (1 : Fin 2).val, by decide⟩ c
            * (![([1, 0, 0, 0] : List ℂ).getD 0 0, ([1, 0, 0, 0] : List ℂ).getD (0 + 2 ^ 0) 0,
                ([1, 0, 0, 0] : List ℂ).getD (0 + 2 ^ 1) 0,
                ([1, 0, 0, 0] : List ℂ).getD (0 + 2 ^ 0 + 2 ^ 1) 0] : Fin 4 → ℂ) c :=
  ⟨rfl, by decide, by decide, by decide, by decide, by decide, by decide,
    C2_kernel2_unconditional 2 [1, 0, 0, 0] rfl 1 0 (by decide) (by decide) (by decide) 1 0
      (by decide) (by decide) (by decide) 1 1⟩

/-- Indices at or beyond the length read as the default amplitude. -/
theorem getD_of_le (l : List ℂ) (j : Nat) (h : l.length ≤ j) : l.getD j 0 = 0 := by
  simp [List.getD_eq_getElem?_getD, List.getElem?_eq_none h]

/-- A member of a single-target group carries every bit of its base. -/
theorem group1_bits {id0 I x : Nat} (h0 : I.testBit id0 = false)
    (hx : x ∈ Kernel1.group I (2 ^ id0)) :
    ∃ a : Bool, ∀ k, x.testBit k = (I.testBit k || (a && decide (k = id0))) := by
  simp only [Kernel1.group, List.mem_cons, List.mem_singleton, List.not_mem_nil, or_false] at hx
  rcases hx with rfl | rfl
  · exact ⟨false, fun k => by simp⟩
  · exact ⟨true, fun k => by rw [testBit_add_two_pow h0]; simp⟩

/-- Every index lies in the single-target group of a base with the target bit clear. -/
theorem exists_base1 (j id0 : Nat) :
    ∃ I, I.testBit id0 = false ∧ I ≤ j ∧ j ∈ Kernel1.group I (2 ^ id0) := by
  obtain ⟨I, hI, hle, hj⟩ := exists_base j id0
  exact ⟨I, hI, hle, by simpa [Kernel1.group] using hj⟩

/-- One form for the amplitudes of a single-target group after the kernel. -/
theorem kernel1_unselected_mem {N id0 : Nat} (h0 : id0 < N) (psi : List ℂ)
    (hlen : psi.length = 2 ^ N) (m : Matrix (Fin 2) (Fin 2) ℂ) (ctrlmask I : Nat)
    (hI : I.testBit id0 = false) (hsel : ¬ (ctrlmask = 0 ∨ I &&& ctrlmask = ctrlmask)) :
    ∀ x ∈ Kernel1.group I (2 ^ id0),
      (Kernel1.kernel psi id0 m ctrlmask).getD x 0 = psi.getD x 0 := by
  intro x hx
  obtain ⟨e0, e1⟩ := kernel1_unselected h0 psi hlen m ctrlmask I hI hsel
  simp only [Kernel1.group, List.mem_cons, List.mem_singleton, List.not_mem_nil, or_false] at hx
  rcases hx with rfl | rfl
  · exact e0
  · exact e1

/-- C3. Control masking selectivity: for the arity-1 and arity-2 kernels, a
state vector of length `2^N`, valid distinct targets below `N`, any matrix and
any nonzero `ctrlmask`, every index `j` with `(j & ctrlmask) != ctrlmask` holds
after the call exactly the amplitude it held before. -/
theorem C3_control_mask_selectivity :
    (∀ (N : Nat) (psi : List ℂ), psi.length = 2 ^ N → ∀ (id0 : Nat), id0 < N →
      ∀ (m : Matrix (Fin 2) (Fin 2) ℂ) (ctrlmask : Nat), ctrlmask ≠ 0 →
      ∀ (j : Nat), j &&& ctrlmask ≠ ctrlmask →
        (Kernel1.kernel psi id0 m ctrlmask).getD j 0 = psi.getD j 0)
    ∧ (∀ (N : Nat) (psi : List ℂ), psi.length = 2 ^ N → ∀ (id1 id0 : Nat), id1 < N → id0 < N →
      id1 ≠ id0 → ∀ (m : Matrix (Fin 4) (Fin 4) ℂ) (ctrlmask : Nat), ctrlmask ≠ 0 →
      ∀ (j : Nat), j &&& ctrlmask ≠ ctrlmask →
        (Kernel2.kernel psi id1 id0 m ctrlmask).getD j 0 = psi.getD j 0) := by
  constructor
  · intro N psi hlen id0 h0 m ctrlmask hc j hj
    obtain ⟨I, hI, _, hmem⟩ := exists_base1 j id0
    apply kernel1_unselected_mem h0 psi hlen m ctrlmask I hI _ j hmem
    rintro (h | h)
    · exact hc h
    · apply hj
      obtain ⟨a, hbits⟩ := group1_bits hI hmem
      rw [land_eq_iff] at h ⊢
      intro k hk
      rw [hbits k, h k hk]
      rfl
  · intro N psi hlen id1 id0 h1 h0 hne m ctrlmask hc j hj
    obtain ⟨I, hI0, hI1, _, hmem⟩ := exists_base2 j id0 id1
    apply kernel2_unselected h0 h1 hne psi hlen m ctrlmask I hI0 hI1 _ j hmem
    rintro (h | h)
    · exact hc h
    · apply hj
      obtain ⟨a, b, hbits⟩ := group2_bits hne hI0 hI1 hmem
      rw [land_eq_iff] at h ⊢
      intro k hk
      rw [hbits k, h k hk]
      rfl

/-- Witness for C3: two qubits, control mask `2` (qubit 1), index `j = 1`
whose control bit is 0, arity 1 on target 0; three qubits, control mask `4`,
arity 2 on targets `1, 0`. -/
theorem C3_control_mask_selectivity_witness :
    (([0, 1, 0, 0] : List ℂ).length = 2 ^ 2 ∧ 0 < 2 ∧ (2 : Nat) ≠ 0 ∧ 1 &&& 2 ≠ 2
      ∧ (Kernel1.kernel [0, 1, 0, 0] 0 !![0, 1; 1, 0] 2).getD 1 0
          = ([0, 1, 0, 0] : List ℂ).getD 1 0)
    ∧ (([0, 1, 0, 0, 0, 0, 0, 0] : List ℂ).length = 2 ^ 3 ∧ 1 < 3 ∧ 0 < 3 ∧ 1 ≠ 0
      ∧ (4 : Nat) ≠ 0 ∧ 1 &&& 4 ≠ 4
      ∧ (Kernel2.kernel [0, 1, 0, 0, 0, 0, 0, 0] 1 0 1 4).getD 1 0
          = ([0, 1, 0, 0, 0, 0, 0, 0] : List ℂ).getD 1 0) :=
  ⟨⟨rfl, by decide, by decide, by decide,
      C3_control_mask_selectivity.1 2 [0, 1, 0, 0] rfl 0 (by decide) !![0, 1; 1, 0] 2
        (by decide) 1 (by decide)⟩,
    ⟨rfl, by decide, by decide, by decide, by decide, by decide,
      C3_control_mask_selectivity.2 3 [0, 1, 0, 0, 0, 0, 0, 0] rfl 1 0 (by decide) (by decide)
        (by decide) 1 4 (by decide) 1 (by decide)⟩⟩


/-- A base carries every bit of a group member other than the target bit. -/
theorem group1_mask_base {id0 I x ctrlmask : Nat} (h0 : I.testBit id0 = false)
    (hx : x ∈ Kernel1.group I (2 ^ id0)) (hm : ctrlmask.testBit id0 = false)
    (h : x &&& ctrlmask = ctrlmask) : I &&& ctrlmask = ctrlmask := by
  obtain ⟨a, hbits⟩ := group1_bits h0 hx
  rw [land_eq_iff] at h ⊢
  intro k hk
  have hk0 : k ≠ id0 := fun e => by rw [e, hm] at hk; cases hk
  have := h k hk
  rw [hbits k] at this
  simpa [hk0] using this

/-- A base carries every bit of a group member other than the two target bits. -/
theorem group2_mask_base {id0 id1 I x ctrlmask : Nat} (hne : id1 ≠ id0)
    (h0 : I.testBit id0 = false) (h1 : I.testBit id1 = false)
    (hx : x ∈ Kernel2.group I (2 ^ id0) (2 ^ id1)) (hm0 : ctrlmask.testBit id0 = false)
    (hm1 : ctrlmask.testBit id1 = false) (h : x &&& ctrlmask = ctrlmask) :
    I &&& ctrlmask = ctrlmask := by
  obtain ⟨a, b, hbits⟩ := group2_bits hne h0 h1 hx
  rw [land_eq_iff] at h ⊢
  intro k hk
  have hk0 : k ≠ id0 := fun e => by rw [e, hm0] at hk; cases hk
  have hk1 : k ≠ id1 := fun e => by rw [e, hm1] at hk; cases hk
  have := h k hk
  rw [hbits k] at this
  simpa [hk0, hk1] using this

/-- A mask sharing no bit with `2^id0 | 2^id1` has both bits clear. -/
theorem land_lor_two_pow_eq_zero {m id0 id1 : Nat} (h : m &&& (2 ^ id0 ||| 2 ^ id1) = 0) :
    m.testBit id0 = false ∧ m.testBit id1 = false := by
  have e0 := congrArg (fun z => Nat.testBit z id0) h
  have e1 := congrArg (fun z => Nat.testBit z id1) h
  simp only [Nat.testBit_land, Nat.testBit_or, Nat.testBit_two_pow_self, Bool.true_or,
    Bool.or_true, Bool.and_true, Nat.zero_testBit] at e0 e1
  exact ⟨e0, e1⟩

/-- Within a selected single-target group the result does not depend on which
mask selected it. -/
theorem kernel1_selected_mem_eq {N id0 : Nat} (h0 : id0 < N) (psi : List ℂ)
    (hlen : psi.length = 2 ^ N) (m : Matrix (Fin 2) (Fin 2) ℂ) (c c' I : Nat)
    (hI : I.testBit id0 = false) (hIn : I < 2 ^ N) (hsel : c = 0 ∨ I &&& c = c)
    (hsel' : c' = 0 ∨ I &&& c' = c') :
    ∀ x ∈ Kernel1.group I (2 ^ id0),
      (Kernel1.kernel psi id0 m c).getD x 0 = (Kernel1.kernel psi id0 m c').getD x 0 := by
  intro x hx
  obtain ⟨e0, e1⟩ := kernel1_selected h0 psi hlen m c I hI hIn hsel
  obtain ⟨f0, f1⟩ := kernel1_selected h0 psi hlen m c' I hI hIn hsel'
  simp only [Kernel1.group, List.mem_cons, List.mem_singleton, List.not_mem_nil, or_false] at hx
  rcases hx with rfl | rfl
  · rw [e0, f0]
  · rw [e1, f1]

/-- Within a selected two-target group the result does not depend on which
mask selected it. -/
theorem kernel2_selected_mem_eq {N id0 id1 : Nat} (h0 : id0 < N) (h1 : id1 < N)
    (hne : id1 ≠ id0) (psi : List ℂ) (hlen : psi.length = 2 ^ N)
    (m : Matrix (Fin 4) (Fin 4) ℂ) (c c' I : Nat) (hI0 : I.testBit id0 = false)
    (hI1 : I.testBit id1 = false) (hIn : I < 2 ^ N) (hsel : c = 0 ∨ I &&& c = c)
    (hsel' : c' = 0 ∨ I &&& c' = c') :
    ∀ x ∈ Kernel2.group I (2 ^ id0) (2 ^ id1),
      (Kernel2.kernel psi id1 id0 m c).getD x 0 = (Kernel2.kernel psi id1 id0 m c').getD x 0 := by
  intro x hx
  obtain ⟨e0, e1, e2, e3⟩ := kernel2_selected h0 h1 hne psi hlen m c I hI0 hI1 hIn hsel
  obtain ⟨f0, f1, f2, f3⟩ := kernel2_selected h0 h1 hne psi hlen m c' I hI0 hI1 hIn hsel'
  simp only [Kernel2.group, List.mem_cons, List.mem_singleton, List.not_mem_nil, or_false] at hx
  rcases hx with rfl | rfl | rfl | rfl
  · rw [e0, f0]
  · rw [e1, f1]
  · rw [e2, f2]
  · rw [e3, f3]

/-- C4. Controlled application: for the arity-1 and arity-2 kernels, a state
vector of length `2^N`, valid distinct targets below `N`, any matrix and any
nonzero `ctrlmask` sharing no bit with the target bits, every index `j` with
`(j & ctrlmask) == ctrlmask` holds after the call the amplitude that the same
call with `ctrlmask = 0` leaves at `j`. -/
theorem C4_controlled_application :
    (∀ (N : Nat) (psi : List ℂ), psi.length = 2 ^ N → ∀ (id0 : Nat), id0 < N →
      ∀ (m : Matrix (Fin 2) (Fin 2) ℂ) (ctrlmask : Nat), ctrlmask ≠ 0 →
      ctrlmask &&& 2 ^ id0 = 0 → ∀ (j : Nat), j &&& ctrlmask = ctrlmask →
        (Kernel1.kernel psi id0 m ctrlmask).getD j 0 = (Kernel1.kernel psi id0 m 0).getD j 0)
    ∧ (∀ (N : Nat) (psi : List ℂ), psi.length = 2 ^ N → ∀ (id1 id0 : Nat), id1 < N → id0 < N →
      id1 ≠ id0 → ∀ (m : Matrix (Fin 4) (Fin 4) ℂ) (ctrlmask : Nat), ctrlmask ≠ 0 →
      ctrlmask &&& (2 ^ id0 ||| 2 ^ id1) = 0 → ∀ (j : Nat), j &&& ctrlmask = ctrlmask →
        (Kernel2.kernel psi id1 id0 m ctrlmask).getD j 0
          = (Kernel2.kernel psi id1 id0 m 0).getD j 0) := by
  constructor
  · intro N psi hlen id0 h0 m ctrlmask _ hdis j hj
    by_cases hjn : j < 2 ^ N
    · obtain ⟨I, hI, hle, hmem⟩ := exists_base1 j id0
      have hm := (land_two_pow_eq_zero_iff _ _).1 hdis
      exact kernel1_selected_mem_eq h0 psi hlen m ctrlmask 0 I hI (lt_of_le_of_lt hle hjn)
        (Or.inr (group1_mask_base hI hmem hm hj)) (Or.inl rfl) j hmem
    · rw [getD_of_le, getD_of_le]
      · rw [kernel1_length h0 psi hlen, hlen]; omega
      · rw [kernel1_length h0 psi hlen, hlen]; omega
  · intro N psi hlen id1 id0 h1 h0 hne m ctrlmask _ hdis j hj
    by_cases hjn : j < 2 ^ N
    · obtain ⟨I, hI0, hI1, hle, hmem⟩ := exists_base2 j id0 id1
      obtain ⟨hm0, hm1⟩ := land_lor_two_pow_eq_zero hdis
      exact kernel2_selected_mem_eq h0 h1 hne psi hlen m ctrlmask 0 I hI0 hI1
        (lt_of_le_of_lt hle hjn) (Or.inr (group2_mask_base hne hI0 hI1 hmem hm0 hm1 hj))
        (Or.inl rfl) j hmem
    · rw [getD_of_le, getD_of_le]
      · rw [kernel2_length h0 h1 hne psi hlen, hlen]; omega
      · rw [kernel2_length h0 h1 hne psi hlen, hlen]; omega

/-- Witness for C4: arity 1 on two qubits (target 0, control mask `2`, index
`j = 3`) and arity 2 on three qubits (targets `1, 0`, control mask `4`, index
`j = 5`). -/
theorem C4_controlled_application_witness :
    (([0, 0, 1, 0] : List ℂ).length = 2 ^ 2 ∧ 0 < 2 ∧ (2 : Nat) ≠ 0 ∧ 2 &&& 2 ^ 0 = 0
      ∧ 3 &&& 2 = 2
      ∧ (Kernel1.kernel [0, 0, 1, 0] 0 !![0, 1; 1, 0] 2).getD 3 0
          = (Kernel1.kernel [0, 0, 1, 0] 0 !![0, 1; 1, 0] 0).getD 3 0)
    ∧ (([0, 0, 0, 0, 1, 0, 0, 0] : List ℂ).length = 2 ^ 3 ∧ 1 < 3 ∧ 0 < 3 ∧ 1 ≠ 0
      ∧ (4 : Nat) ≠ 0 ∧ 4 &&& (2 ^ 0 ||| 2 ^ 1) = 0 ∧ 5 &&& 4 = 4
      ∧ (Kernel2.kernel [0, 0, 0, 0, 1, 0, 0, 0] 1 0 1 4).getD 5 0
          = (Kernel2.kernel [0, 0, 0, 0, 1, 0, 0, 0] 1 0 1 0).getD 5 0) :=
  ⟨⟨rfl, by decide, by decide, by decide, by decide,
      C4_controlled_application.1 2 [0, 0, 1, 0] rfl 0 (by decide) !![0, 1; 1, 0] 2
        (by decide) (by decide) 3 (by decide)⟩,
    ⟨rfl, by decide, by decide, by decide, by decide, by decide, by decide,
      C4_controlled_application.2 3 [0, 0, 0, 0, 1, 0, 0, 0] rfl 1 0 (by decide) (by decide)
        (by decide) 1 4 (by decide) (by decide) 5 (by decide)⟩⟩


/-- Every member of a single-target group of a visited base is a valid index. -/
theorem group1_lt {id0 I N x : Nat} (h0 : I.testBit id0 = false) (hi0 : id0 < N)
    (hI : I < 2 ^ N) (hx : x ∈ Kernel1.group I (2 ^ id0)) : x < 2 ^ N := by
  have := add_two_pow_lt h0 hi0 hI
  simp only [Kernel1.group, List.mem_cons, List.mem_singleton, List.not_mem_nil, or_false] at hx
  rcases hx with rfl | rfl
  · exact hI
  · exact this

/-- Every member of a two-target group of a visited base is a valid index. -/
theorem group2_mem_lt {id0 id1 I N x : Nat} (hne : id1 ≠ id0) (h0 : I.testBit id0 = false)
    (h1 : I.testBit id1 = false) (hi0 : id0 < N) (hi1 : id1 < N) (hI : I < 2 ^ N)
    (hx : x ∈ Kernel2.group I (2 ^ id0) (2 ^ id1)) : x < 2 ^ N := by
  have := group2_lt hne h0 h1 hi0 hi1 hI
  have hp0 := Nat.two_pow_pos id0
  have hp1 := Nat.two_pow_pos id1
  simp only [Kernel2.group, List.mem_cons, List.mem_singleton, List.not_mem_nil, or_false] at hx
  rcases hx with rfl | rfl | rfl | rfl <;> omega

/-- The groups of the single-target call list tile the index range. -/
theorem cover1 {N id0 : Nat} (h0 : id0 < N) (j : Nat) :
    j < 2 ^ N ↔ ∃ I ∈ Kernel1.calls (2 ^ N) id0 0, j ∈ Kernel1.group I (2 ^ id0) := by
  constructor
  · intro hj
    obtain ⟨I, hI, hle, hmem⟩ := exists_base1 j id0
    exact ⟨I, (mem_calls1 h0 0 I).2 ⟨lt_of_le_of_lt hle hj, hI, Or.inl rfl⟩, hmem⟩
  · rintro ⟨I, hI, hmem⟩
    obtain ⟨hIn, hb, _⟩ := (mem_calls1 h0 0 I).1 hI
    exact group1_lt hb h0 hIn hmem

/-- The groups of the two-target call list tile the index range. -/
theorem cover2 {N id0 id1 : Nat} (h0 : id0 < N) (h1 : id1 < N) (hne : id1 ≠ id0) (j : Nat) :
    j < 2 ^ N
      ↔ ∃ I ∈ Kernel2.calls (2 ^ N) id1 id0 0, j ∈ Kernel2.group I (2 ^ id0) (2 ^ id1) := by
  constructor
  · intro hj
    obtain ⟨I, hI0, hI1, hle, hmem⟩ := exists_base2 j id0 id1
    exact ⟨I, (mem_calls2 h0 h1 hne 0 I).2 ⟨lt_of_le_of_lt hle hj, hI0, hI1, Or.inl rfl⟩, hmem⟩
  · rintro ⟨I, hI, hmem⟩
    obtain ⟨hIn, hb0, hb1, _⟩ := (mem_calls2 h0 h1 hne 0 I).1 hI
    exact group2_mem_lt hne hb0 hb1 h0 h1 hIn hmem

/-- Groups of distinct calls of the single-target kernel are disjoint lists. -/
theorem pairwise_disjoint1 {N id0 : Nat} (h0 : id0 < N) (ctrlmask : Nat) :
    (Kernel1.calls (2 ^ N) id0 ctrlmask).Pairwise
      (fun I J => List.Disjoint (Kernel1.group I (2 ^ id0)) (Kernel1.group J (2 ^ id0))) := by
  apply (nodup_calls1 h0 ctrlmask).pairwise_of_forall_ne
  intro I hI J hJ hIJ x hx hx'
  exact group1_disjoint ((mem_calls1 h0 _ _).1 hI).2.1 ((mem_calls1 h0 _ _).1 hJ).2.1 hIJ x hx hx'

/-- Groups of distinct calls of the two-target kernel are disjoint lists. -/
theorem pairwise_disjoint2 {N id0 id1 : Nat} (h0 : id0 < N) (h1 : id1 < N) (hne : id1 ≠ id0)
    (ctrlmask : Nat) :
    (Kernel2.calls (2 ^ N) id1 id0 ctrlmask).Pairwise
      (fun I J => List.Disjoint (Kernel2.group I (2 ^ id0) (2 ^ id1))
        (Kernel2.group J (2 ^ id0) (2 ^ id1))) := by
  apply (nodup_calls2 h0 h1 hne ctrlmask).pairwise_of_forall_ne
  intro I hI J hJ hIJ x hx hx'
  have hI' := (mem_calls2 h0 h1 hne _ _).1 hI
  have hJ' := (mem_calls2 h0 h1 hne _ _).1 hJ
  exact group2_disjoint hne hI'.2.1 hI'.2.2.1 hJ'.2.1 hJ'.2.2.1 hIJ x hx hx'

/-- C5. Disjoint-group coverage: with `ctrlmask = 0`, `n = 2^N` and distinct
target bits below `N`, the groups touched by the `kernel_core` calls of one
kernel invocation (`{I, I+d0}` for arity 1, `{I, I+d0, I+d1, I+d0+d1}` for
arity 2) are pairwise disjoint and their union is `{0, ..., n-1}`: no base is
visited twice, and listing every touched index call by call gives each index
below `n` exactly once. -/
theorem C5_disjoint_group_coverage :
    (∀ (N id0 : Nat), id0 < N →
      (Kernel1.calls (2 ^ N) id0 0).Nodup
      ∧ (Kernel1.calls (2 ^ N) id0 0).Pairwise
          (fun I J => List.Disjoint (Kernel1.group I (2 ^ id0)) (Kernel1.group J (2 ^ id0)))
      ∧ (∀ j, j < 2 ^ N ↔ ∃ I ∈ Kernel1.calls (2 ^ N) id0 0, j ∈ Kernel1.group I (2 ^ id0))
      ∧ ((Kernel1.calls (2 ^ N) id0 0).flatMap (fun I => Kernel1.group I (2 ^ id0))).Perm
          (List.range (2 ^ N)))
    ∧ (∀ (N id1 id0 : Nat), id1 < N → id0 < N → id1 ≠ id0 →
      (Kernel2.calls (2 ^ N) id1 id0 0).Nodup
      ∧ (Kernel2.calls (2 ^ N) id1 id0 0).Pairwise
          (fun I J => List.Disjoint (Kernel2.group I (2 ^ id0) (2 ^ id1))
            (Kernel2.group J (2 ^ id0) (2 ^ id1)))
      ∧ (∀ j, j < 2 ^ N
          ↔ ∃ I ∈ Kernel2.calls (2 ^ N) id1 id0 0, j ∈ Kernel2.group I (2 ^ id0) (2 ^ id1))
      ∧ ((Kernel2.calls (2 ^ N) id1 id0 0).flatMap
          (fun I => Kernel2.group I (2 ^ id0) (2 ^ id1))).Perm (List.range (2 ^ N))) := by
  constructor
  · intro N id0 h0
    refine ⟨nodup_calls1 h0 0, pairwise_disjoint1 h0 0, cover1 h0, ?_⟩
    rw [List.perm_ext_iff_of_nodup _ (List.nodup_range _)]
    · intro j
      rw [List.mem_flatMap, List.mem_range]
      exact (cover1 h0 j).symm
    · rw [List.nodup_flatMap]
      refine ⟨fun I _ => ?_, pairwise_disjoint1 h0 0⟩
      simp [Kernel1.group]
  · intro N id1 id0 h1 h0 hne
    refine ⟨nodup_calls2 h0 h1 hne 0, pairwise_disjoint2 h0 h1 hne 0, cover2 h0 h1 hne, ?_⟩
    rw [List.perm_ext_iff_of_nodup _ (List.nodup_range _)]
    · intro j
      rw [List.mem_flatMap, List.mem_range]
      exact (cover2 h0 h1 hne j).symm
    · rw [List.nodup_flatMap]
      refine ⟨fun I _ => ?_, pairwise_disjoint2 h0 h1 hne 0⟩
      have hp0 := Nat.two_pow_pos id0
      have hp1 := Nat.two_pow_pos id1
      have hpne : (2 : Nat) ^ id0 ≠ 2 ^ id1 := fun h =>
        hne (Nat.pow_right_injective (le_refl 2) h).symm
      simp [Kernel2.group]
      omega

/-- Witness for C5: arity 1 on two qubits with target 1, arity 2 on three
qubits with targets `id1 = 0`, `id0 = 2`. -/
theorem C5_disjoint_group_coverage_witness :
    (1 < 2
      ∧ ((Kernel1.calls (2 ^ 2) 1 0).flatMap (fun I => Kernel1.group I (2 ^ 1))).Perm
          (List.range (2 ^ 2)))
    ∧ (0 < 3 ∧ 2 < 3 ∧ 0 ≠ 2
      ∧ ((Kernel2.calls (2 ^ 3) 0 2 0).flatMap (fun I => Kernel2.group I (2 ^ 2) (2 ^ 0))).Perm
          (List.range (2 ^ 3))) :=
  ⟨⟨by decide, (C5_disjoint_group_coverage.1 2 1 (by decide)).2.2.2⟩,
    ⟨by decide, by decide, by decide,
      (C5_disjoint_group_coverage.2 3 0 2 (by decide) (by decide) (by decide)).2.2.2⟩⟩


/-- C8. Identity preservation: the arity-1 kernel with the 2x2 identity and the
arity-2 kernel with the 4x4 identity, called with `ctrlmask = 0` on a state
vector of length `2^N` and valid distinct targets below `N`, leave every
amplitude unchanged. -/
theorem C8_identity_preservation :
    (∀ (N : Nat) (psi : List ℂ), psi.length = 2 ^ N → ∀ (id0 : Nat), id0 < N →
      Kernel1.kernel psi id0 1 0 = psi)
    ∧ (∀ (N : Nat) (psi : List ℂ), psi.length = 2 ^ N → ∀ (id1 id0 : Nat), id1 < N → id0 < N →
      id1 ≠ id0 → Kernel2.kernel psi id1 id0 1 0 = psi) := by
  constructor
  · intro N psi hlen id0 h0
    apply ext_getD (kernel1_length h0 psi hlen 1 0)
    intro j hj
    rw [kernel1_length h0 psi hlen, hlen] at hj
    obtain ⟨I, hI, hle, hmem⟩ := exists_base1 j id0
    obtain ⟨e0, e1⟩ := kernel1_selected h0 psi hlen 1 0 I hI (lt_of_le_of_lt hle hj) (Or.inl rfl)
    simp only [Kernel1.group, List.mem_cons, List.mem_singleton, List.not_mem_nil, or_false]
      at hmem
    rcases hmem with rfl | rfl
    · rw [e0]; simp
    · rw [e1]; simp
  · intro N psi hlen id1 id0 h1 h0 hne
    apply ext_getD (kernel2_length h0 h1 hne psi hlen 1 0)
    intro j hj
    rw [kernel2_length h0 h1 hne psi hlen, hlen] at hj
    obtain ⟨I, hI0, hI1, hle, hmem⟩ := exists_base2 j id0 id1
    obtain ⟨e0, e1, e2, e3⟩ := kernel2_selected h0 h1 hne psi hlen 1 0 I hI0 hI1
      (lt_of_le_of_lt hle hj) (Or.inl rfl)
    simp only [Kernel2.group, List.mem_cons, List.mem_singleton, List.not_mem_nil, or_false]
      at hmem
    rcases hmem with rfl | rfl | rfl | rfl
    · rw [e0]; simp [Matrix.one_apply]
    · rw [e1]; simp [Matrix.one_apply]
    · rw [e2]; simp [Matrix.one_apply]
    · rw [e3]; simp [Matrix.one_apply]

/-- Witness for C8: arity 1 on one qubit, arity 2 on two qubits. -/
theorem C8_identity_preservation_witness :
    (([2, 3] : List ℂ).length = 2 ^ 1 ∧ 0 < 1 ∧ Kernel1.kernel [2, 3] 0 1 0 = [2, 3])
    ∧ (([1, 2, 3, 4] : List ℂ).length = 2 ^ 2 ∧ 0 < 2 ∧ 1 < 2 ∧ 0 ≠ 1
      ∧ Kernel2.kernel [1, 2, 3, 4] 0 1 1 0 = [1, 2, 3, 4]) :=
  ⟨⟨rfl, by decide, C8_identity_preservation.1 1 [2, 3] rfl 0 (by decide)⟩,
    ⟨rfl, by decide, by decide, by decide,
      C8_identity_preservation.2 2 [1, 2, 3, 4] rfl 0 1 (by decide) (by decide) (by decide)⟩⟩

/-- Group updates at two bases with disjoint groups commute, on any state. -/
theorem upd_comm (upd : List ℂ → Nat → List ℂ) (G : Nat → List Nat)
    (hlen : ∀ psi I, (upd psi I).length = psi.length)
    (hframe : ∀ psi I j, j ∉ G I → (upd psi I).getD j 0 = psi.getD j 0)
    (hlocal : ∀ psi psi2 I, psi.length = psi2.length →
      (∀ x ∈ G I, psi.getD x 0 = psi2.getD x 0) →
      ∀ j ∈ G I, (upd psi I).getD j 0 = (upd psi2 I).getD j 0)
    (I J : Nat) (hdisj : ∀ x ∈ G I, x ∉ G J) (psi : List ℂ) :
    upd (upd psi I) J = upd (upd psi J) I := by
  have hdisj' : ∀ x ∈ G J, x ∉ G I := fun x hxJ hxI => hdisj x hxI hxJ
  apply ext_getD (by rw [hlen, hlen, hlen, hlen])
  intro j _
  by_cases hjI : j ∈ G I
  · rw [hframe _ J j (hdisj j hjI)]
    exact hlocal _ _ I (hlen psi J).symm (fun x hx => (hframe psi J x (hdisj x hx)).symm) j hjI
  · rw [hframe (upd psi J) I j hjI]
    by_cases hjJ : j ∈ G J
    · exact hlocal _ _ J (hlen psi I) (fun x hx => hframe psi I x (hdisj' x hx)) j hjJ
    · rw [hframe _ J j hjJ, hframe _ I j hjI, hframe _ J j hjJ]

/-- C9. Order independence of group processing: for the arity-1 and arity-2
kernels with valid distinct targets, `kernel_core` at two different bases `I`
and `J` whose target bits are 0 commutes on every state vector; consequently
folding the group updates over any permutation of the visited base indices of
a call gives the state the kernel's own loop order gives. -/
theorem C9_order_independence :
    (∀ (id0 : Nat) (m : Matrix (Fin 2) (Fin 2) ℂ) (psi : List ℂ) (I J : Nat),
      I.testBit id0 = false → J.testBit id0 = false → I ≠ J →
        Kernel1.kernel_core (Kernel1.kernel_core psi I (2 ^ id0) (Kernel1.mm m) (Kernel1.mmt m))
            J (2 ^ id0) (Kernel1.mm m) (Kernel1.mmt m)
          = Kernel1.kernel_core
              (Kernel1.kernel_core psi J (2 ^ id0) (Kernel1.mm m) (Kernel1.mmt m))
              I (2 ^ id0) (Kernel1.mm m) (Kernel1.mmt m))
    ∧ (∀ (N : Nat) (psi : List ℂ), psi.length = 2 ^ N → ∀ (id0 : Nat), id0 < N →
      ∀ (m : Matrix (Fin 2) (Fin 2) ℂ) (ctrlmask : Nat) (L : List Nat),
      L.Perm (Kernel1.calls (2 ^ N) id0 ctrlmask) →
        L.foldl (fun psi I =>
            Kernel1.kernel_core psi I (2 ^ id0) (Kernel1.mm m) (Kernel1.mmt m)) psi
          = Kernel1.kernel psi id0 m ctrlmask)
    ∧ (∀ (id1 id0 : Nat), id1 ≠ id0 → ∀ (m : Matrix (Fin 4) (Fin 4) ℂ) (psi : List ℂ)
      (I J : Nat), I.testBit id0 = false → I.testBit id1 = false → J.testBit id0 = false →
      J.testBit id1 = false → I ≠ J →
        Kernel2.kernel_core
            (Kernel2.kernel_core psi I (2 ^ id0) (2 ^ id1) (Kernel2.mm m) (Kernel2.mmt m))
            J (2 ^ id0) (2 ^ id1) (Kernel2.mm m) (Kernel2.mmt m)
          = Kernel2.kernel_core
              (Kernel2.kernel_core psi J (2 ^ id0) (2 ^ id1) (Kernel2.mm m) (Kernel2.mmt m))
              I (2 ^ id0) (2 ^ id1) (Kernel2.mm m) (Kernel2.mmt m))
    ∧ (∀ (N : Nat) (psi : List ℂ), psi.length = 2 ^ N → ∀ (id1 id0 : Nat), id1 < N → id0 < N →
      id1 ≠ id0 → ∀ (m : Matrix (Fin 4) (Fin 4) ℂ) (ctrlmask : Nat) (L : List Nat),
      L.Perm (Kernel2.calls (2 ^ N) id1 id0 ctrlmask) →
        L.foldl (fun psi I =>
            Kernel2.kernel_core psi I (2 ^ id0) (2 ^ id1) (Kernel2.mm m) (Kernel2.mmt m)) psi
          = Kernel2.kernel psi id1 id0 m ctrlmask) := by
  have comm1 : ∀ (id0 : Nat) (m : Matrix (Fin 2) (Fin 2) ℂ) (psi : List ℂ) (I J : Nat),
      I.testBit id0 = false → J.testBit id0 = false → I ≠ J →
        Kernel1.kernel_core (Kernel1.kernel_core psi I (2 ^ id0) (Kernel1.mm m) (Kernel1.mmt m))
            J (2 ^ id0) (Kernel1.mm m) (Kernel1.mmt m)
          = Kernel1.kernel_core
              (Kernel1.kernel_core psi J (2 ^ id0) (Kernel1.mm m) (Kernel1.mmt m))
              I (2 ^ id0) (Kernel1.mm m) (Kernel1.mmt m) := by
    intro id0 m psi I J hI hJ hIJ
    exact upd_comm
      (fun psi I => Kernel1.kernel_core psi I (2 ^ id0) (Kernel1.mm m) (Kernel1.mmt m))
      (fun I => Kernel1.group I (2 ^ id0))
      (fun psi I => core1_length psi I _ m)
      (fun psi I j hj => core1_frame psi I _ m j hj)
      (fun psi psi2 I hl h => core1_local psi psi2 I _ m hl h)
      I J (group1_disjoint hI hJ hIJ) psi
  have comm2 : ∀ (id1 id0 : Nat), id1 ≠ id0 → ∀ (m : Matrix (Fin 4) (Fin 4) ℂ) (psi : List ℂ)
      (I J : Nat), I.testBit id0 = false → I.testBit id1 = false → J.testBit id0 = false →
      J.testBit id1 = false → I ≠ J →
        Kernel2.kernel_core
            (Kernel2.kernel_core psi I (2 ^ id0) (2 ^ id1) (Kernel2.mm m) (Kernel2.mmt m))
            J (2 ^ id0) (2 ^ id1) (Kernel2.mm m) (Kernel2.mmt m)
          = Kernel2.kernel_core
              (Kernel2.kernel_core psi J (2 ^ id0) (2 ^ id1) (Kernel2.mm m) (Kernel2.mmt m))
              I (2 ^ id0) (2 ^ id1) (Kernel2.mm m) (Kernel2.mmt m) := by
    intro id1 id0 hne m psi I J hI0 hI1 hJ0 hJ1 hIJ
    exact upd_comm
      (fun psi I => Kernel2.kernel_core psi I (2 ^ id0) (2 ^ id1) (Kernel2.mm m) (Kernel2.mmt m))
      (fun I => Kernel2.group I (2 ^ id0) (2 ^ id1))
      (fun psi I => core2_length psi I _ _ m)
      (fun psi I j hj => core2_frame psi I _ _ m j hj)
      (fun psi psi2 I hl h => core2_local psi psi2 I _ _ m hl h)
      I J (group2_disjoint hne hI0 hI1 hJ0 hJ1 hIJ) psi
  refine ⟨comm1, ?_, comm2, ?_⟩
  · intro N psi hlen id0 h0 m ctrlmask L hperm
    rw [kernel1_eq_foldl h0 psi hlen]
    apply List.Perm.foldl_eq' hperm
    intro I hI J hJ z
    have hI' := (mem_calls1 h0 _ _).1 (hperm.mem_iff.1 hI)
    have hJ' := (mem_calls1 h0 _ _).1 (hperm.mem_iff.1 hJ)
    by_cases hIJ : I = J
    · rw [hIJ]
    · exact comm1 id0 m z I J hI'.2.1 hJ'.2.1 hIJ
  · intro N psi hlen id1 id0 h1 h0 hne m ctrlmask L hperm
    rw [kernel2_eq_foldl h0 h1 hne psi hlen]
    apply List.Perm.foldl_eq' hperm
    intro I hI J hJ z
    have hI' := (mem_calls2 h0 h1 hne _ _).1 (hperm.mem_iff.1 hI)
    have hJ' := (mem_calls2 h0 h1 hne _ _).1 (hperm.mem_iff.1 hJ)
    by_cases hIJ : I = J
    · rw [hIJ]
    · exact comm2 id1 id0 hne m z I J hI'.2.1 hI'.2.2.1 hJ'.2.1 hJ'.2.2.1 hIJ


/-- Witness for C9: arity 1 on two qubits (target 0, bases 0 and 2, the call
list reversed); arity 2 on three qubits (targets `id1 = 2`, `id0 = 0`, bases 0
and 2, the call list reversed). -/
theorem C9_order_independence_witness :
    (Nat.testBit 0 0 = false ∧ Nat.testBit 2 0 = false ∧ (0 : Nat) ≠ 2
      ∧ Kernel1.kernel_core
            (Kernel1.kernel_core [1, 2, 3, 4] 0 (2 ^ 0) (Kernel1.mm !![0, 1; 1, 0])
              (Kernel1.mmt !![0, 1; 1, 0]))
            2 (2 ^ 0) (Kernel1.mm !![0, 1; 1, 0]) (Kernel1.mmt !![0, 1; 1, 0])
          = Kernel1.kernel_core
              (Kernel1.kernel_core [1, 2, 3, 4] 2 (2 ^ 0) (Kernel1.mm !![0, 1; 1, 0])
                (Kernel1.mmt !![0, 1; 1, 0]))
              0 (2 ^ 0) (Kernel1.mm !![0, 1; 1, 0]) (Kernel1.mmt !![0, 1; 1, 0]))
    ∧ (([1, 2, 3, 4] : List ℂ).length = 2 ^ 2 ∧ 0 < 2
      ∧ (Kernel1.calls (2 ^ 2) 0 0).reverse.Perm (Kernel1.calls (2 ^ 2) 0 0)
      ∧ (Kernel1.calls (2 ^ 2) 0 0).reverse.foldl (fun psi I =>
            Kernel1.kernel_core psi I (2 ^ 0) (Kernel1.mm !![0, 1; 1, 0])
              (Kernel1.mmt !![0, 1; 1, 0])) [1, 2, 3, 4]
          = Kernel1.kernel [1, 2, 3, 4] 0 !![0, 1; 1, 0] 0)
    ∧ ((2 : Nat) ≠ 0 ∧ Nat.testBit 0 0 = false ∧ Nat.testBit 0 2 = false
      ∧ Nat.testBit 2 0 = false ∧ Nat.testBit 2 2 = false ∧ (0 : Nat) ≠ 2
      ∧ Kernel2.kernel_core
            (Kernel2.kernel_core [1, 2, 3, 4, 5, 6, 7, 8] 0 (2 ^ 0) (2 ^ 2) (Kernel2.mm 1)
              (Kernel2.mmt 1))
            2 (2 ^ 0) (2 ^ 2) (Kernel2.mm 1) (Kernel2.mmt 1)
          = Kernel2.kernel_core
              (Kernel2.kernel_core [1, 2, 3, 4, 5, 6, 7, 8] 2 (2 ^ 0) (2 ^ 2) (Kernel2.mm 1)
                (Kernel2.mmt 1))
              0 (2 ^ 0) (2 ^ 2) (Kernel2.mm 1) (Kernel2.mmt 1))
    ∧ (([1, 2, 3, 4, 5, 6, 7, 8] : List ℂ).length = 2 ^ 3 ∧ 2 < 3 ∧ 0 < 3 ∧ (2 : Nat) ≠ 0
      ∧ (Kernel2.calls (2 ^ 3) 2 0 0).reverse.Perm (Kernel2.calls (2 ^ 3) 2 0 0)
      ∧ (Kernel2.calls (2 ^ 3) 2 0 0).reverse.foldl (fun psi I =>
            Kernel2.kernel_core psi I (2 ^ 0) (2 ^ 2) (Kernel2.mm 1) (Kernel2.mmt 1))
            [1, 2, 3, 4, 5, 6, 7, 8]
          = Kernel2.kernel [1, 2, 3, 4, 5, 6, 7, 8] 2 0 1 0) :=
  ⟨⟨by decide, by decide, by decide,
      C9_order_independence.1 0 !![0, 1; 1, 0] [1, 2, 3, 4] 0 2 (by decide) (by decide)
        (by decide)⟩,
    ⟨rfl, by decide, List.reverse_perm _,
      C9_order_independence.2.1 2 [1, 2, 3, 4] rfl 0 (by decide) !![0, 1; 1, 0] 0 _
        (List.reverse_perm _)⟩,
    ⟨by decide, by decide, by decide, by decide, by decide, by decide,
      C9_order_independence.2.2.1 2 0 (by decide) 1 [1, 2, 3, 4, 5, 6, 7, 8] 0 2 (by decide)
        (by decide) (by decide) (by decide) (by decide)⟩,
    ⟨rfl, by decide, by decide, by decide, List.reverse_perm _,
      C9_order_independence.2.2.2 3 [1, 2, 3, 4, 5, 6, 7, 8] rfl 2 0 (by decide) (by decide)
        (by decide) 1 0 _ (List.reverse_perm _)⟩⟩

/-- C10. Fused complex multiply: for lane values `c1 = (a, b | a', b')` and
`c2 = (c, d | c', d')`, the cross operand of `c2` computed as the kernels and
`operator*` compute it (swap within each half, then multiply by
`(1, -1, 1, -1)`) is `(d, -c | d', -c')`, and `mul(c1, c2, cross(c2))` equals
`(a*c - b*d, a*d + b*c | a'*c' - b'*d', a'*d' + b'*c')`, the complex product
`(a+bi)(c+di)` in each half; the `cintrin` overload of `mul` and
`operator*(c1, c2)` return the same value. -/
theorem C10_fused_complex_multiply (a b a' b' c d c' d' : ℝ) :
    _mm256_mul_pd (_mm256_permute_pd ⟨c, d, c', d'⟩ 5) (_mm256_setr_pd 1.0 (-1.0) 1.0 (-1.0))
        = ⟨d, -c, d', -c'⟩
    ∧ mul ⟨a, b, a', b'⟩ ⟨c, d, c', d'⟩
          (_mm256_mul_pd (_mm256_permute_pd ⟨c, d, c', d'⟩ 5)
            (_mm256_setr_pd 1.0 (-1.0) 1.0 (-1.0)))
        = ⟨a * c - b * d, a * d + b * c, a' * c' - b' * d', a' * d' + b' * c'⟩
    ∧ cintrin.mul ⟨⟨a, b, a', b'⟩⟩ ⟨⟨c, d, c', d'⟩⟩
          ⟨_mm256_mul_pd (_mm256_permute_pd ⟨c, d, c', d'⟩ 5)
            (_mm256_setr_pd 1.0 (-1.0) 1.0 (-1.0))⟩
        = ⟨⟨a * c - b * d, a * d + b * c, a' * c' - b' * d', a' * d' + b' * c'⟩⟩
    ∧ cintrin.operatorMul ⟨⟨a, b, a', b'⟩⟩ ⟨⟨c, d, c', d'⟩⟩
        = ⟨⟨a * c - b * d, a * d + b * c, a' * c' - b' * d', a' * d' + b' * c'⟩⟩
    ∧ ((⟨a, b⟩ : ℂ) * ⟨c, d⟩ = ⟨a * c - b * d, a * d + b * c⟩
      ∧ (⟨a', b'⟩ : ℂ) * ⟨c', d'⟩ = ⟨a' * c' - b' * d', a' * d' + b' * c'⟩) := by
  have hx := twist_eq ⟨c, d, c', d'⟩
  simp only at hx
  refine ⟨hx, ?_, ?_, ?_, ?_, ?_⟩
  · rw [hx]
    simp only [mul, _mm256_mul_pd, _mm256_hsub_pd, __m256d.mk.injEq]
    refine ⟨trivial, ?_, trivial, ?_⟩ <;> ring
  · rw [hx]
    simp only [cintrin.mul, _mm256_mul_pd, _mm256_hsub_pd, cintrin.mk.injEq, __m256d.mk.injEq]
    refine ⟨trivial, ?_, trivial, ?_⟩ <;> ring
  · simp only [cintrin.operatorMul]
    rw [hx]
    simp only [cintrin.mul, _mm256_mul_pd, _mm256_hsub_pd, cintrin.mk.injEq, __m256d.mk.injEq]
    refine ⟨trivial, ?_, trivial, ?_⟩ <;> ring
  · apply Complex.ext <;> simp
  · apply Complex.ext <;> simp


/-! ## Unitary matrices on one group, and sums regrouped by groups -/

/-- A matrix with `Mᴴ * M = 1` keeps the sum of squared magnitudes of a vector. -/
theorem unitary_normSq_sum {n : Nat} (M : Matrix (Fin n) (Fin n) ℂ)
    (hU : M.conjTranspose * M = 1) (v : Fin n → ℂ) :
    ∑ i, Complex.normSq (M.mulVec v i) = ∑ i, Complex.normSq (v i) := by
  have key : Matrix.dotProduct (star (M.mulVec v)) (M.mulVec v) = Matrix.dotProduct (star v) v := by
    rw [Matrix.star_mulVec, Matrix.dotProduct_mulVec, Matrix.vecMul_vecMul, hU, Matrix.vecMul_one]
  have e : ∀ w : Fin n → ℂ,
      Matrix.dotProduct (star w) w = ((∑ i, Complex.normSq (w i) : ℝ) : ℂ) := by
    intro w
    simp [Matrix.dotProduct, Complex.normSq_eq_conj_mul_self]
  rw [e, e] at key
  exact_mod_cast key

/-- Norm preservation on one single-target group. -/
theorem norm2 (M : Matrix (Fin 2) (Fin 2) ℂ) (hU : M.conjTranspose * M = 1) (a b : ℂ) :
    Complex.normSq (M 0 0 * a + M 0 1 * b) + Complex.normSq (M 1 0 * a + M 1 1 * b)
      = Complex.normSq a + Complex.normSq b := by
  have := unitary_normSq_sum M hU ![a, b]
  simpa [Matrix.mulVec, Matrix.dotProduct, Fin.sum_univ_two] using this

/-- Norm preservation on one two-target group. -/
theorem norm4 (M : Matrix (Fin 4) (Fin 4) ℂ) (hU : M.conjTranspose * M = 1) (a b c d : ℂ) :
    Complex.normSq (M 0 0 * a + M 0 1 * b + M 0 2 * c + M 0 3 * d)
      + Complex.normSq (M 1 0 * a + M 1 1 * b + M 1 2 * c + M 1 3 * d)
      + Complex.normSq (M 2 0 * a + M 2 1 * b + M 2 2 * c + M 2 3 * d)
      + Complex.normSq (M 3 0 * a + M 3 1 * b + M 3 2 * c + M 3 3 * d)
      = Complex.normSq a + Complex.normSq b + Complex.normSq c + Complex.normSq d := by
  have := unitary_normSq_sum M hU ![a, b, c, d]
  simpa [Matrix.mulVec, Matrix.dotProduct, Fin.sum_univ_four] using this

/-- Applying `Mᴴ` after `M` on one single-target group restores it. -/
theorem roundtrip2 (M : Matrix (Fin 2) (Fin 2) ℂ) (hU : M.conjTranspose * M = 1) (a b : ℂ) :
    M.conjTranspose 0 0 * (M 0 0 * a + M 0 1 * b)
        + M.conjTranspose 0 1 * (M 1 0 * a + M 1 1 * b) = a
    ∧ M.conjTranspose 1 0 * (M 0 0 * a + M 0 1 * b)
        + M.conjTranspose 1 1 * (M 1 0 * a + M 1 1 * b) = b := by
  have h := fun i => congrFun (Matrix.mulVec_mulVec ![a, b] M.conjTranspose M) i
  rw [hU, Matrix.one_mulVec] at h
  have h0 := h 0
  have h1 := h 1
  simp only [Matrix.mulVec, Matrix.dotProduct, Fin.sum_univ_two, Matrix.cons_val_zero,
    Matrix.cons_val_one, Matrix.head_cons] at h0 h1
  exact ⟨h0, h1⟩

/-- Applying `Mᴴ` after `M` on one two-target group restores it. -/
theorem roundtrip4 (M : Matrix (Fin 4) (Fin 4) ℂ) (hU : M.conjTranspose * M = 1)
    (a b c d : ℂ) :
    M.conjTranspose 0 0 * (M 0 0 * a + M 0 1 * b + M 0 2 * c + M 0 3 * d)
        + M.conjTranspose 0 1 * (M 1 0 * a + M 1 1 * b + M 1 2 * c + M 1 3 * d)
        + M.conjTranspose 0 2 * (M 2 0 * a + M 2 1 * b + M 2 2 * c + M 2 3 * d)
        + M.conjTranspose 0 3 * (M 3 0 * a + M 3 1 * b + M 3 2 * c + M 3 3 * d) = a
    ∧ M.conjTranspose 1 0 * (M 0 0 * a + M 0 1 * b + M 0 2 * c + M 0 3 * d)
        + M.conjTranspose 1 1 * (M 1 0 * a + M 1 1 * b + M 1 2 * c + M 1 3 * d)
        + M.conjTranspose 1 2 * (M 2 0 * a + M 2 1 * b + M 2 2 * c + M 2 3 * d)
        + M.conjTranspose 1 3 * (M 3 0 * a + M 3 1 * b + M 3 2 * c + M 3 3 * d) = b
    ∧ M.conjTranspose 2 0 * (M 0 0 * a + M 0 1 * b + M 0 2 * c + M 0 3 * d)
        + M.conjTranspose 2 1 * (M 1 0 * a + M 1 1 * b + M 1 2 * c + M 1 3 * d)
        + M.conjTranspose 2 2 * (M 2 0 * a + M 2 1 * b + M 2 2 * c + M 2 3 * d)
        + M.conjTranspose 2 3 * (M 3 0 * a + M 3 1 * b + M 3 2 * c + M 3 3 * d) = c
    ∧ M.conjTranspose 3 0 * (M 0 0 * a + M 0 1 * b + M 0 2 * c + M 0 3 * d)
        + M.conjTranspose 3 1 * (M 1 0 * a + M 1 1 * b + M 1 2 * c + M 1 3 * d)
        + M.conjTranspose 3 2 * (M 2 0 * a + M 2 1 * b + M 2 2 * c + M 2 3 * d)
        + M.conjTranspose 3 3 * (M 3 0 * a + M 3 1 * b + M 3 2 * c + M 3 3 * d) = d := by
  have h := fun i => congrFun (Matrix.mulVec_mulVec ![a, b, c, d] M.conjTranspose M) i
  rw [hU, Matrix.one_mulVec] at h
  have h0 := h 0
  have h1 := h 1
  have h2 := h 2
  have h3 := h 3
  simp only [Matrix.mulVec, Matrix.dotProduct, Fin.sum_univ_four, Matrix.cons_val_zero,
    Matrix.cons_val_one, Matrix.head_cons, Matrix.cons_val_two, Matrix.tail_cons,
    Matrix.cons_val_three] at h0 h1 h2 h3
  exact ⟨h0, h1, h2, h3⟩

/-- The sum over a state vector, index by index. -/
theorem list_sum_eq_range (f : ℂ → ℝ) (l : List ℂ) :
    (l.map f).sum = ∑ j in Finset.range l.length, f (l.getD j 0) := by
  induction l with
  | nil => simp
  | cons a l ih =>
    rw [List.map_cons, List.sum_cons, List.length_cons, Finset.sum_range_succ', ih]
    simp [add_comm]

/-- A sum over all indices below `2^N`, regrouped pair by pair. -/
theorem regroup1 (f : Nat → ℝ) {N id0 : Nat} (h0 : id0 < N) :
    ∑ j in Finset.range (2 ^ N), f j
      = ∑ I in (Finset.range (2 ^ N)).filter (fun I => I.testBit id0 = false),
          (f I + f (I + 2 ^ id0)) := by
  rw [← Finset.sum_filter_add_sum_filter_not (Finset.range (2 ^ N))
    (fun I => I.testBit id0 = false), Finset.sum_add_distrib]
  congr 1
  symm
  apply Finset.sum_bij (fun I _ => I + 2 ^ id0)
  · intro I hI
    rw [Finset.mem_filter, Finset.mem_range] at hI ⊢
    refine ⟨add_two_pow_lt hI.2 h0 hI.1, ?_⟩
    rw [testBit_add_two_pow hI.2]; simp
  · intro I _ J _ h
    exact Nat.add_right_cancel h
  · intro j hj
    rw [Finset.mem_filter, Finset.mem_range] at hj
    obtain ⟨I, hI, hle, hIj⟩ := exists_base j id0
    rcases hIj with rfl | rfl
    · exact absurd hI hj.2
    · exact ⟨I, by
        rw [Finset.mem_filter, Finset.mem_range]
        exact ⟨lt_of_le_of_lt hle hj.1, hI⟩, rfl⟩
  · intro I _
    rfl

/-- A sum over all indices below `2^N`, regrouped quadruple by quadruple. -/
theorem regroup2 (f : Nat → ℝ) {N id0 id1 : Nat} (h0 : id0 < N) (h1 : id1 < N)
    (hne : id1 ≠ id0) :
    ∑ j in Finset.range (2 ^ N), f j
      = ∑ I in (Finset.range (2 ^ N)).filter
            (fun I => I.testBit id0 = false ∧ I.testBit id1 = false),
          (f I + f (I + 2 ^ id0) + f (I + 2 ^ id1) + f (I + 2 ^ id0 + 2 ^ id1)) := by
  have hR : ∑ I in (Finset.range (2 ^ N)).filter
        (fun I => I.testBit id0 = false ∧ I.testBit id1 = false),
        (f I + f (I + 2 ^ id0) + f (I + 2 ^ id1) + f (I + 2 ^ id0 + 2 ^ id1))
      = ∑ I in (Finset.range (2 ^ N)).filter (fun I => I.testBit id1 = false),
          if I.testBit id0 = false then
            f I + f (I + 2 ^ id0) + f (I + 2 ^ id1) + f (I + 2 ^ id0 + 2 ^ id1)
          else 0 := by
    rw [← Finset.filter_filter, Finset.filter_comm, Finset.sum_filter]
  rw [hR, regroup1 f h0, Finset.sum_filter,
    regroup1 (fun I => if I.testBit id0 = false then f I + f (I + 2 ^ id0) else 0) h1]
  apply Finset.sum_congr rfl
  intro I hI
  rw [Finset.mem_filter] at hI
  have hb : (I + 2 ^ id1).testBit id0 = I.testBit id0 := by
    rw [testBit_add_two_pow hI.2]; simp [hne.symm]
  rw [hb]
  by_cases hc : I.testBit id0 = false
  · rw [if_pos hc, if_pos hc, if_pos hc]
    rw [Nat.add_right_comm I (2 ^ id1) (2 ^ id0)]
    ring
  · rw [if_neg hc, if_neg hc, if_neg hc, add_zero]


/-- C6. Norm preservation: for the arity-1 and arity-2 kernels, a state vector
of length `2^N`, valid distinct targets below `N`, any control mask and any
matrix `M` with `M-dagger * M = identity`, the sum over all indices of
`|psi[j]|^2` is the same before and after the call (exact arithmetic). -/
theorem C6_norm_preservation :
    (∀ (N : Nat) (psi : List ℂ), psi.length = 2 ^ N → ∀ (id0 : Nat), id0 < N →
      ∀ (ctrlmask : Nat) (M : Matrix (Fin 2) (Fin 2) ℂ), M.conjTranspose * M = 1 →
        ((Kernel1.kernel psi id0 M ctrlmask).map Complex.normSq).sum
          = (psi.map Complex.normSq).sum)
    ∧ (∀ (N : Nat) (psi : List ℂ), psi.length = 2 ^ N → ∀ (id1 id0 : Nat), id1 < N → id0 < N →
      id1 ≠ id0 → ∀ (ctrlmask : Nat) (M : Matrix (Fin 4) (Fin 4) ℂ), M.conjTranspose * M = 1 →
        ((Kernel2.kernel psi id1 id0 M ctrlmask).map Complex.normSq).sum
          = (psi.map Complex.normSq).sum) := by
  constructor
  · intro N psi hlen id0 h0 ctrlmask M hU
    rw [list_sum_eq_range, list_sum_eq_range, kernel1_length h0 psi hlen, hlen,
      regroup1 _ h0, regroup1 _ h0]
    apply Finset.sum_congr rfl
    intro I hI
    rw [Finset.mem_filter, Finset.mem_range] at hI
    by_cases hsel : ctrlmask = 0 ∨ I &&& ctrlmask = ctrlmask
    · obtain ⟨e0, e1⟩ := kernel1_selected h0 psi hlen M ctrlmask I hI.2 hI.1 hsel
      rw [e0, e1]
      exact norm2 M hU _ _
    · obtain ⟨e0, e1⟩ := kernel1_unselected h0 psi hlen M ctrlmask I hI.2 hsel
      rw [e0, e1]
  · intro N psi hlen id1 id0 h1 h0 hne ctrlmask M hU
    rw [list_sum_eq_range, list_sum_eq_range, kernel2_length h0 h1 hne psi hlen, hlen,
      regroup2 _ h0 h1 hne, regroup2 _ h0 h1 hne]
    apply Finset.sum_congr rfl
    intro I hI
    rw [Finset.mem_filter, Finset.mem_range] at hI
    by_cases hsel : ctrlmask = 0 ∨ I &&& ctrlmask = ctrlmask
    · obtain ⟨e0, e1, e2, e3⟩ :=
        kernel2_selected h0 h1 hne psi hlen M ctrlmask I hI.2.1 hI.2.2 hI.1 hsel
      rw [e0, e1, e2, e3]
      exact norm4 M hU _ _ _ _
    · have hu := kernel2_unselected h0 h1 hne psi hlen M ctrlmask I hI.2.1 hI.2.2 hsel
      rw [hu I (by simp [Kernel2.group]), hu (I + 2 ^ id0) (by simp [Kernel2.group]),
        hu (I + 2 ^ id1) (by simp [Kernel2.group]),
        hu (I + 2 ^ id0 + 2 ^ id1) (by simp [Kernel2.group])]

/-- Witness for C6: the Pauli-X matrix on one qubit; the 4x4 identity on
targets `1, 0` of three qubits with control mask `4`. -/
theorem C6_norm_preservation_witness :
    (([1, 2] : List ℂ).length = 2 ^ 1 ∧ 0 < 1
      ∧ (!![0, 1; 1, 0] : Matrix (Fin 2) (Fin 2) ℂ).conjTranspose * !![0, 1; 1, 0] = 1
      ∧ ((Kernel1.kernel [1, 2] 0 !![0, 1; 1, 0] 0).map Complex.normSq).sum
          = (([1, 2] : List ℂ).map Complex.normSq).sum)
    ∧ (([1, 2, 3, 4, 5, 6, 7, 8] : List ℂ).length = 2 ^ 3 ∧ 1 < 3 ∧ 0 < 3 ∧ 1 ≠ 0
      ∧ (1 : Matrix (Fin 4) (Fin 4) ℂ).conjTranspose * 1 = 1
      ∧ ((Kernel2.kernel [1, 2, 3, 4, 5, 6, 7, 8] 1 0 1 4).map Complex.normSq).sum
          = (([1, 2, 3, 4, 5, 6, 7, 8] : List ℂ).map Complex.normSq).sum) :=
  ⟨⟨rfl, by decide,
      by ext i j; fin_cases i <;> fin_cases j <;> simp [Matrix.mul_apply, Fin.sum_univ_two],
      C6_norm_preservation.1 1 [1, 2] rfl 0 (by decide) 0 !![0, 1; 1, 0]
        (by ext i j; fin_cases i <;> fin_cases j <;> simp [Matrix.mul_apply, Fin.sum_univ_two])⟩,
    ⟨rfl, by decide, by decide, by decide, by simp,
      C6_norm_preservation.2 3 [1, 2, 3, 4, 5, 6, 7, 8] rfl 1 0 (by decide) (by decide)
        (by decide) 4 1 (by simp)⟩⟩

/-- C7. Inverse round-trip: for the arity-1 and arity-2 kernels, a state vector
of length `2^N`, valid distinct targets below `N` and a unitary matrix `M`,
calling the kernel with `M` and then with the conjugate transpose of `M` on the
same targets and the same control mask restores the original state (exact
arithmetic). -/
theorem C7_inverse_round_trip :
    (∀ (N : Nat) (psi : List ℂ), psi.length = 2 ^ N → ∀ (id0 : Nat), id0 < N →
      ∀ (ctrlmask : Nat) (M : Matrix (Fin 2) (Fin 2) ℂ), M.conjTranspose * M = 1 →
        Kernel1.kernel (Kernel1.kernel psi id0 M ctrlmask) id0 M.conjTranspose ctrlmask = psi)
    ∧ (∀ (N : Nat) (psi : List ℂ), psi.length = 2 ^ N → ∀ (id1 id0 : Nat), id1 < N → id0 < N →
      id1 ≠ id0 → ∀ (ctrlmask : Nat) (M : Matrix (Fin 4) (Fin 4) ℂ), M.conjTranspose * M = 1 →
        Kernel2.kernel (Kernel2.kernel psi id1 id0 M ctrlmask) id1 id0 M.conjTranspose ctrlmask
          = psi) := by
  constructor
  · intro N psi hlen id0 h0 ctrlmask M hU
    have hlen' : (Kernel1.kernel psi id0 M ctrlmask).length = 2 ^ N := by
      rw [kernel1_length h0 psi hlen, hlen]
    apply ext_getD (by rw [kernel1_length h0 _ hlen', hlen', hlen])
    intro j hj
    rw [kernel1_length h0 _ hlen', hlen'] at hj
    obtain ⟨I, hI, hle, hmem⟩ := exists_base1 j id0
    by_cases hsel : ctrlmask = 0 ∨ I &&& ctrlmask = ctrlmask
    · obtain ⟨e0, e1⟩ :=
        kernel1_selected h0 psi hlen M ctrlmask I hI (lt_of_le_of_lt hle hj) hsel
      obtain ⟨f0, f1⟩ := kernel1_selected h0 _ hlen' M.conjTranspose ctrlmask I hI
        (lt_of_le_of_lt hle hj) hsel
      obtain ⟨r0, r1⟩ := roundtrip2 M hU (psi.getD I 0) (psi.getD (I + 2 ^ id0) 0)
      simp only [Kernel1.group, List.mem_cons, List.mem_singleton, List.not_mem_nil, or_false]
        at hmem
      rcases hmem with rfl | rfl
      · rw [f0, e0, e1]; exact r0
      · rw [f1, e0, e1]; exact r1
    · rw [kernel1_unselected_mem h0 _ hlen' M.conjTranspose ctrlmask I hI hsel j hmem,
        kernel1_unselected_mem h0 psi hlen M ctrlmask I hI hsel j hmem]
  · intro N psi hlen id1 id0 h1 h0 hne ctrlmask M hU
    have hlen' : (Kernel2.kernel psi id1 id0 M ctrlmask).length = 2 ^ N := by
      rw [kernel2_length h0 h1 hne psi hlen, hlen]
    apply ext_getD (by rw [kernel2_length h0 h1 hne _ hlen', hlen', hlen])
    intro j hj
    rw [kernel2_length h0 h1 hne _ hlen', hlen'] at hj
    obtain ⟨I, hI0, hI1, hle, hmem⟩ := exists_base2 j id0 id1
    by_cases hsel : ctrlmask = 0 ∨ I &&& ctrlmask = ctrlmask
    · obtain ⟨e0, e1, e2, e3⟩ := kernel2_selected h0 h1 hne psi hlen M ctrlmask I hI0 hI1
        (lt_of_le_of_lt hle hj) hsel
      obtain ⟨f0, f1, f2, f3⟩ := kernel2_selected h0 h1 hne _ hlen' M.conjTranspose ctrlmask I
        hI0 hI1 (lt_of_le_of_lt hle hj) hsel
      obtain ⟨r0, r1, r2, r3⟩ := roundtrip4 M hU (psi.getD I 0) (psi.getD (I + 2 ^ id0) 0)
        (psi.getD (I + 2 ^ id1) 0) (psi.getD (I + 2 ^ id0 + 2 ^ id1) 0)
      simp only [Kernel2.group, List.mem_cons, List.mem_singleton, List.not_mem_nil, or_false]
        at hmem
      rcases hmem with rfl | rfl | rfl | rfl
      · rw [f0, e0, e1, e2, e3]; exact r0
      · rw [f1, e0, e1, e2, e3]; exact r1
      · rw [f2, e0, e1, e2, e3]; exact r2
      · rw [f3, e0, e1, e2, e3]; exact r3
    · rw [kernel2_unselected h0 h1 hne _ hlen' M.conjTranspose ctrlmask I hI0 hI1 hsel j hmem,
        kernel2_unselected h0 h1 hne psi hlen M ctrlmask I hI0 hI1 hsel j hmem]

/-- Witness for C7: the Pauli-X matrix on one qubit; the 4x4 identity on
targets `1, 0` of three qubits with control mask `4`. -/
theorem C7_inverse_round_trip_witness :
    (([1, 2] : List ℂ).length = 2 ^ 1 ∧ 0 < 1
      ∧ (!![0, 1; 1, 0] : Matrix (Fin 2) (Fin 2) ℂ).conjTranspose * !![0, 1; 1, 0] = 1
      ∧ Kernel1.kernel (Kernel1.kernel [1, 2] 0 !![0, 1; 1, 0] 0) 0
          (!![0, 1; 1, 0] : Matrix (Fin 2) (Fin 2) ℂ).conjTranspose 0 = [1, 2])
    ∧ (([1, 2, 3, 4, 5, 6, 7, 8] : List ℂ).length = 2 ^ 3 ∧ 1 < 3 ∧ 0 < 3 ∧ 1 ≠ 0
      ∧ (1 : Matrix (Fin 4) (Fin 4) ℂ).conjTranspose * 1 = 1
      ∧ Kernel2.kernel (Kernel2.kernel [1, 2, 3, 4, 5, 6, 7, 8] 1 0 1 4) 1 0
          (1 : Matrix (Fin 4) (Fin 4) ℂ).conjTranspose 4 = [1, 2, 3, 4, 5, 6, 7, 8]) :=
  ⟨⟨rfl, by decide,
      by ext i j; fin_cases i <;> fin_cases j <;> simp [Matrix.mul_apply, Fin.sum_univ_two],
      C7_inverse_round_trip.1 1 [1, 2] rfl 0 (by decide) 0 !![0, 1; 1, 0]
        (by ext i j; fin_cases i <;> fin_cases j <;> simp [Matrix.mul_apply, Fin.sum_univ_two])⟩,
    ⟨rfl, by decide, by decide, by decide, by simp,
      C7_inverse_round_trip.2 3 [1, 2, 3, 4, 5, 6, 7, 8] rfl 1 0 (by decide) (by decide)
        (by decide) 4 1 (by simp)⟩⟩


/-! ## Concrete scenarios -/

/-- The single-target kernel on target 0 of a two-qubit state, in closed form. -/
theorem kernel1_two_qubits (m : Matrix (Fin 2) (Fin 2) ℂ) (g0 g1 g2 g3 : ℂ) :
    Kernel1.kernel [g0, g1, g2, g3] 0 m 0
      = [m 0 0 * g0 + m 0 1 * g1, m 1 0 * g0 + m 1 1 * g1,
          m 0 0 * g2 + m 0 1 * g3, m 1 0 * g2 + m 1 1 * g3] := by
  have h0 : (0 : Nat) < 2 := by decide
  have hlen : ([g0, g1, g2, g3] : List ℂ).length = 2 ^ 2 := rfl
  obtain ⟨e0, e1⟩ := kernel1_selected h0 [g0, g1, g2, g3] hlen m 0 0 (by decide)
    (by decide) (Or.inl rfl)
  obtain ⟨e2, e3⟩ := kernel1_selected h0 [g0, g1, g2, g3] hlen m 0 2 (by decide)
    (by decide) (Or.inl rfl)
  have hl : (Kernel1.kernel [g0, g1, g2, g3] 0 m 0).length
      = ([m 0 0 * g0 + m 0 1 * g1, m 1 0 * g0 + m 1 1 * g1,
          m 0 0 * g2 + m 0 1 * g3, m 1 0 * g2 + m 1 1 * g3] : List ℂ).length :=
    kernel1_length h0 _ hlen m 0
  apply ext_getD hl
  intro j hj
  rw [kernel1_length h0 _ hlen m 0] at hj
  have hj4 : j < 4 := hj
  interval_cases j
  · simpa using e0
  · simpa using e1
  · simpa using e2
  · simpa using e3

/-- The two-target kernel on targets `id1 = 1`, `id0 = 0` of a two-qubit state,
in closed form. -/
theorem kernel2_two_qubits (m : Matrix (Fin 4) (Fin 4) ℂ) (g0 g1 g2 g3 : ℂ) :
    Kernel2.kernel [g0, g1, g2, g3] 1 0 m 0
      = [m 0 0 * g0 + m 0 1 * g1 + m 0 2 * g2 + m 0 3 * g3,
          m 1 0 * g0 + m 1 1 * g1 + m 1 2 * g2 + m 1 3 * g3,
          m 2 0 * g0 + m 2 1 * g1 + m 2 2 * g2 + m 2 3 * g3,
          m 3 0 * g0 + m 3 1 * g1 + m 3 2 * g2 + m 3 3 * g3] := by
  have h0 : (0 : Nat) < 2 := by decide
  have h1 : (1 : Nat) < 2 := by decide
  have hne : (1 : Nat) ≠ 0 := by decide
  have hlen : ([g0, g1, g2, g3] : List ℂ).length = 2 ^ 2 := rfl
  obtain ⟨e0, e1, e2, e3⟩ := kernel2_selected h0 h1 hne [g0, g1, g2, g3] hlen m 0 0
    (by decide) (by decide) (by decide) (Or.inl rfl)
  have hl : (Kernel2.kernel [g0, g1, g2, g3] 1 0 m 0).length
      = ([m 0 0 * g0 + m 0 1 * g1 + m 0 2 * g2 + m 0 3 * g3,
          m 1 0 * g0 + m 1 1 * g1 + m 1 2 * g2 + m 1 3 * g3,
          m 2 0 * g0 + m 2 1 * g1 + m 2 2 * g2 + m 2 3 * g3,
          m 3 0 * g0 + m 3 1 * g1 + m 3 2 * g2 + m 3 3 * g3] : List ℂ).length :=
    kernel2_length h0 h1 hne _ hlen m 0
  apply ext_getD hl
  intro j hj
  rw [kernel2_length h0 h1 hne _ hlen m 0] at hj
  have hj4 : j < 4 := hj
  interval_cases j
  · simpa using e0
  · simpa using e1
  · simpa using e2
  · simpa using e3

/-- C11. Concrete CNOT scenario: with 2 qubits, the arity-2 kernel called with
`id1 = 1`, `id0 = 0`, the CNOT matrix and `ctrlmask = 0` maps `[1,0,0,0]` to
`[1,0,0,0]` and `[0,0,1,0]` to `[0,0,0,1]`. -/
theorem C11_cnot_scenario :
    Kernel2.kernel [1, 0, 0, 0] 1 0 !![1, 0, 0, 0; 0, 1, 0, 0; 0, 0, 0, 1; 0, 0, 1, 0] 0
        = [1, 0, 0, 0]
    ∧ Kernel2.kernel [0, 0, 1, 0] 1 0 !![1, 0, 0, 0; 0, 1, 0, 0; 0, 0, 0, 1; 0, 0, 1, 0] 0
        = [0, 0, 0, 1] := by
  constructor
  · rw [kernel2_two_qubits]
    simp [Matrix.vecHead, Matrix.vecTail]
  · rw [kernel2_two_qubits]
    simp [Matrix.vecHead, Matrix.vecTail]

/-- C12. Concrete Pauli-X scenario: with 2 qubits and state vector `[1,0,0,0]`,
the arity-1 kernel called with `id0 = 0`, matrix `[[0,1],[1,0]]` and
`ctrlmask = 0` leaves the state vector equal to `[0,1,0,0]`. -/
theorem C12_pauli_x_scenario :
    Kernel1.kernel [1, 0, 0, 0] 0 !![0, 1; 1, 0] 0 = [0, 1, 0, 0] := by
  rw [kernel1_two_qubits]
  simp


/-! ## Termination and bounds of the loop nests -/

/-- With a positive step and a budget above `hi - i`, the budgeted loop ends by
its own condition and returns what the loop returns. -/
theorem forLoopFuel_eq_some {σ : Type} (body : Nat → σ → Option σ) (b : Nat → σ → σ)
    (hb : ∀ i s, body i s = some (b i s)) (step hi : Nat) (hstep : 0 < step) :
    ∀ (fuel i : Nat) (s : σ), hi - i < fuel →
      forLoopFuel fuel i hi step body s = some (forLoop i hi step b s) := by
  intro fuel
  induction fuel with
  | zero => intro i s h; exact absurd h (Nat.not_lt_zero _)
  | succ fuel ih =>
    intro i s h
    rw [forLoopFuel, forLoop]
    by_cases hi' : i < hi
    · rw [if_pos hi', dif_pos ⟨hi', hstep⟩, hb, Option.some_bind]
      exact ih (i + step) (b i s) (by omega)
    · rw [if_neg hi', dif_neg (fun h => hi' h.1)]

/-- The budgeted loop nest of the single-target kernel ends and produces the
base indices of the unconditional call list. -/
theorem nestFuel1_eq {N id0 : Nat} (h0 : id0 < N) :
    Kernel1.nestFuel (2 ^ N + 1) (2 ^ N) id0 = some (Kernel1.calls (2 ^ N) id0 0) := by
  unfold Kernel1.nestFuel Kernel1.calls
  simp only [Nat.one_shiftLeft, if_true]
  have hle : 2 ^ id0 ≤ 2 ^ N := Nat.pow_le_pow_right (by omega) (Nat.le_of_lt h0)
  have hpN := Nat.two_pow_pos N
  have hp0 := Nat.two_pow_pos id0
  have hinner : ∀ (i0 : Nat) (acc : List Nat),
      forLoopFuel (2 ^ N + 1) 0 (2 ^ id0) 1 (fun i1 acc => some (acc ++ [i0 + i1])) acc
        = some (forLoop 0 (2 ^ id0) 1 (fun i1 acc => acc ++ [i0 + i1]) acc) := by
    intro i0 acc
    exact forLoopFuel_eq_some _ _ (fun _ _ => rfl) 1 _ Nat.one_pos _ 0 acc (by omega)
  exact forLoopFuel_eq_some _ _ hinner (2 * 2 ^ id0) _
    (Nat.mul_pos (by omega) (Nat.two_pow_pos _)) _ 0 [] (by omega)

/-- The sorted strides of two distinct targets below `N` are positive powers
of two, the smaller at most the larger, the larger at most `2^N`. -/
theorem dsorted_bounds {N id0 id1 : Nat} (h0 : id0 < N) (h1 : id1 < N) :
    0 < (Kernel2.dsorted (2 ^ id0) (2 ^ id1)).getD 1 0
    ∧ (Kernel2.dsorted (2 ^ id0) (2 ^ id1)).getD 1 0
        ≤ (Kernel2.dsorted (2 ^ id0) (2 ^ id1)).getD 0 0
    ∧ (Kernel2.dsorted (2 ^ id0) (2 ^ id1)).getD 0 0 ≤ 2 ^ N := by
  have hp0 := Nat.two_pow_pos id0
  have hp1 := Nat.two_pow_pos id1
  have hle0 : 2 ^ id0 ≤ 2 ^ N := Nat.pow_le_pow_right (by omega) (Nat.le_of_lt h0)
  have hle1 : 2 ^ id1 ≤ 2 ^ N := Nat.pow_le_pow_right (by omega) (Nat.le_of_lt h1)
  rw [dsorted_eq]
  by_cases h : (2 : Nat) ^ id0 ≥ 2 ^ id1
  · rw [if_pos h]
    simp only [List.getD_cons_zero, List.getD_cons_succ]
    exact ⟨hp1, h, hle0⟩
  · rw [if_neg h]
    simp only [List.getD_cons_zero, List.getD_cons_succ]
    exact ⟨hp0, by omega, hle1⟩

/-- The budgeted loop nest of the two-target kernel ends and produces the base
indices of the unconditional call list. -/
theorem nestFuel2_eq {N id0 id1 : Nat} (h0 : id0 < N) (h1 : id1 < N) :
    Kernel2.nestFuel (2 ^ N + 1) (2 ^ N) id1 id0
      = some (Kernel2.calls (2 ^ N) id1 id0 0) := by
  unfold Kernel2.nestFuel Kernel2.calls
  simp only [Nat.one_shiftLeft, if_true]
  obtain ⟨hpos, hle1, hle0⟩ := dsorted_bounds h0 h1
  have hinner : ∀ (i0 i1 : Nat) (acc : List Nat),
      forLoopFuel (2 ^ N + 1) 0 ((Kernel2.dsorted (2 ^ id0) (2 ^ id1)).getD 1 0) 1
          (fun i2 acc => some (acc ++ [i0 + i1 + i2])) acc
        = some (forLoop 0 ((Kernel2.dsorted (2 ^ id0) (2 ^ id1)).getD 1 0) 1
            (fun i2 acc => acc ++ [i0 + i1 + i2]) acc) := by
    intro i0 i1 acc
    exact forLoopFuel_eq_some _ _ (fun _ _ => rfl) 1 _ Nat.one_pos _ 0 acc (by omega)
  have hmid : ∀ (i0 : Nat) (acc : List Nat),
      forLoopFuel (2 ^ N + 1) 0 ((Kernel2.dsorted (2 ^ id0) (2 ^ id1)).getD 0 0)
          (2 * (Kernel2.dsorted (2 ^ id0) (2 ^ id1)).getD 1 0)
          (fun i1 acc =>
            forLoopFuel (2 ^ N + 1) 0 ((Kernel2.dsorted (2 ^ id0) (2 ^ id1)).getD 1 0) 1
              (fun i2 acc => some (acc ++ [i0 + i1 + i2])) acc) acc
        = some (forLoop 0 ((Kernel2.dsorted (2 ^ id0) (2 ^ id1)).getD 0 0)
            (2 * (Kernel2.dsorted (2 ^ id0) (2 ^ id1)).getD 1 0)
            (fun i1 acc => forLoop 0 ((Kernel2.dsorted (2 ^ id0) (2 ^ id1)).getD 1 0) 1
              (fun i2 acc => acc ++ [i0 + i1 + i2]) acc) acc) := by
    intro i0 acc
    exact forLoopFuel_eq_some _ _ (hinner i0) _ _ (by omega) _ 0 acc (by omega)
  exact forLoopFuel_eq_some _ _ hmid _ _ (by omega) _ 0 [] (by omega)

/-- The masked call list of the single-target kernel is part of the unconditional one. -/
theorem calls1_subset {N id0 : Nat} (h0 : id0 < N) (ctrlmask I : Nat)
    (hI : I ∈ Kernel1.calls (2 ^ N) id0 ctrlmask) : I ∈ Kernel1.calls (2 ^ N) id0 0 := by
  obtain ⟨hIn, hb, _⟩ := (mem_calls1 h0 _ _).1 hI
  exact (mem_calls1 h0 _ _).2 ⟨hIn, hb, Or.inl rfl⟩

/-- The masked call list of the two-target kernel is part of the unconditional one. -/
theorem calls2_subset {N id0 id1 : Nat} (h0 : id0 < N) (h1 : id1 < N) (hne : id1 ≠ id0)
    (ctrlmask I : Nat) (hI : I ∈ Kernel2.calls (2 ^ N) id1 id0 ctrlmask) :
    I ∈ Kernel2.calls (2 ^ N) id1 id0 0 := by
  obtain ⟨hIn, hb0, hb1, _⟩ := (mem_calls2 h0 h1 hne _ _).1 hI
  exact (mem_calls2 h0 h1 hne _ _).2 ⟨hIn, hb0, hb1, Or.inl rfl⟩

/-- C13. In-bounds access under the preconditions: for the arity-1 and arity-2
kernels on a state vector of length `n = 2^N` with distinct targets below `N`,
both loop nests terminate (run with a budget of `n + 1` tests per loop they end
by their own conditions, producing the base indices of the unconditional call
list), every call under any control mask is at one of these bases, and every
index of the group of such a base (`I`, `I+d0`, and for arity 2 also `I+d1`
and `I+d0+d1`) is strictly below `n`. -/
theorem C13_in_bounds_access :
    (∀ (N : Nat) (psi : List ℂ), psi.length = 2 ^ N → ∀ (id0 : Nat), id0 < N →
      Kernel1.nestFuel (psi.length + 1) psi.length id0
          = some (Kernel1.calls psi.length id0 0)
      ∧ (∀ (ctrlmask : Nat), ∀ I ∈ Kernel1.calls psi.length id0 ctrlmask,
          I ∈ Kernel1.calls psi.length id0 0)
      ∧ (∀ I ∈ Kernel1.calls psi.length id0 0, ∀ x ∈ Kernel1.group I (2 ^ id0),
          x < psi.length))
    ∧ (∀ (N : Nat) (psi : List ℂ), psi.length = 2 ^ N → ∀ (id1 id0 : Nat), id1 < N → id0 < N →
      id1 ≠ id0 →
      Kernel2.nestFuel (psi.length + 1) psi.length id1 id0
          = some (Kernel2.calls psi.length id1 id0 0)
      ∧ (∀ (ctrlmask : Nat), ∀ I ∈ Kernel2.calls psi.length id1 id0 ctrlmask,
          I ∈ Kernel2.calls psi.length id1 id0 0)
      ∧ (∀ I ∈ Kernel2.calls psi.length id1 id0 0,
          ∀ x ∈ Kernel2.group I (2 ^ id0) (2 ^ id1), x < psi.length)) := by
  constructor
  · intro N psi hlen id0 h0
    rw [hlen]
    refine ⟨nestFuel1_eq h0, fun c I hI => calls1_subset h0 c I hI, ?_⟩
    intro I hI x hx
    obtain ⟨hIn, hb, _⟩ := (mem_calls1 h0 _ _).1 hI
    exact group1_lt hb h0 hIn hx
  · intro N psi hlen id1 id0 h1 h0 hne
    rw [hlen]
    refine ⟨nestFuel2_eq h0 h1, fun c I hI => calls2_subset h0 h1 hne c I hI, ?_⟩
    intro I hI x hx
    obtain ⟨hIn, hb0, hb1, _⟩ := (mem_calls2 h0 h1 hne _ _).1 hI
    exact group2_mem_lt hne hb0 hb1 h0 h1 hIn hx

/-- Witness for C13: arity 1 on a two-qubit state with target 1; arity 2 on a
three-qubit state with targets `id1 = 0`, `id0 = 2`. -/
theorem C13_in_bounds_access_witness :
    (([1, 2, 3, 4] : List ℂ).length = 2 ^ 2 ∧ 1 < 2
      ∧ Kernel1.nestFuel (([1, 2, 3, 4] : List ℂ).length + 1) ([1, 2, 3, 4] : List ℂ).length 1
          = some (Kernel1.calls ([1, 2, 3, 4] : List ℂ).length 1 0)
      ∧ (∀ I ∈ Kernel1.calls ([1, 2, 3, 4] : List ℂ).length 1 0,
          ∀ x ∈ Kernel1.group I (2 ^ 1), x < ([1, 2, 3, 4] : List ℂ).length))
    ∧ (([1, 2, 3, 4, 5, 6, 7, 8] : List ℂ).length = 2 ^ 3 ∧ 0 < 3 ∧ 2 < 3 ∧ 0 ≠ 2
      ∧ Kernel2.nestFuel (([1, 2, 3, 4, 5, 6, 7, 8] : List ℂ).length + 1)
            ([1, 2, 3, 4, 5, 6, 7, 8] : List ℂ).length 0 2
          = some (Kernel2.calls ([1, 2, 3, 4, 5, 6, 7, 8] : List ℂ).length 0 2 0)
      ∧ (∀ I ∈ Kernel2.calls ([1, 2, 3, 4, 5, 6, 7, 8] : List ℂ).length 0 2 0,
          ∀ x ∈ Kernel2.group I (2 ^ 2) (2 ^ 0),
            x < ([1, 2, 3, 4, 5, 6, 7, 8] : List ℂ).length)) :=
  ⟨⟨rfl, by decide,
      (C13_in_bounds_access.1 2 [1, 2, 3, 4] rfl 1 (by decide)).1,
      (C13_in_bounds_access.1 2 [1, 2, 3, 4] rfl 1 (by decide)).2.2⟩,
    ⟨rfl, by decide, by decide, by decide,
      (C13_in_bounds_access.2 3 [1, 2, 3, 4, 5, 6, 7, 8] rfl 0 2 (by decide) (by decide)
        (by decide)).1,
      (C13_in_bounds_access.2 3 [1, 2, 3, 4, 5, 6, 7, 8] rfl 0 2 (by decide) (by decide)
        (by decide)).2.2⟩⟩


/-- A loop whose step is zero never ends: every budget is used up. -/
theorem forLoopFuel_zero_step {σ : Type} (b : Nat → σ → σ) (i hi : Nat) (h : i < hi) :
    ∀ (fuel : Nat) (s : σ), forLoopFuel fuel i hi 0 (fun i s => some (b i s)) s = none := by
  intro fuel
  induction fuel with
  | zero => intro s; rfl
  | succ fuel ih =>
    intro s
    rw [forLoopFuel, if_pos h, Option.some_bind]
    exact ih (b i s)

/-! ## The allocator handles -/

/-- C14, as stated, fails: the handles `aligned_allocator<double, 64>` and
`aligned_allocator<float, 64>` have the same `Alignment`, yet `operator==`
returns `false` on them. -/
theorem C14_same_alignment_not_equal :
    (⟨"double", 64⟩ : aligned_allocator).Alignment = (⟨"float", 64⟩ : aligned_allocator).Alignment
    ∧ aligned_allocator.operatorEq ⟨"double", 64⟩ ⟨"float", 64⟩ = false := by
  decide

/-- C14, amended. Allocator handle equality: `operator==` returns `true`
exactly when the two handles have the same element type and the same
`Alignment`, and `false` for every other pair, in particular whenever the
`Alignment` differs; a handle equals its own `rebind` only to its own element
type; `operator!=` always returns the negation of `operator==`. -/
theorem C14_allocator_equality (a b : aligned_allocator) :
    (aligned_allocator.operatorEq a b = true ↔ a.T = b.T ∧ a.Alignment = b.Alignment)
    ∧ (a.Alignment ≠ b.Alignment → aligned_allocator.operatorEq a b = false)
    ∧ (∀ U : String, aligned_allocator.operatorEq a (a.rebind U) = decide (a.T = U))
    ∧ aligned_allocator.operatorNe a b = !aligned_allocator.operatorEq a b := by
  unfold aligned_allocator.operatorEq aligned_allocator.operatorNe aligned_allocator.rebind
    aligned_allocator.operatorEqSame aligned_allocator.operatorEqOther
    aligned_allocator.operatorNeSame aligned_allocator.operatorNeOther
  refine ⟨?_, ?_, ?_, ?_⟩
  · by_cases h : a.T = b.T ∧ a.Alignment = b.Alignment <;> simp [h]
  · intro hne
    rw [if_neg (fun h => hne h.2)]
  · intro U
    by_cases h : a.T = U <;> simp [h]
  · by_cases h : a.T = b.T ∧ a.Alignment = b.Alignment <;> simp [h]

/-- Witness for C14: handles of alignments 32 and 64 compare unequal. -/
theorem C14_allocator_equality_witness :
    (⟨"double", 32⟩ : aligned_allocator).Alignment ≠ (⟨"double", 64⟩ : aligned_allocator).Alignment
    ∧ aligned_allocator.operatorEq ⟨"double", 32⟩ ⟨"double", 64⟩ = false :=
  ⟨by decide, (C14_allocator_equality ⟨"double", 32⟩ ⟨"double", 64⟩).2.1 (by decide)⟩

/-! ## The collapse depths -/

/-- C16, as stated, fails: `LOOP_COLLAPSE1` is not `1`. -/
theorem C16_loop_collapse1_ne_one : LOOP_COLLAPSE1 ≠ 1 := by
  decide

/-! ## Counting the base indices -/

/-- Listing the groups of the single-target call list gives every index once. -/
theorem touched1_perm {N id0 : Nat} (h0 : id0 < N) :
    ((Kernel1.calls (2 ^ N) id0 0).flatMap (fun I => Kernel1.group I (2 ^ id0))).Perm
      (List.range (2 ^ N)) := by
  rw [List.perm_ext_iff_of_nodup _ (List.nodup_range _)]
  · intro j
    rw [List.mem_flatMap, List.mem_range]
    exact (cover1 h0 j).symm
  · rw [List.nodup_flatMap]
    refine ⟨fun I _ => ?_, pairwise_disjoint1 h0 0⟩
    simp [Kernel1.group]

/-- Listing the groups of the two-target call list gives every index once. -/
theorem touched2_perm {N id0 id1 : Nat} (h0 : id0 < N) (h1 : id1 < N) (hne : id1 ≠ id0) :
    ((Kernel2.calls (2 ^ N) id1 id0 0).flatMap
        (fun I => Kernel2.group I (2 ^ id0) (2 ^ id1))).Perm (List.range (2 ^ N)) := by
  rw [List.perm_ext_iff_of_nodup _ (List.nodup_range _)]
  · intro j
    rw [List.mem_flatMap, List.mem_range]
    exact (cover2 h0 h1 hne j).symm
  · rw [List.nodup_flatMap]
    refine ⟨fun I _ => ?_, pairwise_disjoint2 h0 h1 hne 0⟩
    have hp0 := Nat.two_pow_pos id0
    have hp1 := Nat.two_pow_pos id1
    have hpne : (2 : Nat) ^ id0 ≠ 2 ^ id1 := fun h =>
      hne (Nat.pow_right_injective (le_refl 2) h).symm
    simp [Kernel2.group]
    omega

/-- Each single-target call touches two indices. -/
theorem length_touched1 (L : List Nat) (d0 : Nat) :
    (L.flatMap (fun I => Kernel1.group I d0)).length = 2 * L.length := by
  induction L with
  | nil => rfl
  | cons a L ih =>
    rw [List.flatMap_cons, List.length_append, ih, List.length_cons]
    simp only [Kernel1.group, List.length_cons, List.length_nil]
    omega

/-- Each two-target call touches four indices. -/
theorem length_touched2 (L : List Nat) (d0 d1 : Nat) :
    (L.flatMap (fun I => Kernel2.group I d0 d1)).length = 4 * L.length := by
  induction L with
  | nil => rfl
  | cons a L ih =>
    rw [List.flatMap_cons, List.length_append, ih, List.length_cons]
    simp only [Kernel2.group, List.length_cons, List.length_nil]
    omega

/-- C15. Base-index enumeration with sorted strides: for the arity-2 kernel
with `ctrlmask = 0`, `n = 2^N` and distinct target bits `id1, id0 < N` in
either numeric order, the sequence of base indices `i0 + i1 + i2` passed to
`kernel_core` has no repeated element, is exactly the set of indices `I < n`
whose bits `id0` and `id1` are both 0, and has `n/4` elements; likewise the
arity-1 kernel passes exactly the `n/2` indices whose bit `id0` is 0, each
once. -/
theorem C15_base_index_enumeration :
    (∀ (N id1 id0 : Nat), id1 < N → id0 < N → id1 ≠ id0 →
      (Kernel2.calls (2 ^ N) id1 id0 0).Nodup
      ∧ (∀ I, I ∈ Kernel2.calls (2 ^ N) id1 id0 0
          ↔ I < 2 ^ N ∧ I.testBit id0 = false ∧ I.testBit id1 = false)
      ∧ (Kernel2.calls (2 ^ N) id1 id0 0).length = 2 ^ N / 4)
    ∧ (∀ (N id0 : Nat), id0 < N →
      (Kernel1.calls (2 ^ N) id0 0).Nodup
      ∧ (∀ I, I ∈ Kernel1.calls (2 ^ N) id0 0 ↔ I < 2 ^ N ∧ I.testBit id0 = false)
      ∧ (Kernel1.calls (2 ^ N) id0 0).length = 2 ^ N / 2) := by
  constructor
  · intro N id1 id0 h1 h0 hne
    refine ⟨nodup_calls2 h0 h1 hne 0, fun I => ?_, ?_⟩
    · rw [mem_calls2 h0 h1 hne]
      simp
    · have h := (touched2_perm h0 h1 hne).length_eq
      rw [length_touched2, List.length_range] at h
      omega
  · intro N id0 h0
    refine ⟨nodup_calls1 h0 0, fun I => ?_, ?_⟩
    · rw [mem_calls1 h0]
      simp
    · have h := (touched1_perm h0).length_eq
      rw [length_touched1, List.length_range] at h
      omega

/-- Witness for C15: three qubits, targets `id1 = 0`, `id0 = 2` (ascending) for
arity 2, target 1 for arity 1. -/
theorem C15_base_index_enumeration_witness :
    (0 < 3 ∧ 2 < 3 ∧ 0 ≠ 2
      ∧ (Kernel2.calls (2 ^ 3) 0 2 0).Nodup
      ∧ (Kernel2.calls (2 ^ 3) 0 2 0).length = 2 ^ 3 / 4)
    ∧ (1 < 3
      ∧ (Kernel1.calls (2 ^ 3) 1 0).Nodup
      ∧ (Kernel1.calls (2 ^ 3) 1 0).length = 2 ^ 3 / 2) :=
  ⟨⟨by decide, by decide, by decide,
      (C15_base_index_enumeration.1 3 0 2 (by decide) (by decide) (by decide)).1,
      (C15_base_index_enumeration.1 3 0 2 (by decide) (by decide) (by decide)).2.2⟩,
    ⟨by decide, (C15_base_index_enumeration.2 3 1 (by decide)).1,
      (C15_base_index_enumeration.2 3 1 (by decide)).2.2⟩⟩


/-! ## Composition of kernel calls -/

/-- C17. Composition on the same targets is matrix multiplication: for the
arity-1 and arity-2 kernels, a state vector of length `2^N`, valid distinct
targets below `N`, a control mask disjoint from the targets and two matrices
`A` and `B` of the kernel's size, calling the kernel with `A` and then with `B`
(same targets, same mask) gives the state vector of one call with the matrix
product `B * A` (exact arithmetic). -/
theorem C17_composition_is_matrix_product :
    (∀ (N : Nat) (psi : List ℂ), psi.length = 2 ^ N → ∀ (id0 : Nat), id0 < N →
      ∀ (ctrlmask : Nat), ctrlmask &&& 2 ^ id0 = 0 → ∀ (A B : Matrix (Fin 2) (Fin 2) ℂ),
        Kernel1.kernel (Kernel1.kernel psi id0 A ctrlmask) id0 B ctrlmask
          = Kernel1.kernel psi id0 (B * A) ctrlmask)
    ∧ (∀ (N : Nat) (psi : List ℂ), psi.length = 2 ^ N → ∀ (id1 id0 : Nat), id1 < N → id0 < N →
      id1 ≠ id0 → ∀ (ctrlmask : Nat), ctrlmask &&& (2 ^ id0 ||| 2 ^ id1) = 0 →
      ∀ (A B : Matrix (Fin 4) (Fin 4) ℂ),
        Kernel2.kernel (Kernel2.kernel psi id1 id0 A ctrlmask) id1 id0 B ctrlmask
          = Kernel2.kernel psi id1 id0 (B * A) ctrlmask) := by
  constructor
  · intro N psi hlen id0 h0 ctrlmask _ A B
    have hlen' : (Kernel1.kernel psi id0 A ctrlmask).length = 2 ^ N := by
      rw [kernel1_length h0 psi hlen, hlen]
    apply ext_getD (by rw [kernel1_length h0 _ hlen', hlen', kernel1_length h0 psi hlen, hlen])
    intro j hj
    rw [kernel1_length h0 _ hlen', hlen'] at hj
    obtain ⟨I, hI, hle, hmem⟩ := exists_base1 j id0
    by_cases hsel : ctrlmask = 0 ∨ I &&& ctrlmask = ctrlmask
    · obtain ⟨e0, e1⟩ :=
        kernel1_selected h0 psi hlen A ctrlmask I hI (lt_of_le_of_lt hle hj) hsel
      obtain ⟨f0, f1⟩ :=
        kernel1_selected h0 _ hlen' B ctrlmask I hI (lt_of_le_of_lt hle hj) hsel
      obtain ⟨g0, g1⟩ :=
        kernel1_selected h0 psi hlen (B * A) ctrlmask I hI (lt_of_le_of_lt hle hj) hsel
      simp only [Kernel1.group, List.mem_cons, List.mem_singleton, List.not_mem_nil, or_false]
        at hmem
      rcases hmem with rfl | rfl
      · rw [f0, e0, e1, g0]
        simp only [Matrix.mul_apply, Fin.sum_univ_two]
        ring
      · rw [f1, e0, e1, g1]
        simp only [Matrix.mul_apply, Fin.sum_univ_two]
        ring
    · rw [kernel1_unselected_mem h0 _ hlen' B ctrlmask I hI hsel j hmem,
        kernel1_unselected_mem h0 psi hlen A ctrlmask I hI hsel j hmem,
        kernel1_unselected_mem h0 psi hlen (B * A) ctrlmask I hI hsel j hmem]
  · intro N psi hlen id1 id0 h1 h0 hne ctrlmask _ A B
    have hlen' : (Kernel2.kernel psi id1 id0 A ctrlmask).length = 2 ^ N := by
      rw [kernel2_length h0 h1 hne psi hlen, hlen]
    apply ext_getD (by
      rw [kernel2_length h0 h1 hne _ hlen', hlen', kernel2_length h0 h1 hne psi hlen, hlen])
    intro j hj
    rw [kernel2_length h0 h1 hne _ hlen', hlen'] at hj
    obtain ⟨I, hI0, hI1, hle, hmem⟩ := exists_base2 j id0 id1
    by_cases hsel : ctrlmask = 0 ∨ I &&& ctrlmask = ctrlmask
    · obtain ⟨e0, e1, e2, e3⟩ := kernel2_selected h0 h1 hne psi hlen A ctrlmask I hI0 hI1
        (lt_of_le_of_lt hle hj) hsel
      obtain ⟨f0, f1, f2, f3⟩ := kernel2_selected h0 h1 hne _ hlen' B ctrlmask I hI0 hI1
        (lt_of_le_of_lt hle hj) hsel
      obtain ⟨g0, g1, g2, g3⟩ := kernel2_selected h0 h1 hne psi hlen (B * A) ctrlmask I
        hI0 hI1 (lt_of_le_of_lt hle hj) hsel
      simp only [Kernel2.group, List.mem_cons, List.mem_singleton, List.not_mem_nil, or_false]
        at hmem
      rcases hmem with rfl | rfl | rfl | rfl
      · rw [f0, e0, e1, e2, e3, g0]
        simp only [Matrix.mul_apply, Fin.sum_univ_four]
        ring
      · rw [f1, e0, e1, e2, e3, g1]
        simp only [Matrix.mul_apply, Fin.sum_univ_four]
        ring
      · rw [f2, e0, e1, e2, e3, g2]
        simp only [Matrix.mul_apply, Fin.sum_univ_four]
        ring
      · rw [f3, e0, e1, e2, e3, g3]
        simp only [Matrix.mul_apply, Fin.sum_univ_four]
        ring
    · rw [kernel2_unselected h0 h1 hne _ hlen' B ctrlmask I hI0 hI1 hsel j hmem,
        kernel2_unselected h0 h1 hne psi hlen A ctrlmask I hI0 hI1 hsel j hmem,
        kernel2_unselected h0 h1 hne psi hlen (B * A) ctrlmask I hI0 hI1 hsel j hmem]

/-- Witness for C17: Pauli-X twice on target 0 of two qubits under control
mask `2`; the CNOT matrix twice on targets `1, 0` of three qubits under
control mask `4`. -/
theorem C17_composition_is_matrix_product_witness :
    (([1, 2, 3, 4] : List ℂ).length = 2 ^ 2 ∧ 0 < 2 ∧ 2 &&& 2 ^ 0 = 0
      ∧ Kernel1.kernel (Kernel1.kernel [1, 2, 3, 4] 0 !![0, 1; 1, 0] 2) 0 !![0, 1; 1, 0] 2
          = Kernel1.kernel [1, 2, 3, 4] 0
              ((!![0, 1; 1, 0] : Matrix (Fin 2) (Fin 2) ℂ) * !![0, 1; 1, 0]) 2)
    ∧ (([1, 2, 3, 4, 5, 6, 7, 8] : List ℂ).length = 2 ^ 3 ∧ 1 < 3 ∧ 0 < 3 ∧ 1 ≠ 0
      ∧ 4 &&& (2 ^ 0 ||| 2 ^ 1) = 0
      ∧ Kernel2.kernel
            (Kernel2.kernel [1, 2, 3, 4, 5, 6, 7, 8] 1 0
              !![1, 0, 0, 0; 0, 1, 0, 0; 0, 0, 0, 1; 0, 0, 1, 0] 4) 1 0
            !![1, 0, 0, 0; 0, 1, 0, 0; 0, 0, 0, 1; 0, 0, 1, 0] 4
          = Kernel2.kernel [1, 2, 3, 4, 5, 6, 7, 8] 1 0
              ((!![1, 0, 0, 0; 0, 1, 0, 0; 0, 0, 0, 1; 0, 0, 1, 0] : Matrix (Fin 4) (Fin 4) ℂ)
                * !![1, 0, 0, 0; 0, 1, 0, 0; 0, 0, 0, 1; 0, 0, 1, 0]) 4) :=
  ⟨⟨rfl, by decide, by decide,
      C17_composition_is_matrix_product.1 2 [1, 2, 3, 4] rfl 0 (by decide) 2 (by decide)
        !![0, 1; 1, 0] !![0, 1; 1, 0]⟩,
    ⟨rfl, by decide, by decide, by decide, by decide,
      C17_composition_is_matrix_product.2 3 [1, 2, 3, 4, 5, 6, 7, 8] rfl 1 0 (by decide)
        (by decide) (by decide) 4 (by decide)
        !![1, 0, 0, 0; 0, 1, 0, 0; 0, 0, 0, 1; 0, 0, 1, 0]
        !![1, 0, 0, 0; 0, 1, 0, 0; 0, 0, 0, 1; 0, 0, 1, 0]⟩⟩


/-! ## Relations between the two kernels -/

/-- The single-bit control test `(I & 2^c) == 2^c` reads bit `c` of `I`. -/
theorem land_two_pow_eq_iff (I c : Nat) : I &&& 2 ^ c = 2 ^ c ↔ I.testBit c = true := by
  rw [land_eq_iff]
  constructor
  · intro h
    exact h c Nat.testBit_two_pow_self
  · intro h k hk
    rw [Nat.testBit_two_pow] at hk
    have : c = k := by simpa using hk
    rw [← this]
    exact h

/-- C18. A single control bit is the same as a block-diagonal two-target gate:
for a state vector of length `2^N`, distinct bits `c, t < N` and a 2x2 matrix
`M`, the arity-1 call `kernel(psi, t, M, ctrlmask = 2^c)` gives the state
vector of the arity-2 call `kernel(psi, id1 = c, id0 = t, m, ctrlmask = 0)`
with `m` the block-diagonal matrix of the 2x2 identity (rows/columns 0..1) and
`M` (rows/columns 2..3). -/
theorem C18_control_bit_as_block_diagonal (N : Nat) (psi : List ℂ)
    (hlen : psi.length = 2 ^ N) (c t : Nat) (hc : c < N) (ht : t < N) (hct : c ≠ t)
    (M : Matrix (Fin 2) (Fin 2) ℂ) :
    Kernel1.kernel psi t M (2 ^ c)
      = Kernel2.kernel psi c t
          !![1, 0, 0, 0; 0, 1, 0, 0; 0, 0, M 0 0, M 0 1; 0, 0, M 1 0, M 1 1] 0 := by
  apply ext_getD (by rw [kernel1_length ht psi hlen, kernel2_length ht hc hct psi hlen])
  intro j hj
  rw [kernel1_length ht psi hlen, hlen] at hj
  obtain ⟨I, hIt, hIc, hle, hmem⟩ := exists_base2 j t c
  have hIn : I < 2 ^ N := lt_of_le_of_lt hle hj
  obtain ⟨e0, e1, e2, e3⟩ := kernel2_selected ht hc hct psi hlen
    !![1, 0, 0, 0; 0, 1, 0, 0; 0, 0, M 0 0, M 0 1; 0, 0, M 1 0, M 1 1] 0 I hIt hIc hIn
    (Or.inl rfl)
  have hpc : (2 : Nat) ^ c ≠ 0 := Nat.pos_iff_ne_zero.1 (Nat.two_pow_pos c)
  have hunsel : ¬ ((2 : Nat) ^ c = 0 ∨ I &&& 2 ^ c = 2 ^ c) := by
    rintro (h | h)
    · exact hpc h
    · rw [land_two_pow_eq_iff, hIc] at h
      cases h
  obtain ⟨u0, u1⟩ := kernel1_unselected ht psi hlen M (2 ^ c) I hIt hunsel
  have hJt : (I + 2 ^ c).testBit t = false := by
    rw [testBit_add_two_pow hIc]; simp [hIt, hct.symm]
  have hJc : (I + 2 ^ c).testBit c = true := by
    rw [testBit_add_two_pow hIc]; simp
  obtain ⟨s0, s1⟩ := kernel1_selected ht psi hlen M (2 ^ c) (I + 2 ^ c) hJt
    (add_two_pow_lt hIc hc hIn) (Or.inr ((land_two_pow_eq_iff _ _).2 hJc))
  rw [Nat.add_right_comm I (2 ^ c) (2 ^ t)] at s0 s1
  simp only [Kernel2.group, List.mem_cons, List.mem_singleton, List.not_mem_nil, or_false]
    at hmem
  rcases hmem with rfl | rfl | rfl | rfl
  · rw [u0, e0]; simp [Matrix.vecHead, Matrix.vecTail]
  · rw [u1, e1]; simp [Matrix.vecHead, Matrix.vecTail]
  · rw [s0, e2]; simp [Matrix.vecHead, Matrix.vecTail]
  · rw [s1, e3]; simp [Matrix.vecHead, Matrix.vecTail]

/-- Witness for C18: two qubits, control bit 1, target bit 0, Pauli-X. -/
theorem C18_control_bit_as_block_diagonal_witness :
    ([1, 2, 3, 4] : List ℂ).length = 2 ^ 2 ∧ 1 < 2 ∧ 0 < 2 ∧ 1 ≠ 0
    ∧ Kernel1.kernel [1, 2, 3, 4] 0 !![0, 1; 1, 0] (2 ^ 1)
        = Kernel2.kernel [1, 2, 3, 4] 1 0
            !![1, 0, 0, 0; 0, 1, 0, 0;
               0, 0, (!![0, 1; 1, 0] : Matrix (Fin 2) (Fin 2) ℂ) 0 0,
                 (!![0, 1; 1, 0] : Matrix (Fin 2) (Fin 2) ℂ) 0 1;
               0, 0, (!![0, 1; 1, 0] : Matrix (Fin 2) (Fin 2) ℂ) 1 0,
                 (!![0, 1; 1, 0] : Matrix (Fin 2) (Fin 2) ℂ) 1 1] 0 :=
  ⟨rfl, by decide, by decide, by decide,
    C18_control_bit_as_block_diagonal 2 [1, 2, 3, 4] rfl 1 0 (by decide) (by decide)
      (by decide) !![0, 1; 1, 0]⟩


/-- Two unconditional single-target calls on different targets `p` then `q`,
on the four amplitudes of a base with both bits clear. -/
theorem kernel1_twice {N p q : Nat} (hp : p < N) (hq : q < N) (hpq : p ≠ q) (psi : List ℂ)
    (hlen : psi.length = 2 ^ N) (P Q : Matrix (Fin 2) (Fin 2) ℂ) (I : Nat)
    (hIp : I.testBit p = false) (hIq : I.testBit q = false) (hIn : I < 2 ^ N) :
    (Kernel1.kernel (Kernel1.kernel psi p P 0) q Q 0).getD I 0
        = Q 0 0 * (P 0 0 * psi.getD I 0 + P 0 1 * psi.getD (I + 2 ^ p) 0)
          + Q 0 1 * (P 0 0 * psi.getD (I + 2 ^ q) 0 + P 0 1 * psi.getD (I + 2 ^ p + 2 ^ q) 0)
    ∧ (Kernel1.kernel (Kernel1.kernel psi p P 0) q Q 0).getD (I + 2 ^ p) 0
        = Q 0 0 * (P 1 0 * psi.getD I 0 + P 1 1 * psi.getD (I + 2 ^ p) 0)
          + Q 0 1 * (P 1 0 * psi.getD (I + 2 ^ q) 0 + P 1 1 * psi.getD (I + 2 ^ p + 2 ^ q) 0)
    ∧ (Kernel1.kernel (Kernel1.kernel psi p P 0) q Q 0).getD (I + 2 ^ q) 0
        = Q 1 0 * (P 0 0 * psi.getD I 0 + P 0 1 * psi.getD (I + 2 ^ p) 0)
          + Q 1 1 * (P 0 0 * psi.getD (I + 2 ^ q) 0 + P 0 1 * psi.getD (I + 2 ^ p + 2 ^ q) 0)
    ∧ (Kernel1.kernel (Kernel1.kernel psi p P 0) q Q 0).getD (I + 2 ^ p + 2 ^ q) 0
        = Q 1 0 * (P 1 0 * psi.getD I 0 + P 1 1 * psi.getD (I + 2 ^ p) 0)
          + Q 1 1 * (P 1 0 * psi.getD (I + 2 ^ q) 0
            + P 1 1 * psi.getD (I + 2 ^ p + 2 ^ q) 0) := by
  have hlen1 : (Kernel1.kernel psi p P 0).length = 2 ^ N := by
    rw [kernel1_length hp psi hlen, hlen]
  have hqp : (I + 2 ^ q).testBit p = false := by
    rw [testBit_add_two_pow hIq]; simp [hIp, hpq]
  have hpq' : (I + 2 ^ p).testBit q = false := by
    rw [testBit_add_two_pow hIp]; simp [hIq, hpq.symm]
  obtain ⟨a0, a1⟩ := kernel1_selected hp psi hlen P 0 I hIp hIn (Or.inl rfl)
  obtain ⟨b0, b1⟩ := kernel1_selected hp psi hlen P 0 (I + 2 ^ q) hqp
    (add_two_pow_lt hIq hq hIn) (Or.inl rfl)
  rw [Nat.add_right_comm I (2 ^ q) (2 ^ p)] at b0 b1
  obtain ⟨c0, c1⟩ := kernel1_selected hq _ hlen1 Q 0 I hIq hIn (Or.inl rfl)
  obtain ⟨d0, d1⟩ := kernel1_selected hq _ hlen1 Q 0 (I + 2 ^ p) hpq'
    (add_two_pow_lt hIp hp hIn) (Or.inl rfl)
  refine ⟨?_, ?_, ?_, ?_⟩
  · rw [c0, a0, b0]
  · rw [d0, a1, b1]
  · rw [c1, a0, b0]
  · rw [d1, a1, b1]

/-- C19. The arity-2 kernel on a Kronecker product factors into two arity-1
calls: for a state vector of length `2^N`, distinct bits `id1, id0 < N`, 2x2
matrices `A` and `B` and a 4x4 matrix `m` with
`m[2*b + a][2*b' + a'] = A[b][b'] * B[a][a']`, the call
`kernel(psi, id1, id0, m, 0)` gives the state vector of the arity-1 call with
`B` on `id0` followed by the arity-1 call with `A` on `id1`, and also that of
the two arity-1 calls in the opposite order (exact arithmetic). -/
theorem C19_kronecker_factorisation (N : Nat) (psi : List ℂ) (hlen : psi.length = 2 ^ N)
    (id1 id0 : Nat) (h1 : id1 < N) (h0 : id0 < N) (hne : id1 ≠ id0)
    (A B : Matrix (Fin 2) (Fin 2) ℂ) (m : Matrix (Fin 4) (Fin 4) ℂ)
    (hm : ∀ a b a' b' : Fin 2,
      m ⟨2 * b.val + a.val, by omega⟩ ⟨2 * b'.val + a'.val, by omega⟩ = A b b' * B a a') :
    Kernel2.kernel psi id1 id0 m 0 = Kernel1.kernel (Kernel1.kernel psi id0 B 0) id1 A 0
    ∧ Kernel2.kernel psi id1 id0 m 0
        = Kernel1.kernel (Kernel1.kernel psi id1 A 0) id0 B 0 := by
  have m00 : m 0 0 = A 0 0 * B 0 0 := hm 0 0 0 0
  have m01 : m 0 1 = A 0 0 * B 0 1 := hm 0 0 1 0
  have m02 : m 0 2 = A 0 1 * B 0 0 := hm 0 0 0 1
  have m03 : m 0 3 = A 0 1 * B 0 1 := hm 0 0 1 1
  have m10 : m 1 0 = A 0 0 * B 1 0 := hm 1 0 0 0
  have m11 : m 1 1 = A 0 0 * B 1 1 := hm 1 0 1 0
  have m12 : m 1 2 = A 0 1 * B 1 0 := hm 1 0 0 1
  have m13 : m 1 3 = A 0 1 * B 1 1 := hm 1 0 1 1
  have m20 : m 2 0 = A 1 0 * B 0 0 := hm 0 1 0 0
  have m21 : m 2 1 = A 1 0 * B 0 1 := hm 0 1 1 0
  have m22 : m 2 2 = A 1 1 * B 0 0 := hm 0 1 0 1
  have m23 : m 2 3 = A 1 1 * B 0 1 := hm 0 1 1 1
  have m30 : m 3 0 = A 1 0 * B 1 0 := hm 1 1 0 0
  have m31 : m 3 1 = A 1 0 * B 1 1 := hm 1 1 1 0
  have m32 : m 3 2 = A 1 1 * B 1 0 := hm 1 1 0 1
  have m33 : m 3 3 = A 1 1 * B 1 1 := hm 1 1 1 1
  have hl2 : (Kernel2.kernel psi id1 id0 m 0).length = 2 ^ N := by
    rw [kernel2_length h0 h1 hne psi hlen, hlen]
  have hlB : (Kernel1.kernel psi id0 B 0).length = 2 ^ N := by
    rw [kernel1_length h0 psi hlen, hlen]
  have hlA : (Kernel1.kernel psi id1 A 0).length = 2 ^ N := by
    rw [kernel1_length h1 psi hlen, hlen]
  constructor
  · apply ext_getD (by rw [hl2, kernel1_length h1 _ hlB, hlB])
    intro j hj
    rw [hl2] at hj
    obtain ⟨I, hI0, hI1, hle, hmem⟩ := exists_base2 j id0 id1
    have hIn : I < 2 ^ N := lt_of_le_of_lt hle hj
    obtain ⟨e0, e1, e2, e3⟩ :=
      kernel2_selected h0 h1 hne psi hlen m 0 I hI0 hI1 hIn (Or.inl rfl)
    obtain ⟨f0, f1, f2, f3⟩ := kernel1_twice h0 h1 hne.symm psi hlen B A I hI0 hI1 hIn
    simp only [Kernel2.group, List.mem_cons, List.mem_singleton, List.not_mem_nil, or_false]
      at hmem
    rcases hmem with rfl | rfl | rfl | rfl
    · rw [e0, f0, m00, m01, m02, m03]; ring
    · rw [e1, f1, m10, m11, m12, m13]; ring
    · rw [e2, f2, m20, m21, m22, m23]; ring
    · rw [e3, f3, m30, m31, m32, m33]; ring
  · apply ext_getD (by rw [hl2, kernel1_length h0 _ hlA, hlA])
    intro j hj
    rw [hl2] at hj
    obtain ⟨I, hI0, hI1, hle, hmem⟩ := exists_base2 j id0 id1
    have hIn : I < 2 ^ N := lt_of_le_of_lt hle hj
    obtain ⟨e0, e1, e2, e3⟩ :=
      kernel2_selected h0 h1 hne psi hlen m 0 I hI0 hI1 hIn (Or.inl rfl)
    obtain ⟨f0, f1, f2, f3⟩ := kernel1_twice h1 h0 hne psi hlen A B I hI1 hI0 hIn
    rw [Nat.add_right_comm I (2 ^ id1) (2 ^ id0)] at f0 f1 f2 f3
    simp only [Kernel2.group, List.mem_cons, List.mem_singleton, List.not_mem_nil, or_false]
      at hmem
    rcases hmem with rfl | rfl | rfl | rfl
    · rw [e0, f0, m00, m01, m02, m03]; ring
    · rw [e1, f2, m10, m11, m12, m13]; ring
    · rw [e2, f1, m20, m21, m22, m23]; ring
    · rw [e3, f3, m30, m31, m32, m33]; ring

/-- Witness for C19: two qubits, `A` the Pauli-X matrix and `B = 1`, whose
Kronecker product swaps the two halves of the state. -/
theorem C19_kronecker_factorisation_witness :
    ([1, 2, 3, 4] : List ℂ).length = 2 ^ 2 ∧ 1 < 2 ∧ 0 < 2 ∧ 1 ≠ 0
    ∧ (∀ a b a' b' : Fin 2,
        (!![0, 0, 1, 0; 0, 0, 0, 1; 1, 0, 0, 0; 0, 1, 0, 0] : Matrix (Fin 4) (Fin 4) ℂ)
            ⟨2 * b.val + a.val, by omega⟩ ⟨2 * b'.val + a'.val, by omega⟩
          = (!![0, 1; 1, 0] : Matrix (Fin 2) (Fin 2) ℂ) b b'
            * (1 : Matrix (Fin 2) (Fin 2) ℂ) a a')
    ∧ Kernel2.kernel [1, 2, 3, 4] 1 0 !![0, 0, 1, 0; 0, 0, 0, 1; 1, 0, 0, 0; 0, 1, 0, 0] 0
        = Kernel1.kernel (Kernel1.kernel [1, 2, 3, 4] 0 1 0) 1 !![0, 1; 1, 0] 0
    ∧ Kernel2.kernel [1, 2, 3, 4] 1 0 !![0, 0, 1, 0; 0, 0, 0, 1; 1, 0, 0, 0; 0, 1, 0, 0] 0
        = Kernel1.kernel (Kernel1.kernel [1, 2, 3, 4] 1 !![0, 1; 1, 0] 0) 0 1 0 :=
  ⟨rfl, by decide, by decide, by decide,
    by intro a b a' b'; fin_cases a <;> fin_cases b <;> fin_cases a' <;> fin_cases b' <;>
      simp [Matrix.one_apply, Matrix.vecHead, Matrix.vecTail],
    C19_kronecker_factorisation 2 [1, 2, 3, 4] rfl 1 0 (by decide) (by decide) (by decide)
      !![0, 1; 1, 0] 1 !![0, 0, 1, 0; 0, 0, 0, 1; 1, 0, 0, 0; 0, 1, 0, 0]
      (by intro a b a' b'; fin_cases a <;> fin_cases b <;> fin_cases a' <;> fin_cases b' <;>
        simp [Matrix.one_apply, Matrix.vecHead, Matrix.vecTail])⟩


/-! ## Control masks that overlap a target -/

/-- A mask that shares a bit with `2^id0 | 2^id1` has one of the two bits set. -/
theorem testBit_of_land_lor_ne_zero {m id0 id1 : Nat} (h : m &&& (2 ^ id0 ||| 2 ^ id1) ≠ 0) :
    m.testBit id0 = true ∨ m.testBit id1 = true := by
  by_contra hcon
  rw [not_or] at hcon
  apply h
  apply Nat.eq_of_testBit_eq
  intro k
  rw [Nat.testBit_land, Nat.testBit_or, Nat.testBit_two_pow, Nat.testBit_two_pow,
    Nat.zero_testBit]
  by_cases hk0 : id0 = k
  · subst hk0
    simp only [Bool.not_eq_true] at hcon
    simp [hcon.1]
  · by_cases hk1 : id1 = k
    · subst hk1
      simp only [Bool.not_eq_true] at hcon
      simp [hcon.2]
    · simp [hk0, hk1]

/-- C20. A control mask that overlaps a target bit disables the gate entirely:
for the arity-1 and arity-2 kernels, a state vector of length `2^N`, valid
distinct targets below `N` and any matrix, if `ctrlmask` has a bit in common
with the target bits (`2^id0`, or `2^id0 | 2^id1`) then `kernel_core` is never
called and the state vector after the call is the state vector before it. -/
theorem C20_overlapping_mask_disables_gate :
    (∀ (N : Nat) (psi : List ℂ), psi.length = 2 ^ N → ∀ (id0 : Nat), id0 < N →
      ∀ (m : Matrix (Fin 2) (Fin 2) ℂ) (ctrlmask : Nat), ctrlmask &&& 2 ^ id0 ≠ 0 →
        Kernel1.calls psi.length id0 ctrlmask = []
        ∧ Kernel1.kernel psi id0 m ctrlmask = psi)
    ∧ (∀ (N : Nat) (psi : List ℂ), psi.length = 2 ^ N → ∀ (id1 id0 : Nat), id1 < N → id0 < N →
      id1 ≠ id0 → ∀ (m : Matrix (Fin 4) (Fin 4) ℂ) (ctrlmask : Nat),
      ctrlmask &&& (2 ^ id0 ||| 2 ^ id1) ≠ 0 →
        Kernel2.calls psi.length id1 id0 ctrlmask = []
        ∧ Kernel2.kernel psi id1 id0 m ctrlmask = psi) := by
  constructor
  · intro N psi hlen id0 h0 m ctrlmask hov
    have hc0 : ctrlmask ≠ 0 := fun h => hov (by rw [h, Nat.zero_and])
    have hbit : ctrlmask.testBit id0 = true := by
      cases hb : ctrlmask.testBit id0 with
      | true => rfl
      | false => exact absurd ((land_two_pow_eq_zero_iff _ _).2 hb) hov
    have hnil : Kernel1.calls (2 ^ N) id0 ctrlmask = [] := by
      apply List.eq_nil_iff_forall_not_mem.2
      intro I hI
      obtain ⟨_, hb, hsel⟩ := (mem_calls1 h0 _ _).1 hI
      rcases hsel with h | h
      · exact hc0 h
      · rw [(land_eq_iff _ _).1 h id0 hbit] at hb
        cases hb
    rw [kernel1_eq_foldl h0 psi hlen, hlen, hnil]
    exact ⟨rfl, rfl⟩
  · intro N psi hlen id1 id0 h1 h0 hne m ctrlmask hov
    have hc0 : ctrlmask ≠ 0 := fun h => hov (by rw [h, Nat.zero_and])
    have hbit := testBit_of_land_lor_ne_zero hov
    have hnil : Kernel2.calls (2 ^ N) id1 id0 ctrlmask = [] := by
      apply List.eq_nil_iff_forall_not_mem.2
      intro I hI
      obtain ⟨_, hb0, hb1, hsel⟩ := (mem_calls2 h0 h1 hne _ _).1 hI
      rcases hsel with h | h
      · exact hc0 h
      · rcases hbit with hbit | hbit
        · rw [(land_eq_iff _ _).1 h id0 hbit] at hb0
          cases hb0
        · rw [(land_eq_iff _ _).1 h id1 hbit] at hb1
          cases hb1
    rw [kernel2_eq_foldl h0 h1 hne psi hlen, hlen, hnil]
    exact ⟨rfl, rfl⟩

/-- Witness for C20: Pauli-X on target 0 of two qubits with control mask `3`;
the CNOT matrix on targets `1, 0` of three qubits with control mask `6`. -/
theorem C20_overlapping_mask_disables_gate_witness :
    (([1, 2, 3, 4] : List ℂ).length = 2 ^ 2 ∧ 0 < 2 ∧ 3 &&& 2 ^ 0 ≠ 0
      ∧ Kernel1.calls ([1, 2, 3, 4] : List ℂ).length 0 3 = []
      ∧ Kernel1.kernel [1, 2, 3, 4] 0 !![0, 1; 1, 0] 3 = [1, 2, 3, 4])
    ∧ (([1, 2, 3, 4, 5, 6, 7, 8] : List ℂ).length = 2 ^ 3 ∧ 1 < 3 ∧ 0 < 3 ∧ 1 ≠ 0
      ∧ 6 &&& (2 ^ 0 ||| 2 ^ 1) ≠ 0
      ∧ Kernel2.calls ([1, 2, 3, 4, 5, 6, 7, 8] : List ℂ).length 1 0 6 = []
      ∧ Kernel2.kernel [1, 2, 3, 4, 5, 6, 7, 8] 1 0
          !![1, 0, 0, 0; 0, 1, 0, 0; 0, 0, 0, 1; 0, 0, 1, 0] 6 = [1, 2, 3, 4, 5, 6, 7, 8]) :=
  ⟨⟨rfl, by decide, by decide,
      C20_overlapping_mask_disables_gate.1 2 [1, 2, 3, 4] rfl 0 (by decide) !![0, 1; 1, 0] 3
        (by decide)⟩,
    ⟨rfl, by decide, by decide, by decide, by decide,
      C20_overlapping_mask_disables_gate.2 3 [1, 2, 3, 4, 5, 6, 7, 8] rfl 1 0 (by decide)
        (by decide) (by decide) !![1, 0, 0, 0; 0, 1, 0, 0; 0, 0, 0, 1; 0, 0, 1, 0] 6
        (by decide)⟩⟩


/-! ## The collapsed iteration spaces of the work-sharing loops -/

/-- Recording the loop variable onto an accumulator appends the recorded indices. -/
theorem forLoop_record_acc (hi step : Nat) :
    ∀ (k i : Nat) (acc : List Nat), hi - i = k →
      forLoop i hi step (fun x a => a ++ [x]) acc
        = acc ++ forLoop i hi step (fun x a => a ++ [x]) [] := by
  intro k
  induction k using Nat.strong_induction_on with
  | _ k ih =>
    intro i acc hk
    by_cases h : i < hi ∧ 0 < step
    · have e1 : forLoop i hi step (fun x a => a ++ [x]) acc
          = forLoop (i + step) hi step (fun x a => a ++ [x]) (acc ++ [i]) := by
        rw [forLoop, dif_pos h]
      have e2 : forLoop i hi step (fun x a => a ++ [x]) ([] : List Nat)
          = forLoop (i + step) hi step (fun x a => a ++ [x]) ([] ++ [i]) := by
        rw [forLoop, dif_pos h]
      rw [e1, e2, ih (hi - (i + step)) (by omega) (i + step) (acc ++ [i]) rfl,
        ih (hi - (i + step)) (by omega) (i + step) ([] ++ [i]) rfl]
      simp
    · have e1 : forLoop i hi step (fun x a => a ++ [x]) acc = acc := by
        rw [forLoop, dif_neg h]
      have e2 : forLoop i hi step (fun x a => a ++ [x]) ([] : List Nat) = [] := by
        rw [forLoop, dif_neg h]
      rw [e1, e2]
      simp

/-- A loop folds its body over the values its variable takes. -/
theorem forLoop_eq_foldl_record {σ : Type} (body : Nat → σ → σ) (hi step : Nat) :
    ∀ (k i : Nat) (s : σ), hi - i = k →
      forLoop i hi step body s
        = (forLoop i hi step (fun x a => a ++ [x]) []).foldl (fun s x => body x s) s := by
  intro k
  induction k using Nat.strong_induction_on with
  | _ k ih =>
    intro i s hk
    by_cases h : i < hi ∧ 0 < step
    · have e1 : forLoop i hi step body s = forLoop (i + step) hi step body (body i s) := by
        rw [forLoop, dif_pos h]
      have e2 : forLoop i hi step (fun x a => a ++ [x]) ([] : List Nat)
          = [i] ++ forLoop (i + step) hi step (fun x a => a ++ [x]) [] := by
        rw [forLoop, dif_pos h]
        exact forLoop_record_acc hi step _ (i + step) ([] ++ [i]) rfl
      rw [e1, e2, ih (hi - (i + step)) (by omega) (i + step) (body i s) rfl]
      rfl
    · have e1 : forLoop i hi step body s = s := by
        rw [forLoop, dif_neg h]
      have e2 : forLoop i hi step (fun x a => a ++ [x]) ([] : List Nat) = [] := by
        rw [forLoop, dif_neg h]
      rw [e1, e2]
      rfl

/-- A loop from zero folds its body over the indices of its header. -/
theorem forLoop_eq_foldl_indices {σ : Type} (body : Nat → σ → σ) (hi step : Nat) (s : σ) :
    forLoop 0 hi step body s
      = (ForHeader.indices ⟨hi, step⟩).foldl (fun s x => body x s) s :=
  forLoop_eq_foldl_record body hi step _ 0 s rfl

/-- Folding over a concatenation of blocks is folding block by block. -/
theorem foldl_flatMap_blocks {α β σ : Type} (f : σ → β → σ) (g : α → List β) :
    ∀ (L : List α) (s : σ),
      (L.flatMap g).foldl f s = L.foldl (fun s x => (g x).foldl f s) s := by
  intro L
  induction L with
  | nil => intro s; rfl
  | cons a L ih =>
    intro s
    rw [List.flatMap_cons, List.foldl_append, ih, List.foldl_cons]

/-- The index tuples of a two-level nest. -/
theorem iterations_two (h0 h1 : ForHeader) :
    iterations [h0, h1]
      = h0.indices.flatMap (fun i0 => h1.indices.map (fun i1 => [i0, i1])) := by
  simp only [iterations, List.map_cons, List.map_nil, ← List.map_eq_flatMap, List.map_map]
  rfl

/-- The index tuples of a three-level nest. -/
theorem iterations_three (h0 h1 h2 : ForHeader) :
    iterations [h0, h1, h2]
      = h0.indices.flatMap (fun i0 =>
          h1.indices.flatMap (fun i1 => h2.indices.map (fun i2 => [i0, i1, i2]))) := by
  have e : iterations [h0, h1, h2]
      = h0.indices.flatMap (fun i0 => (iterations [h1, h2]).map (fun t => i0 :: t)) := rfl
  rw [e, iterations_two]
  congr 1
  funext i0
  rw [List.map_flatMap]
  congr 1
  funext i1
  rw [List.map_map]
  rfl

/-- Collapsing both levels of a two-level nest runs the two loops. -/
theorem ompForCollapse_two {σ : Type} (h0 h1 : ForHeader) (body : List Nat → σ → σ) (s : σ) :
    ompForCollapse 2 [h0, h1] body s
      = forLoop 0 h0.hi h0.step (fun i0 s =>
          forLoop 0 h1.hi h1.step (fun i1 s => body [i0, i1] s) s) s := by
  simp only [forLoop_eq_foldl_indices]
  unfold ompForCollapse
  have et : List.take 2 [h0, h1] = [h0, h1] := rfl
  have ed : List.drop 2 [h0, h1] = [] := rfl
  rw [et, ed, iterations_two, foldl_flatMap_blocks]
  simp only [iterations, List.foldl_cons, List.foldl_nil, List.append_nil, List.foldl_map]

/-- Collapsing all levels of a three-level nest runs the three loops. -/
theorem ompForCollapse_three {σ : Type} (h0 h1 h2 : ForHeader) (body : List Nat → σ → σ)
    (s : σ) :
    ompForCollapse 3 [h0, h1, h2] body s
      = forLoop 0 h0.hi h0.step (fun i0 s =>
          forLoop 0 h1.hi h1.step (fun i1 s =>
            forLoop 0 h2.hi h2.step (fun i2 s => body [i0, i1, i2] s) s) s) s := by
  simp only [forLoop_eq_foldl_indices]
  unfold ompForCollapse
  have et : List.take 3 [h0, h1, h2] = [h0, h1, h2] := rfl
  have ed : List.drop 3 [h0, h1, h2] = [] := rfl
  rw [et, ed, iterations_three, foldl_flatMap_blocks]
  simp only [iterations, List.foldl_cons, List.foldl_nil, List.append_nil, List.foldl_map,
    foldl_flatMap_blocks]

/-- The single-target kernel is its work-sharing loop with `collapse(LOOP_COLLAPSE1)`. -/
theorem kernel1_omp_eq (psi : List ℂ) (id0 : Nat) (m : Matrix (Fin 2) (Fin 2) ℂ)
    (ctrlmask : Nat) :
    Kernel1.kernel_omp psi id0 m ctrlmask = Kernel1.kernel psi id0 m ctrlmask := by
  unfold Kernel1.kernel_omp Kernel1.kernel Kernel1.nest
  have hc : LOOP_COLLAPSE1 = 2 := rfl
  simp only [hc, ompForCollapse_two]

/-- The two-target kernel is its work-sharing loop with `collapse(LOOP_COLLAPSE2)`. -/
theorem kernel2_omp_eq (psi : List ℂ) (id1 id0 : Nat) (m : Matrix (Fin 4) (Fin 4) ℂ)
    (ctrlmask : Nat) :
    Kernel2.kernel_omp psi id1 id0 m ctrlmask = Kernel2.kernel psi id1 id0 m ctrlmask := by
  unfold Kernel2.kernel_omp Kernel2.kernel Kernel2.nest
  have hc : LOOP_COLLAPSE2 = 3 := rfl
  simp only [hc, ompForCollapse_three]


/-- Appending one recorded value per element appends the mapped list. -/
theorem foldl_append_map {α : Type} (f : α → Nat) :
    ∀ (L : List α) (acc : List Nat),
      L.foldl (fun acc x => acc ++ [f x]) acc = acc ++ L.map f := by
  intro L
  induction L with
  | nil => intro acc; simp
  | cons a L ih => intro acc; simp [ih]

/-- Appending one block per element appends the concatenated blocks. -/
theorem foldl_append_blocks {α : Type} (g : α → List Nat) :
    ∀ (L : List α) (acc : List Nat),
      L.foldl (fun acc x => acc ++ g x) acc = acc ++ L.flatMap g := by
  intro L
  induction L with
  | nil => intro acc; simp
  | cons a L ih => intro acc; simp [ih]

/-- Each iteration of the collapsed space of the single-target kernel is one
`kernel_core` call of the unconditional branch, in call order. -/
theorem collapsed1_eq_calls (n id0 : Nat) :
    (iterations ((Kernel1.nest n id0).take LOOP_COLLAPSE1)).map List.sum
      = Kernel1.calls n id0 0 := by
  unfold Kernel1.nest Kernel1.calls
  have hc : LOOP_COLLAPSE1 = 2 := rfl
  simp only [hc, if_true, List.take, iterations_two, forLoop_eq_foldl_indices,
    foldl_append_map, foldl_append_blocks, List.nil_append, List.map_flatMap, List.map_map]
  congr 1

/-- Each iteration of the collapsed space of the two-target kernel is one
`kernel_core` call of the unconditional branch, in call order. -/
theorem collapsed2_eq_calls (n id1 id0 : Nat) :
    (iterations ((Kernel2.nest n id1 id0).take LOOP_COLLAPSE2)).map List.sum
      = Kernel2.calls n id1 id0 0 := by
  unfold Kernel2.nest Kernel2.calls
  have hc : LOOP_COLLAPSE2 = 3 := rfl
  simp only [hc, if_true, List.take, iterations_three, forLoop_eq_foldl_indices,
    foldl_append_map, foldl_append_blocks, List.nil_append, List.map_flatMap, List.map_map]
  congr 1
  funext i0
  congr 1
  funext i1
  congr 1
  funext i2
  simp [Nat.add_assoc]

/-- The spec's nest for `k` sorted strides has `k + 1` levels. -/
theorem specNest_length (dsorted : List Nat) : ∀ (hi : Nat),
    (specNest hi dsorted).length = dsorted.length + 1 := by
  induction dsorted with
  | nil => intro hi; rfl
  | cons d ds ih => intro hi; simp [specNest, ih]

/-- The innermost level of the spec's nest is a unit-stride loop. -/
theorem specNest_getLast (dsorted : List Nat) : ∀ (hi : Nat),
    ((specNest hi dsorted).getLast?).map ForHeader.step = some 1 := by
  induction dsorted with
  | nil => intro hi; rfl
  | cons d ds ih =>
    intro hi
    have h := ih d
    rw [specNest, List.getLast?_cons]
    cases hl : (specNest d ds).getLast? with
    | none => rw [hl] at h; cases h
    | some x => rw [hl] at h; exact h


/-- The nest of the single-target kernel is the spec's nest for one stride. -/
theorem nest1_eq_specNest (n id0 : Nat) :
    Kernel1.nest n id0 = specNest n [1 <<< id0] :=
  rfl

/-- The nest of the two-target kernel is the spec's nest for its sorted strides. -/
theorem nest2_eq_specNest (n id1 id0 : Nat) :
    Kernel2.nest n id1 id0 = specNest n (Kernel2.dsorted (1 <<< id0) (1 <<< id1)) := by
  simp only [Kernel2.nest, dsorted_eq]
  by_cases h : 1 <<< id0 ≥ 1 <<< id1
  · simp only [if_pos h, List.getD_cons_zero, List.getD_cons_succ, specNest]
  · simp only [if_neg h, List.getD_cons_zero, List.getD_cons_succ, specNest]

/-- A collapse depth equal to the depth of a nest leaves no loop outside. -/
theorem collapse_full (nest : List ForHeader) (c : Nat) (h : c = nest.length) :
    nest.take c = nest ∧ nest.drop c = [] := by
  subst h
  exact ⟨List.take_length _, List.drop_length _⟩

/-- C16, amended. Loop-collapse depth per arity: for each arity `k` in `1..5`
the collapse depth `LOOP_COLLAPSEk` used by that arity's parallel loop counts
every level of the arity's `(k+1)`-level loop nest, that is
`LOOP_COLLAPSEk = k + 1`, so the innermost unit-stride loop is inside the
collapsed iteration space.  For arities 1 and 2: the kernel is its
`omp for collapse(LOOP_COLLAPSEk)` loop, the nest has `k + 1` headers, the
constant is that depth, the `LOOP_COLLAPSEk` outermost loops are the whole
nest and none is left below, the innermost header has step 1, and each
iteration of the collapsed space is one `kernel_core` call of the
unconditional branch.  For arities 3, 4, 5 the same on the spec's nest for any
`k` sorted strides, which for one and two strides is the nest of the kernels. -/
theorem C16_loop_collapse_depth :
    (∀ (psi : List ℂ) (id0 : Nat) (m : Matrix (Fin 2) (Fin 2) ℂ) (ctrlmask : Nat),
      Kernel1.kernel_omp psi id0 m ctrlmask = Kernel1.kernel psi id0 m ctrlmask
      ∧ (Kernel1.nest psi.length id0).length = 1 + 1
      ∧ LOOP_COLLAPSE1 = (Kernel1.nest psi.length id0).length
      ∧ (Kernel1.nest psi.length id0).take LOOP_COLLAPSE1 = Kernel1.nest psi.length id0
      ∧ (Kernel1.nest psi.length id0).drop LOOP_COLLAPSE1 = []
      ∧ ((Kernel1.nest psi.length id0).getLast?).map ForHeader.step = some 1
      ∧ (iterations ((Kernel1.nest psi.length id0).take LOOP_COLLAPSE1)).map List.sum
          = Kernel1.calls psi.length id0 0
      ∧ Kernel1.nest psi.length id0 = specNest psi.length [1 <<< id0])
    ∧ (∀ (psi : List ℂ) (id1 id0 : Nat) (m : Matrix (Fin 4) (Fin 4) ℂ) (ctrlmask : Nat),
      Kernel2.kernel_omp psi id1 id0 m ctrlmask = Kernel2.kernel psi id1 id0 m ctrlmask
      ∧ (Kernel2.nest psi.length id1 id0).length = 2 + 1
      ∧ LOOP_COLLAPSE2 = (Kernel2.nest psi.length id1 id0).length
      ∧ (Kernel2.nest psi.length id1 id0).take LOOP_COLLAPSE2 = Kernel2.nest psi.length id1 id0
      ∧ (Kernel2.nest psi.length id1 id0).drop LOOP_COLLAPSE2 = []
      ∧ ((Kernel2.nest psi.length id1 id0).getLast?).map ForHeader.step = some 1
      ∧ (iterations ((Kernel2.nest psi.length id1 id0).take LOOP_COLLAPSE2)).map List.sum
          = Kernel2.calls psi.length id1 id0 0
      ∧ Kernel2.nest psi.length id1 id0
          = specNest psi.length (Kernel2.dsorted (1 <<< id0) (1 <<< id1)))
    ∧ (∀ (n : Nat) (dsorted : List Nat), dsorted.length = 3 →
      (specNest n dsorted).length = 3 + 1
      ∧ LOOP_COLLAPSE3 = (specNest n dsorted).length
      ∧ (specNest n dsorted).take LOOP_COLLAPSE3 = specNest n dsorted
      ∧ (specNest n dsorted).drop LOOP_COLLAPSE3 = []
      ∧ ((specNest n dsorted).getLast?).map ForHeader.step = some 1)
    ∧ (∀ (n : Nat) (dsorted : List Nat), dsorted.length = 4 →
      (specNest n dsorted).length = 4 + 1
      ∧ LOOP_COLLAPSE4 = (specNest n dsorted).length
      ∧ (specNest n dsorted).take LOOP_COLLAPSE4 = specNest n dsorted
      ∧ (specNest n dsorted).drop LOOP_COLLAPSE4 = []
      ∧ ((specNest n dsorted).getLast?).map ForHeader.step = some 1)
    ∧ (∀ (n : Nat) (dsorted : List Nat), dsorted.length = 5 →
      (specNest n dsorted).length = 5 + 1
      ∧ LOOP_COLLAPSE5 = (specNest n dsorted).length
      ∧ (specNest n dsorted).take LOOP_COLLAPSE5 = specNest n dsorted
      ∧ (specNest n dsorted).drop LOOP_COLLAPSE5 = []
      ∧ ((specNest n dsorted).getLast?).map ForHeader.step = some 1) := by
  refine ⟨?_, ?_, ?_, ?_, ?_⟩
  · intro psi id0 m ctrlmask
    have hlen : (Kernel1.nest psi.length id0).length = 1 + 1 := rfl
    have hc : LOOP_COLLAPSE1 = (Kernel1.nest psi.length id0).length := rfl
    exact ⟨kernel1_omp_eq psi id0 m ctrlmask, hlen, hc, (collapse_full _ _ hc).1,
      (collapse_full _ _ hc).2, rfl, collapsed1_eq_calls _ _, nest1_eq_specNest _ _⟩
  · intro psi id1 id0 m ctrlmask
    have hlen : (Kernel2.nest psi.length id1 id0).length = 2 + 1 := rfl
    have hc : LOOP_COLLAPSE2 = (Kernel2.nest psi.length id1 id0).length := rfl
    exact ⟨kernel2_omp_eq psi id1 id0 m ctrlmask, hlen, hc, (collapse_full _ _ hc).1,
      (collapse_full _ _ hc).2, rfl, collapsed2_eq_calls _ _ _, nest2_eq_specNest _ _ _⟩
  · intro n dsorted hk
    have hlen : (specNest n dsorted).length = 3 + 1 := by rw [specNest_length, hk]
    have hc : LOOP_COLLAPSE3 = (specNest n dsorted).length := by rw [hlen]; rfl
    exact ⟨hlen, hc, (collapse_full _ _ hc).1, (collapse_full _ _ hc).2,
      specNest_getLast dsorted n⟩
  · intro n dsorted hk
    have hlen : (specNest n dsorted).length = 4 + 1 := by rw [specNest_length, hk]
    have hc : LOOP_COLLAPSE4 = (specNest n dsorted).length := by rw [hlen]; rfl
    exact ⟨hlen, hc, (collapse_full _ _ hc).1, (collapse_full _ _ hc).2,
      specNest_getLast dsorted n⟩
  · intro n dsorted hk
    have hlen : (specNest n dsorted).length = 5 + 1 := by rw [specNest_length, hk]
    have hc : LOOP_COLLAPSE5 = (specNest n dsorted).length := by rw [hlen]; rfl
    exact ⟨hlen, hc, (collapse_full _ _ hc).1, (collapse_full _ _ hc).2,
      specNest_getLast dsorted n⟩

/-- Witness for C16: the spec's nests of arities 3, 4 and 5 on sorted strides
`[4, 2, 1]`, `[8, 4, 2, 1]` and `[16, 8, 4, 2, 1]`. -/
theorem C16_loop_collapse_depth_witness :
    (([4, 2, 1] : List Nat).length = 3
      ∧ LOOP_COLLAPSE3 = (specNest 8 [4, 2, 1]).length
      ∧ (specNest 8 [4, 2, 1]).drop LOOP_COLLAPSE3 = [])
    ∧ (([8, 4, 2, 1] : List Nat).length = 4
      ∧ LOOP_COLLAPSE4 = (specNest 16 [8, 4, 2, 1]).length
      ∧ (specNest 16 [8, 4, 2, 1]).drop LOOP_COLLAPSE4 = [])
    ∧ (([16, 8, 4, 2, 1] : List Nat).length = 5
      ∧ LOOP_COLLAPSE5 = (specNest 32 [16, 8, 4, 2, 1]).length
      ∧ (specNest 32 [16, 8, 4, 2, 1]).drop LOOP_COLLAPSE5 = []) :=
  ⟨⟨rfl, (C16_loop_collapse_depth.2.2.1 8 [4, 2, 1] rfl).2.1,
      (C16_loop_collapse_depth.2.2.1 8 [4, 2, 1] rfl).2.2.2.1⟩,
    ⟨rfl, (C16_loop_collapse_depth.2.2.2.1 16 [8, 4, 2, 1] rfl).2.1,
      (C16_loop_collapse_depth.2.2.2.1 16 [8, 4, 2, 1] rfl).2.2.2.1⟩,
    ⟨rfl, (C16_loop_collapse_depth.2.2.2.2 32 [16, 8, 4, 2, 1] rfl).2.1,
      (C16_loop_collapse_depth.2.2.2.2 32 [16, 8, 4, 2, 1] rfl).2.2.2.1⟩⟩

end Divya
